import Mathlib

/-! Leak profiler checkpoint core (objectSampleCheckpoint.cpp)

A shallow embedding of `src/hotspot/share/jfr/leakprofiler/checkpoint/objectSampleCheckpoint.cpp`.

Conventions of the embedding.

* Execution is sequential.  Locks, the semaphore guarding the exited-thread set,
  thread-state transitions and safepoint checks are not part of the model.
* A HotSpot `assert` that fails is the fault `Fault.invariant` (debug build semantics),
  a dereference of `nullptr` or of an address outside the sample heap is `Fault.null_pointer`.
* Pointers to `ObjectSample` are addresses (`Addr`) into the sample heap `State.samples`;
  `nullptr` is `none`.  Loops over the sample list carry fuel.
* A `JfrBlobHandle` is `none` (the empty handle) or `some k`, naming blob `k` of the blob
  store `State.blobs`; blobs are shared by sharing `k`.
-/

namespace Jfr

abbrev traceid := Nat

abbrev Addr := Nat

/-- Ways in which an operation can fail to return. -/
inductive Fault where
  | invariant
  | null_pointer
  | out_of_fuel
  deriving DecidableEq, Repr

/-- The constant `max_jlong`. -/
def max_jlong : Int := 2 ^ 63 - 1

/-- The constant `initial_size` of the file. -/
def initial_size : Nat := 431

/-! ## Collaborator types -/

/-- Modelled from the spec: the id set of jfr/utilities/jfrSet.hpp (JfrCHeapTraceIdSet,
JfrResourceAreaTraceIdSet), which is not among the sources.  Spec 4.1: `add(id)` returns
whether `id` was newly inserted, `contains(id)`, no removal. -/
structure JfrTraceIdSet where
  ids : List traceid
  deriving DecidableEq, Repr

namespace JfrTraceIdSet

def contains (s : JfrTraceIdSet) (id : traceid) : Bool := decide (id ∈ s.ids)

def add (s : JfrTraceIdSet) (id : traceid) : Bool × JfrTraceIdSet :=
  if s.contains id then (false, s) else (true, ⟨s.ids ++ [id]⟩)

def size (s : JfrTraceIdSet) : Nat := s.ids.length

def is_nonempty (s : JfrTraceIdSet) : Bool := !s.ids.isEmpty

end JfrTraceIdSet

/-- Modelled from the spec: a stack frame record of the trace-capture collaborator
(spec 6: `Frame { class_id, method_id, line, type, ... }`); `klass` is the identity of the
frame's InstanceKlass. -/
structure JfrStackFrame where
  klass : Nat
  methodid : traceid
  line : Nat
  bci : Nat
  type : Nat
  deriving DecidableEq, Repr

/-- Modelled from the spec: a captured stack trace of the trace-capture collaborator, with
its id, hash, reached-root flag, frames and the `should_write` flag. -/
structure JfrStackTrace where
  id : traceid
  hash : traceid
  reached_root : Bool
  frames : List JfrStackFrame
  should_write : Bool
  deriving DecidableEq, Repr

def JfrStackTrace.number_of_frames (t : JfrStackTrace) : Nat := t.frames.length

/-- A field written through the checkpoint-record writer abstraction (spec 6). -/
inductive Field where
  | type (t : Nat)
  | count (n : Nat)
  | u8 (v : Nat)
  | u1 (v : Nat)
  | u4 (v : Nat)
  | frame (f : JfrStackFrame)
  | edge (e : Nat)
  deriving DecidableEq, Repr

/-- What a JfrCheckpointWriter holds: fields written directly, and the bytes of blobs
copied into it (tagged with the blob they were copied from). -/
inductive Entry where
  | field (f : Field)
  | blob_bytes (blob : Nat) (data : List Field)
  deriving DecidableEq, Repr

/-- Modelled from the spec: JfrCheckpointWriter is not among the sources; the data of one
writer, in write order. -/
abbrev JfrCheckpointWriter := List Entry

/-- The constant `TYPE_STACKTRACE` (its numeric value is immaterial). -/
def TYPE_STACKTRACE : Nat := 170

/-- Modelled from the spec: a Blob (spec 3), an immutable serialized block carrying a per-epoch
"already written" flag. -/
structure JfrBlob where
  data : List Field
  written : Bool
  deriving DecidableEq, Repr

abbrev JfrBlobHandle := Option Nat

def JfrBlobHandle.valid (h : JfrBlobHandle) : Bool := h.isSome

/-- The managed object a sample refers to, with the identity of its class. -/
structure oopDesc where
  addr : Nat
  klass : Nat
  deriving DecidableEq, Repr

/-- Modelled from the spec: ObjectSample (jfr/leakprofiler/sampling/objectSample.hpp) is not
among the sources.  Spec 3: identity (stack-trace id and hash, owning thread id, virtual-thread
flag, liveness and age), a forward link to the next older sample, and three lazily attached
blob handles.  `object = none` is the cleared slot of a dead sample. -/
structure ObjectSample where
  next : Option Addr
  object : Option oopDesc
  allocation_time : Int
  stack_trace_id : traceid
  stack_trace_hash : traceid
  thread_id : traceid
  virtual_thread : Bool
  stacktrace : JfrBlobHandle
  thread : JfrBlobHandle
  type_set : JfrBlobHandle
  deriving DecidableEq, Repr

namespace ObjectSample

def is_dead (s : ObjectSample) : Bool := s.object.isNone

def has_stack_trace_id (s : ObjectSample) : Bool := decide (s.stack_trace_id ≠ 0)

def has_stacktrace (s : ObjectSample) : Bool := s.stacktrace.valid

def has_thread (s : ObjectSample) : Bool := s.thread.valid

def has_type_set (s : ObjectSample) : Bool := s.type_set.valid

def is_virtual_thread (s : ObjectSample) : Bool := s.virtual_thread

def is_alive_and_older_than (s : ObjectSample) (time_stamp : Int) : Bool :=
  !s.is_dead && decide (s.allocation_time < time_stamp)

def set_stacktrace (s : ObjectSample) (blob : JfrBlobHandle) : ObjectSample :=
  { s with stacktrace := blob }

end ObjectSample

/-- The part of the VM this file reads and writes: the sampler with its sample heap, the
blob store, the file's static variables and the external collaborators. -/
structure State where
  samples : List ObjectSample
  last : Option Addr
  last_resolved : Option Addr
  unresolved_entry : Bool
  last_sweep : Int
  running : Bool
  old_object_queue_size : Nat
  blobs : Nat → JfrBlob
  blob_count : Nat
  unloaded_thread_id_set : Option JfrTraceIdSet
  id_set : Option JfrTraceIdSet
  stacktrace_id_set : Option JfrTraceIdSet
  repository : List JfrStackTrace
  lookups : List (traceid × traceid)
  unloaded_klasses : List traceid
  klass_id : traceid → traceid
  leakp_klasses : List Nat
  leakp_methods : List (Nat × traceid)
  type_sets : JfrBlobHandle
  type_set_installs : List (Option Addr × Option Addr)
  checkpoints : List JfrCheckpointWriter

/-! ## Exited threads -/

def c_heap_allocate_set : JfrTraceIdSet := ⟨[]⟩

def has_thread_exited (st : State) (tid : traceid) : Except Fault Bool :=
  if tid = 0 then .error .invariant
  else match st.unloaded_thread_id_set with
    | none => .ok false
    | some set => .ok (set.contains tid)

def add_to_unloaded_thread_set (st : State) (tid : traceid) : State :=
  let set := match st.unloaded_thread_id_set with
    | none => c_heap_allocate_set
    | some set => set
  { st with unloaded_thread_id_set := some (set.add tid).2 }

def ObjectSampleCheckpoint.on_thread_exit (st : State) (tid : traceid) : Except Fault State :=
  if tid = 0 then .error .invariant
  else if st.running then .ok (add_to_unloaded_thread_set st tid)
  else .ok st

def ObjectSampleCheckpoint.clear (st : State) : State :=
  match st.unloaded_thread_id_set with
  | some _ => { st with unloaded_thread_id_set := none }
  | none => st

/-- A sequence of `on_thread_exit` calls, in order. -/
def on_thread_exits : State → List traceid → Except Fault State
  | st, [] => .ok st
  | st, tid :: tids =>
    match ObjectSampleCheckpoint.on_thread_exit st tid with
    | .error e => .error e
    | .ok st1 => on_thread_exits st1 tids

/-! ## Iteration over the sample list -/

/-- The loop of `do_samples`: `while (sample != end) { processor.sample_do(sample);
sample = sample->next(); }`.  The processor state `π` travels with the VM state. -/
def do_samples_loop {π : Type} (sample_do : Addr → π × State → Except Fault (π × State)) :
    Nat → Option Addr → Option Addr → π × State → Except Fault (π × State)
  | 0, sample, end_, p => if sample = end_ then .ok p else .error .out_of_fuel
  | fuel + 1, sample, end_, p =>
    if sample = end_ then .ok p
    else match sample with
      | none => .error .null_pointer
      | some a =>
        match sample_do a p with
        | .error e => .error e
        | .ok p1 =>
          match p1.2.samples[a]? with
          | none => .error .null_pointer
          | some s => do_samples_loop sample_do fuel s.next end_ p1

def do_samples {π : Type} (sample_do : Addr → π × State → Except Fault (π × State))
    (fuel : Nat) (sample : Option Addr) (end_ : Option Addr) (p : π × State) :
    Except Fault (π × State) :=
  if sample = none then .error .invariant
  else do_samples_loop sample_do fuel sample end_ p

def iterate_samples {π : Type} (sample_do : Addr → π × State → Except Fault (π × State))
    (fuel : Nat) (all : Bool) (p : π × State) : Except Fault (π × State) :=
  let last := p.2.last
  if last = none then .error .invariant
  else do_samples sample_do fuel last (if all then none else p.2.last_resolved) p

/-! ## Mark-for-GC pass -/

/-- Modelled from the spec: the external marker collaborator (ObjectSampleMarker); the objects
handed to `mark`, in call order. -/
abbrev ObjectSampleMarker := List oopDesc

structure SampleMarker where
  marker : ObjectSampleMarker
  last_sweep : Int
  count : Nat

def SampleMarker.sample_do (a : Addr) (p : SampleMarker × State) :
    Except Fault (SampleMarker × State) :=
  match p.2.samples[a]? with
  | none => .error .null_pointer
  | some sample =>
    if sample.is_alive_and_older_than p.1.last_sweep then
      match sample.object with
      | none => .error .null_pointer
      | some object =>
        .ok ({ p.1 with marker := p.1.marker ++ [object], count := p.1.count + 1 }, p.2)
    else .ok p

def ObjectSampleCheckpoint.save_mark_words (fuel : Nat) (st : State) (marker : ObjectSampleMarker)
    (emit_all : Bool) : Except Fault (Nat × ObjectSampleMarker × State) :=
  if st.last = none then .ok (0, marker, st)
  else
    let sample_marker : SampleMarker :=
      ⟨marker, if emit_all then max_jlong else st.last_sweep, 0⟩
    match iterate_samples SampleMarker.sample_do fuel true (sample_marker, st) with
    | .error e => .error e
    | .ok p => .ok (p.1.count, p.1.marker, p.2)

/-! ## BlobCache -/

/-- Modelled from the spec: the entry type of jfr/utilities/jfrHashtable.hpp
(JfrHashtableEntry), not among the sources: a hash, the id recorded at insertion, and the blob
handle. -/
structure BlobEntry where
  hash : Nat
  id : traceid
  literal : JfrBlobHandle
  deriving DecidableEq, Repr

/-- Modelled from the spec: the chained hash table of jfr/utilities/jfrHashtable.hpp
(HashTableHost), not among the sources.  Spec 3: the hash selects a bucket.  `entries` holds
all entries, newest first; the chain of a bucket is the sublist of the entries whose hash
falls into it. -/
structure BlobTable where
  size : Nat
  entries : List BlobEntry
  deriving DecidableEq, Repr

def BlobTable.index_for (t : BlobTable) (hash : Nat) : Nat := hash % t.size

def BlobTable.bucket (t : BlobTable) (idx : Nat) : List BlobEntry :=
  t.entries.filter (fun e => decide (t.index_for e.hash = idx))

structure BlobCache where
  table : BlobTable
  lookup_id : traceid
  deriving DecidableEq, Repr

namespace BlobCache

def new (size : Nat) : BlobCache := ⟨⟨size, []⟩, 0⟩

def on_link (c : BlobCache) (entry : BlobEntry) : Except Fault BlobEntry :=
  if entry.id ≠ 0 then .error .invariant
  else .ok { entry with id := c.lookup_id }

def on_equals (c : BlobCache) (hash : Nat) (entry : BlobEntry) : Except Fault Bool :=
  if entry.hash ≠ hash then .error .invariant
  else .ok (decide (entry.id = c.lookup_id))

/-- Modelled from the spec: the walk of `lookup_only` over one bucket chain: the first entry
with this hash that the `on_equals` callback accepts (spec 4.3: "no match" if the hash collides
but the id differs). -/
def lookup_chain (c : BlobCache) (hash : Nat) : List BlobEntry → Except Fault (Option BlobEntry)
  | [] => .ok none
  | entry :: rest =>
    if entry.hash = hash then
      match c.on_equals hash entry with
      | .error e => .error e
      | .ok true => .ok (some entry)
      | .ok false => lookup_chain c hash rest
    else lookup_chain c hash rest

/-- Modelled from the spec: `_table.lookup_only(hash)`. -/
def lookup_only (c : BlobCache) (hash : Nat) : Except Fault (Option BlobEntry) :=
  c.lookup_chain hash (c.table.bucket (c.table.index_for hash))

/-- Modelled from the spec: `_table.put(hash, data)`, the direct insert that takes the entry
not to exist (spec 4.3: "insert under the invariant that no entry with this id exists yet");
the new entry gets its id from `on_link` and becomes the head of its bucket chain. -/
def table_put (c : BlobCache) (hash : Nat) (data : JfrBlobHandle) : Except Fault BlobCache :=
  match c.lookup_only hash with
  | .error e => .error e
  | .ok (some _) => .error .invariant
  | .ok none =>
    match c.on_link ⟨hash, 0, data⟩ with
    | .error e => .error e
    | .ok entry => .ok { c with table := { c.table with entries := entry :: c.table.entries } }

def get (c : BlobCache) (sample : ObjectSample) : Except Fault (JfrBlobHandle × BlobCache) :=
  let c1 := { c with lookup_id := sample.stack_trace_id }
  if c1.lookup_id = 0 then .error .invariant
  else match c1.lookup_only sample.stack_trace_hash with
    | .error e => .error e
    | .ok (some entry) => .ok (entry.literal, c1)
    | .ok none => .ok (none, c1)

def put (c : BlobCache) (sample : ObjectSample) (blob : JfrBlobHandle) : Except Fault BlobCache :=
  match c.lookup_only sample.stack_trace_hash with
  | .error e => .error e
  | .ok (some _) => .error .invariant
  | .ok none =>
    let c1 := { c with lookup_id := sample.stack_trace_id }
    if c1.lookup_id = 0 then .error .invariant
    else c1.table_put sample.stack_trace_hash blob

end BlobCache

/-! ## State helpers for the collaborators -/

/-- Store `f sample` at address `a` of the sample heap (an attach through an `ObjectSample*`). -/
def State.update_sample (st : State) (a : Addr) (f : ObjectSample → ObjectSample) : State :=
  match st.samples[a]? with
  | none => st
  | some sample => { st with samples := st.samples.set a (f sample) }

/-- Modelled from the spec: `JfrBlob::make`, a fresh blob with its flag unset. -/
def State.make_blob (st : State) (data : List Field) : JfrBlobHandle × State :=
  (some st.blob_count,
   { st with blobs := Function.update st.blobs st.blob_count ⟨data, false⟩,
             blob_count := st.blob_count + 1 })

/-- Modelled from the spec: `reset_write_state` of the blob behind a handle (spec 3, 4.5). -/
def State.reset_write_state (st : State) (blob : JfrBlobHandle) : State :=
  match blob with
  | none => st
  | some k => { st with blobs := Function.update st.blobs k { st.blobs k with written := false } }

/-- Modelled from the spec: `exclusive_write` of a blob (spec 3): "emits its bytes only if
unset, then sets it". -/
def State.exclusive_write (st : State) (k : Nat) (writer : JfrCheckpointWriter) :
    JfrCheckpointWriter × State :=
  if (st.blobs k).written then (writer, st)
  else (writer ++ [Entry.blob_bytes k (st.blobs k).data],
        { st with blobs := Function.update st.blobs k { st.blobs k with written := true } })

/-- Modelled from the spec: the end of a JfrCheckpointWriter scope: a writer that holds data
becomes one block of the checkpoint stream. -/
def State.commit (st : State) (writer : JfrCheckpointWriter) : State :=
  if writer.isEmpty then st else { st with checkpoints := st.checkpoints ++ [writer] }

def write_type (writer : JfrCheckpointWriter) (t : Nat) : JfrCheckpointWriter :=
  writer ++ [Entry.field (Field.type t)]

def write_count (writer : JfrCheckpointWriter) (n : Nat) : JfrCheckpointWriter :=
  writer ++ [Entry.field (Field.count n)]

/-- Modelled from the spec: `reserve(sizeof(u4))`, a count field to be patched; returns its offset. -/
def reserve (writer : JfrCheckpointWriter) : Nat × JfrCheckpointWriter :=
  (writer.length, writer ++ [Entry.field (Field.count 0)])

/-- Modelled from the spec: `write_count(count, offset)`, patching a reserved count field. -/
def write_count_at (writer : JfrCheckpointWriter) (n : Nat) (offset : Nat) : JfrCheckpointWriter :=
  writer.set offset (Entry.field (Field.count n))

/-- Modelled from the spec: `writer.copy()`: a blob of the data, the writer keeps its data. -/
def writer_copy (st : State) (writer : JfrCheckpointWriter) :
    JfrBlobHandle × JfrCheckpointWriter × State :=
  let r := st.make_blob (writer.filterMap fun e => match e with
    | Entry.field f => some f
    | Entry.blob_bytes _ _ => none)
  (r.1, writer, r.2)

/-- Modelled from the spec: `writer.move()`: a blob of the data, the writer gives its data up. -/
def writer_move (st : State) (writer : JfrCheckpointWriter) :
    JfrBlobHandle × JfrCheckpointWriter × State :=
  let r := st.make_blob (writer.filterMap fun e => match e with
    | Entry.field f => some f
    | Entry.blob_bytes _ _ => none)
  (r.1, [], r.2)

/-- Modelled from the spec: `JfrTraceId::load_leakp(klass)`, marking a class for retention. -/
def State.load_leakp_klass (st : State) (klass : Nat) : State :=
  { st with leakp_klasses := st.leakp_klasses ++ [klass] }

/-- Modelled from the spec: `JfrTraceId::load_leakp(ik, method)`, marking a method for retention;
the method found by `JfrMethodLookup::lookup(ik, method_id)` is named by the pair. -/
def State.load_leakp_method (st : State) (ik : Nat) (method_id : traceid) : State :=
  { st with leakp_methods := st.leakp_methods ++ [(ik, method_id)] }

/-- Modelled from the spec: `JfrStackTraceRepository::lookup_for_leak_profiler(hash, id)`,
lookup by (hash, id); the call is recorded in `lookups`. -/
def State.lookup_for_leak_profiler (st : State) (hash id : traceid) :
    Option JfrStackTrace × State :=
  (st.repository.find? (fun t => decide (t.hash = hash) && decide (t.id = id)),
   { st with lookups := st.lookups ++ [(hash, id)] })

/-! ## Stack trace resolution -/

def prepare_for_resolution (st : State) : State :=
  { st with id_set := some ⟨[]⟩ }

def stack_trace_precondition (sample : ObjectSample) : Bool :=
  sample.has_stack_trace_id && !sample.is_dead

def add_to_leakp_set (st : State) (sample : ObjectSample) : State :=
  match sample.object with
  | none => st
  | some object => st.load_leakp_klass object.klass

def is_klass_unloaded (st : State) (klass_id : traceid) : Bool :=
  decide (klass_id ∈ st.unloaded_klasses)

def is_processed (st : State) (method_id : traceid) : Except Fault (Bool × State) :=
  if method_id = 0 then .error .invariant
  else match st.id_set with
    | none => .error .invariant
    | some set => .ok (!(set.add method_id).1, { st with id_set := some (set.add method_id).2 })

def ObjectSampleCheckpoint.add_to_leakp_set (st : State) (ik : Nat) (method_id : traceid) :
    Except Fault State :=
  match is_processed st method_id with
  | .error e => .error e
  | .ok (true, st1) => .ok st1
  | .ok (false, st1) =>
    if is_klass_unloaded st1 (st1.klass_id method_id) then .ok st1
    else .ok (st1.load_leakp_method ik method_id)

/-- The frame loop of `write_stacktrace`. -/
def write_frames : List JfrStackFrame → JfrCheckpointWriter → State →
    Except Fault (JfrCheckpointWriter × State)
  | [], writer, st => .ok (writer, st)
  | frame :: rest, writer, st =>
    match ObjectSampleCheckpoint.add_to_leakp_set st frame.klass frame.methodid with
    | .error e => .error e
    | .ok st1 => write_frames rest (writer ++ [Entry.field (Field.frame frame)]) st1

def ObjectSampleCheckpoint.write_stacktrace (trace : JfrStackTrace) (writer : JfrCheckpointWriter)
    (st : State) : Except Fault (JfrCheckpointWriter × State) :=
  let writer1 := writer ++ [Entry.field (Field.u8 trace.id)]
  let writer2 := writer1 ++ [Entry.field (Field.u1 (if trace.reached_root then 0 else 1))]
  let number_of_frames := trace.number_of_frames
  let writer3 := writer2 ++ [Entry.field (Field.u4 (number_of_frames % 2 ^ 32))]
  write_frames (trace.frames.take number_of_frames) writer3 st

structure StackTraceBlobInstaller where
  cache : BlobCache
  deriving DecidableEq, Repr

namespace StackTraceBlobInstaller

def new (st : State) : StackTraceBlobInstaller × State :=
  (⟨BlobCache.new st.old_object_queue_size⟩, prepare_for_resolution st)

def validate_stack_trace (sample : ObjectSample) (stack_trace : Option JfrStackTrace) :
    Except Fault JfrStackTrace :=
  if sample.has_stacktrace then .error .invariant
  else match stack_trace with
    | none => .error .invariant
    | some trace =>
      if trace.hash ≠ sample.stack_trace_hash then .error .invariant
      else if trace.id ≠ sample.stack_trace_id then .error .invariant
      else .ok trace

def resolve (st : State) (sample : ObjectSample) : Option JfrStackTrace × State :=
  st.lookup_for_leak_profiler sample.stack_trace_hash sample.stack_trace_id

def install (a : Addr) (p : StackTraceBlobInstaller × State) :
    Except Fault (StackTraceBlobInstaller × State) :=
  match p.2.samples[a]? with
  | none => .error .null_pointer
  | some sample =>
    match p.1.cache.get sample with
    | .error e => .error e
    | .ok (blob, cache1) =>
      if blob.valid then
        .ok (⟨cache1⟩, p.2.update_sample a (fun s => s.set_stacktrace blob))
      else
        let r := resolve p.2 sample
        match validate_stack_trace sample r.1 with
        | .error e => .error e
        | .ok stack_trace =>
          let writer := write_count (write_type [] TYPE_STACKTRACE) 1
          match ObjectSampleCheckpoint.write_stacktrace stack_trace writer r.2 with
          | .error e => .error e
          | .ok (writer1, st2) =>
            let b := if stack_trace.should_write then writer_copy st2 writer1
                     else writer_move st2 writer1
            match cache1.put sample b.1 with
            | .error e => .error e
            | .ok cache2 =>
              .ok (⟨cache2⟩,
                   (b.2.2.update_sample a (fun s => s.set_stacktrace b.1)).commit b.2.1)

def sample_do (a : Addr) (p : StackTraceBlobInstaller × State) :
    Except Fault (StackTraceBlobInstaller × State) :=
  match p.2.samples[a]? with
  | none => .error .null_pointer
  | some sample =>
    if stack_trace_precondition sample then
      install a (p.1, add_to_leakp_set p.2 sample)
    else .ok p

end StackTraceBlobInstaller

def install_stack_traces (fuel : Nat) (st : State) : Except Fault State :=
  if st.last = none then .error .invariant
  else if st.last = st.last_resolved then .error .invariant
  else
    let installer := StackTraceBlobInstaller.new st
    match iterate_samples StackTraceBlobInstaller.sample_do fuel false installer with
    | .error e => .error e
    | .ok p => .ok p.2

/-- The loop of `reset_blob_write_state`, from `sample` to the end of the list. -/
def reset_blob_write_state_loop : Nat → Option Addr → State → Except Fault State
  | _, none, st => .ok st
  | 0, some _, _ => .error .out_of_fuel
  | fuel + 1, some a, st =>
    match st.samples[a]? with
    | none => .error .null_pointer
    | some sample =>
      let st1 := if sample.has_stacktrace then st.reset_write_state sample.stacktrace else st
      let st2 := if sample.has_thread then st1.reset_write_state sample.thread else st1
      let st3 := if sample.has_type_set then st2.reset_write_state sample.type_set else st2
      reset_blob_write_state_loop fuel sample.next st3

def reset_blob_write_state (fuel : Nat) (st : State) : Except Fault State :=
  reset_blob_write_state_loop fuel st.last_resolved st

/-- Modelled from the spec: `ObjectSampler::has_unresolved_entry()`, the sampler's check for
unresolved entries; its answer is the sampler's. -/
def has_unresolved_entry (st : State) : Bool := st.unresolved_entry

/-- Modelled from the spec: `JfrStackTraceRepository::clear_leak_profiler()` (spec 4.5 step 4). -/
def clear_leak_profiler (st : State) : State := { st with repository := [] }

def ObjectSampleCheckpoint.on_rotation (fuel : Nat) (st : State) : Except Fault State :=
  if !st.running then .error .invariant
  else match reset_blob_write_state fuel st with
    | .error e => .error e
    | .ok st1 =>
      if !has_unresolved_entry st1 then .ok st1
      else match install_stack_traces fuel st1 with
        | .error e => .error e
        | .ok st2 => .ok (clear_leak_profiler st2)

/-! ## Checkpoint write -/

def write_blob (blob : JfrBlobHandle) (writer : JfrCheckpointWriter) (st : State) :
    Except Fault (JfrCheckpointWriter × State) :=
  match blob with
  | none => .error .null_pointer
  | some k => .ok (st.exclusive_write k writer)

def write_type_set_blob (sample : ObjectSample) (writer : JfrCheckpointWriter) (st : State) :
    Except Fault (JfrCheckpointWriter × State) :=
  if sample.has_type_set then write_blob sample.type_set writer st
  else .ok (writer, st)

def write_thread_blob (sample : ObjectSample) (writer : JfrCheckpointWriter) (st : State) :
    Except Fault (JfrCheckpointWriter × State) :=
  if !sample.has_thread then .error .invariant
  else if sample.is_virtual_thread then write_blob sample.thread writer st
  else match has_thread_exited st sample.thread_id with
    | .error e => .error e
    | .ok true => write_blob sample.thread writer st
    | .ok false => .ok (writer, st)

def should_write (st : State) (stacktrace : JfrStackTrace) : Except Fault Bool :=
  match st.stacktrace_id_set with
  | none => .error .invariant
  | some set => .ok (stacktrace.should_write && set.contains stacktrace.id)

/-- Modelled from the spec: `JfrStackTrace::write(writer)`, one stack-trace record (spec 6):
id, the inverted reached-root flag, the frame count, the frames. -/
def JfrStackTrace.write (t : JfrStackTrace) (writer : JfrCheckpointWriter) : JfrCheckpointWriter :=
  writer ++ [Entry.field (Field.u8 t.id),
             Entry.field (Field.u1 (if t.reached_root then 0 else 1)),
             Entry.field (Field.u4 (t.number_of_frames % 2 ^ 32))]
    ++ t.frames.map (fun f => Entry.field (Field.frame f))

structure LeakProfilerStackTraceWriter where
  writer : JfrCheckpointWriter
  count : Nat
  deriving DecidableEq, Repr

/-- The call operator of LeakProfilerStackTraceWriter. -/
def LeakProfilerStackTraceWriter.apply (w : LeakProfilerStackTraceWriter) (st : State)
    (stacktrace : JfrStackTrace) : Except Fault LeakProfilerStackTraceWriter :=
  match should_write st stacktrace with
  | .error e => .error e
  | .ok true => .ok ⟨stacktrace.write w.writer, w.count + 1⟩
  | .ok false => .ok w

/-- Modelled from the spec: `JfrStackTraceRepository::iterate_leakprofiler`, the iteration
callback over the traces recorded for the leak profiler. -/
def iterate_leakprofiler (st : State) :
    List JfrStackTrace → LeakProfilerStackTraceWriter → Except Fault LeakProfilerStackTraceWriter
  | [], w => .ok w
  | t :: ts, w =>
    match w.apply st t with
    | .error e => .error e
    | .ok w1 => iterate_leakprofiler st ts w1

def ObjectSampleCheckpoint.write_stacktraces (st : State) : Except Fault State :=
  match st.stacktrace_id_set with
  | none => .error .invariant
  | some set =>
    if !set.is_nonempty then .error .invariant
    else
      let writer := write_type [] TYPE_STACKTRACE
      let r := reserve writer
      match iterate_leakprofiler st st.repository ⟨r.2, 0⟩ with
      | .error e => .error e
      | .ok lpstw =>
        if lpstw.count ≠ set.size then .error .invariant
        else .ok (st.commit (write_count_at lpstw.writer lpstw.count r.1))

def write_stacktrace_blob (sample : ObjectSample) (writer : JfrCheckpointWriter) (st : State) :
    Except Fault (JfrCheckpointWriter × State) :=
  match st.stacktrace_id_set with
  | none => .error .invariant
  | some set =>
    if sample.has_stacktrace then write_blob sample.stacktrace writer st
    else
      let stacktrace_id := sample.stack_trace_id
      if stacktrace_id ≠ 0 then
        .ok (writer, { st with stacktrace_id_set := some (set.add stacktrace_id).2 })
      else .ok (writer, st)

def write_blobs (sample : ObjectSample) (writer : JfrCheckpointWriter) (st : State) :
    Except Fault (JfrCheckpointWriter × State) :=
  match write_stacktrace_blob sample writer st with
  | .error e => .error e
  | .ok (writer1, st1) =>
    match write_thread_blob sample writer1 st1 with
    | .error e => .error e
    | .ok (writer2, st2) => write_type_set_blob sample writer2 st2

structure BlobWriter where
  writer : JfrCheckpointWriter
  last_sweep : Int
  deriving DecidableEq, Repr

def BlobWriter.sample_do (a : Addr) (p : BlobWriter × State) : Except Fault (BlobWriter × State) :=
  match p.2.samples[a]? with
  | none => .error .null_pointer
  | some sample =>
    if sample.is_alive_and_older_than p.1.last_sweep then
      match write_blobs sample p.1.writer p.2 with
      | .error e => .error e
      | .ok (writer1, st1) => .ok ({ p.1 with writer := writer1 }, st1)
    else .ok p

def write_sample_blobs (fuel : Nat) (emit_all : Bool) (st : State) : Except Fault State :=
  let last_sweep := if emit_all then max_jlong else st.last_sweep
  let cbw : BlobWriter := ⟨[], last_sweep⟩
  match iterate_samples BlobWriter.sample_do fuel true (cbw, st) with
  | .error e => .error e
  | .ok p => .ok (p.2.commit p.1.writer)

def set_size (st : State) : Nat :=
  let queue_size := st.old_object_queue_size % 2 ^ 32
  if queue_size > initial_size then queue_size else initial_size

/-- Modelled from the spec: the reference-chain store (EdgeStore), an external collaborator;
its edges are opaque here. -/
abbrev EdgeStore := List Nat

/-- Modelled from the spec: `edge_store->iterate(osw)` with an ObjectSampleWriter (spec 4.7
step 4): the chain store emits its edge records into the writer. -/
def EdgeStore.iterate (edge_store : EdgeStore) (writer : JfrCheckpointWriter) :
    JfrCheckpointWriter :=
  writer ++ edge_store.map (fun e => Entry.field (Field.edge e))

def ObjectSampleCheckpoint.write (fuel : Nat) (st : State) (edge_store : EdgeStore)
    (emit_all : Bool) : Except Fault State :=
  let st0 := { st with stacktrace_id_set := some ⟨[]⟩ }
  match write_sample_blobs fuel emit_all st0 with
  | .error e => .error e
  | .ok st1 =>
    let r := match st1.stacktrace_id_set with
      | none => Except.error Fault.invariant
      | some set =>
        if set.is_nonempty then ObjectSampleCheckpoint.write_stacktraces st1 else .ok st1
    match r with
    | .error e => .error e
    | .ok st2 =>
      if !edge_store.isEmpty then .ok (st2.commit (EdgeStore.iterate edge_store []))
      else .ok st2

/-! ## Type sets -/

/-- Modelled from the spec: what `JfrReferenceCountedStorage::install` does to one sample:
it attaches the storage's type-set blob. -/
def install_type_set (a : Addr) (p : Unit × State) : Except Fault (Unit × State) :=
  match p.2.samples[a]? with
  | none => .error .null_pointer
  | some _ =>
    .ok (p.1, p.2.update_sample a
      (fun s => { s with type_set := if p.2.type_sets.valid then p.2.type_sets else s.type_set }))

/-- Modelled from the spec: `JfrReferenceCountedStorage::install(sample, end)` (spec 4.6):
"install type-usage-set information onto all samples between the current last and the
previous last resolved boundary".  The request is recorded in `type_set_installs`. -/
def JfrReferenceCountedStorage.install (fuel : Nat) (sample end_ : Option Addr) (st : State) :
    Except Fault State :=
  let st1 := { st with type_set_installs := st.type_set_installs ++ [(sample, end_)] }
  match do_samples_loop install_type_set fuel sample end_ ((), st1) with
  | .error e => .error e
  | .ok p => .ok p.2

def State.set_last_resolved (st : State) (sample : Option Addr) : State :=
  { st with last_resolved := sample }

def ObjectSampleCheckpoint.on_type_set (fuel : Nat) (st : State) : Except Fault State :=
  if !st.running then .error .invariant
  else if !has_unresolved_entry st then .ok st
  else
    let last := st.last
    if last = none then .error .invariant
    else if last = st.last_resolved then .error .invariant
    else match JfrReferenceCountedStorage.install fuel last st.last_resolved st with
      | .error e => .error e
      | .ok st1 => .ok (st1.set_last_resolved last)

/-! ## Example data -/

/-- A VM state without samples, blobs or traces; the leak profiler is running. -/
def State.initial : State where
  samples := []
  last := none
  last_resolved := none
  unresolved_entry := false
  last_sweep := 0
  running := true
  old_object_queue_size := 256
  blobs := fun _ => ⟨[], false⟩
  blob_count := 0
  unloaded_thread_id_set := none
  id_set := none
  stacktrace_id_set := none
  repository := []
  lookups := []
  unloaded_klasses := []
  klass_id := fun method_id => method_id / 2 ^ 16
  leakp_klasses := []
  leakp_methods := []
  type_sets := none
  type_set_installs := []
  checkpoints := []

/-- A live sample of a platform thread, without blobs. -/
def ObjectSample.live (next : Option Addr) (hash id : traceid) : ObjectSample where
  next := next
  object := some ⟨0, 1⟩
  allocation_time := 0
  stack_trace_id := id
  stack_trace_hash := hash
  thread_id := 1
  virtual_thread := false
  stacktrace := none
  thread := none
  type_set := none

/-! ## Notions used in the statements -/

/-- The entry for key (hash, id), as a predicate on entries. -/
def BlobCache.is_key (hash : Nat) (id : traceid) (e : BlobEntry) : Bool :=
  decide (e.hash = hash) && decide (e.id = id)

/-- The table holds an entry for key (hash, id). -/
def BlobCache.has_entry (c : BlobCache) (hash : Nat) (id : traceid) : Bool :=
  c.table.entries.any (BlobCache.is_key hash id)

/-- The handle `get` returns, without the cache. -/
def BlobCache.get_blob (c : BlobCache) (sample : ObjectSample) : Except Fault JfrBlobHandle :=
  match c.get sample with
  | .error e => .error e
  | .ok r => .ok r.1

/-- The forward links of the sample heap, by address. -/
def links (samples : List ObjectSample) : List (Option Addr) := samples.map (fun s => s.next)

/-- Following the forward links from pointer `p`, the nodes `nodes` are met, in this order,
before the pointer first equals `end_`. -/
def is_path (samples : List ObjectSample) : Option Addr → Option Addr → List Addr → Bool
  | p, end_, [] => decide (p = end_)
  | p, end_, a :: rest =>
    decide (p = some a) && decide (p ≠ end_) &&
      match samples[a]? with
      | none => false
      | some s => is_path samples s.next end_ rest

/-- A processor applied to the nodes of a list, in order. -/
def run_list {π : Type} (sample_do : Addr → π × State → Except Fault (π × State)) :
    List Addr → π × State → Except Fault (π × State)
  | [], p => .ok p
  | a :: rest, p =>
    match sample_do a p with
    | .error e => .error e
    | .ok p1 => run_list sample_do rest p1

/-- The blob handles attached to a sample. -/
def ObjectSample.holds (s : ObjectSample) (k : Nat) : Prop :=
  s.stacktrace = some k ∨ s.thread = some k ∨ s.type_set = some k

instance (s : ObjectSample) (k : Nat) : Decidable (s.holds k) := by
  unfold ObjectSample.holds; exact inferInstance

/-- What one round of the loop of `reset_blob_write_state` does for a sample. -/
def reset_sample (st : State) (sample : ObjectSample) : State :=
  let st1 := if sample.has_stacktrace then st.reset_write_state sample.stacktrace else st
  let st2 := if sample.has_thread then st1.reset_write_state sample.thread else st1
  if sample.has_type_set then st2.reset_write_state sample.type_set else st2

/-- The parts of the state owned by the sampler and the other collaborators that neither the
resolver nor the flag reset writes. -/
def State.fixed (st : State) :=
  (st.last, st.last_resolved, st.unresolved_entry, st.last_sweep, st.running,
   st.old_object_queue_size, st.unloaded_thread_id_set, st.stacktrace_id_set, st.repository,
   st.unloaded_klasses, st.klass_id, st.type_sets, st.type_set_installs)

/-- The dedup key of a sample. -/
def ObjectSample.key (s : ObjectSample) : traceid × traceid :=
  (s.stack_trace_hash, s.stack_trace_id)

/-- The cache entry found for a sample's key, if any. -/
def BlobCache.find (c : BlobCache) (s : ObjectSample) : Option BlobEntry :=
  c.table.entries.find? (BlobCache.is_key s.stack_trace_hash s.stack_trace_id)

/-- The data of the blob the resolver makes for a trace: type, count 1, and the record. -/
def trace_blob_data (t : JfrStackTrace) : List Field :=
  [Field.type TYPE_STACKTRACE, Field.count 1, Field.u8 t.id,
   Field.u1 (if t.reached_root then 0 else 1), Field.u4 (t.number_of_frames % 2 ^ 32)]
    ++ t.frames.map Field.frame

/-- The keys that cause a repository lookup, in order: every key at its first occurrence. -/
def first_visits_from {α : Type} [DecidableEq α] (seen keys : List α) : List α :=
  keys.foldl (fun acc k => if k ∈ acc then acc else acc ++ [k]) seen

def first_visits {α : Type} [DecidableEq α] (keys : List α) : List α :=
  first_visits_from [] keys

/-- The key of the sample at an address, if that sample satisfies the stack-trace precondition. -/
def precondition_key (samples : List ObjectSample) (a : Addr) : Option (traceid × traceid) :=
  match samples[a]? with
  | some s => if stack_trace_precondition s then some s.key else none
  | none => none

/-- The keys of the samples at `nodes` that satisfy the stack-trace precondition, in order. -/
def precondition_keys (samples : List ObjectSample) (nodes : List Addr) :
    List (traceid × traceid) :=
  nodes.filterMap (precondition_key samples)

/-- A sample without its stack-trace blob handle. -/
def ObjectSample.identity (s : ObjectSample) : ObjectSample := { s with stacktrace := none }

def BlobEntry.key (e : BlobEntry) : traceid × traceid := (e.hash, e.id)

/-- The invariant of a resolver pass that started in state `st0` with an empty cache and has
visited the nodes `done`. -/
structure InstallerInv (st0 : State) (done : List Addr)
    (p : StackTraceBlobInstaller × State) : Prop where
  identity : p.2.samples.map ObjectSample.identity = st0.samples.map ObjectSample.identity
  fixed : p.2.fixed = st0.fixed
  count : p.2.blob_count = st0.blob_count + p.1.cache.table.entries.length
  literal : ∀ e ∈ p.1.cache.table.entries,
    ∃ k, e.literal = some k ∧ st0.blob_count ≤ k ∧ k < p.2.blob_count
  fresh : ∀ k, st0.blob_count ≤ k → k < p.2.blob_count →
    (p.2.blobs k).data ≠ [] ∧ (p.2.blobs k).written = false
  flags : ∀ k, (p.2.blobs k).written = true → (st0.blobs k).written = true
  keys : p.1.cache.table.entries.map BlobEntry.key =
    (first_visits (precondition_keys st0.samples done)).reverse
  lookups : p.2.lookups = st0.lookups ++ first_visits (precondition_keys st0.samples done)
  attached : ∀ b ∈ done, ∀ s, p.2.samples[b]? = some s → stack_trace_precondition s = true →
    ∃ e, p.1.cache.find s = some e ∧ s.stacktrace = e.literal
  handles : ∀ (b : Addr) (s s0 : ObjectSample),
    p.2.samples[b]? = some s → st0.samples[b]? = some s0 →
    s.stacktrace = s0.stacktrace ∨
      ∃ k, s.stacktrace = some k ∧ st0.blob_count ≤ k ∧ k < p.2.blob_count

/-- The result of a returning computation, `d` for one that faults. -/
def result_or {α : Type} (r : Except Fault α) (d : α) : α :=
  match r with
  | .ok x => x
  | .error _ => d

/-- A trace of one frame that has not reached the root. -/
def JfrStackTrace.plain (hash id : traceid) (should_write : Bool) : JfrStackTrace :=
  ⟨id, hash, false, [⟨1, 65536 + 1, 10, 0, 0⟩], should_write⟩

/-- Three unresolved live samples 0 → 1 → 2: two with key (3, 42), then one with key (5, 7);
the repository holds the two traces. -/
def State.three_unresolved : State :=
  { State.initial with
    samples := [ObjectSample.live (some 1) 3 42, ObjectSample.live (some 2) 3 42,
                ObjectSample.live none 5 7]
    last := some 0
    last_resolved := none
    unresolved_entry := true
    repository := [JfrStackTrace.plain 3 42 false, JfrStackTrace.plain 5 7 true] }

/-- Two resolved live samples 0 → 1 that share stack-trace blob 0 (sample 0 also holds thread
blob 1 and type-set blob 2); every blob is flagged as written; nothing is unresolved. -/
def State.two_resolved : State :=
  { State.initial with
    samples := [{ ObjectSample.live (some 1) 3 42 with
                  stacktrace := some 0, thread := some 1, type_set := some 2 },
                { ObjectSample.live none 3 42 with stacktrace := some 0 }]
    last := some 0
    last_resolved := some 0
    blobs := fun k => ⟨[Field.u8 k], true⟩
    blob_count := 3 }

/-- The resolved-population invariant: every sample from the `last resolved` cursor to the end
of the list that has a nonzero stack-trace id and is not dead holds a stack-trace blob. -/
def resolved_population_ok (st : State) : Prop :=
  ∀ nodes, is_path st.samples st.last_resolved none nodes = true →
    ∀ a ∈ nodes, ∀ s, st.samples[a]? = some s →
      s.stack_trace_id ≠ 0 → s.is_dead = false → s.has_stacktrace = true

/-- A sample without its type-set blob handle. -/
def ObjectSample.sans_type_set (s : ObjectSample) : ObjectSample := { s with type_set := none }

/-- The state `st1` differs from `st` in the sample heap at most. -/
def State.same_but_samples (st1 st : State) : Prop := st1 = { st with samples := st1.samples }

/-- Every sample between `last` and the `last resolved` boundary that has a nonzero
stack-trace id and is not dead holds a stack-trace blob. -/
def unresolved_range_ok (st : State) : Prop :=
  ∀ nodes, is_path st.samples st.last st.last_resolved nodes = true →
    ∀ a ∈ nodes, ∀ s, st.samples[a]? = some s →
      s.stack_trace_id ≠ 0 → s.is_dead = false → s.has_stacktrace = true

/-- The entry holds the bytes of blob `k`. -/
def Entry.is_blob (k : Nat) : Entry → Bool
  | Entry.blob_bytes j _ => decide (j = k)
  | Entry.field _ => false

/-- How often the bytes of blob `k` were copied into a writer. -/
def emissions_in (k : Nat) (w : JfrCheckpointWriter) : Nat := w.countP (Entry.is_blob k)

/-- How often the bytes of blob `k` occur in a sequence of checkpoint blocks. -/
def emissions (k : Nat) (blocks : List JfrCheckpointWriter) : Nat :=
  (blocks.map (emissions_in k)).sum

/-- One if a flag went from unset to set, else zero. -/
def flipped (before after : Bool) : Nat := if !before && after then 1 else 0

/-- The state `st1` differs from `st` in blob flags and the pending-id set at most. -/
def State.same_but_flags (st1 st : State) : Prop :=
  st1 = { st with blobs := st1.blobs, stacktrace_id_set := st1.stacktrace_id_set }

/-- The relation between a writer and state before and after blob writes: flags are only set,
blob data stays, and the bytes of a blob were copied exactly when its flag went from unset
to set. -/
structure Emits (w : JfrCheckpointWriter) (st : State) (w1 : JfrCheckpointWriter)
    (st1 : State) : Prop where
  frame : st1.same_but_flags st
  mono : ∀ j, (st.blobs j).written = true → (st1.blobs j).written = true
  data : ∀ j, (st1.blobs j).data = (st.blobs j).data
  count : ∀ k, emissions_in k w1 =
    emissions_in k w + flipped (st.blobs k).written (st1.blobs k).written

/-- The id a selected sample adds to the pending set, if any. -/
def pending_id (s : ObjectSample) : Option traceid :=
  if !s.has_stacktrace && decide (s.stack_trace_id ≠ 0) then some s.stack_trace_id else none

/-- The ids that the samples at `nodes` selected by the age threshold add to the pending set,
in visit order. -/
def selected_pending (samples : List ObjectSample) (last_sweep : Int) (nodes : List Addr) :
    List traceid :=
  nodes.filterMap (fun a => match samples[a]? with
    | some s => if s.is_alive_and_older_than last_sweep then pending_id s else none
    | none => none)

/-- The traces that `write_stacktraces` writes: those flagged `should_write` whose id is
pending, in repository order. -/
def dedup_traces (set : JfrTraceIdSet) (repository : List JfrStackTrace) : List JfrStackTrace :=
  repository.filter (fun t => t.should_write && set.contains t.id)

/-- The record of one trace, as `JfrStackTrace::write` writes it. -/
def trace_record (t : JfrStackTrace) : List Entry := t.write []

/-- The records of a list of traces, in order. -/
def trace_records : List JfrStackTrace → List Entry
  | [] => []
  | t :: ts => trace_record t ++ trace_records ts

/-- The dedup stack-trace block: the type, the patched count field, and the records. -/
def dedup_block (traces : List JfrStackTrace) : JfrCheckpointWriter :=
  [Entry.field (Field.type TYPE_STACKTRACE), Entry.field (Field.count traces.length)] ++
    trace_records traces

/-- The entry is a directly written field. -/
def Entry.is_field : Entry → Bool
  | Entry.field _ => true
  | Entry.blob_bytes _ _ => false

/-- The block a writer leaves in the checkpoint stream at the end of its scope. -/
def block_of (w : JfrCheckpointWriter) : List JfrCheckpointWriter :=
  if w.isEmpty then [] else [w]

/-- The age threshold that selects the population of a write or mark pass. -/
def threshold (st : State) (emit_all : Bool) : Int :=
  if emit_all then max_jlong else st.last_sweep

/-- The blocks one `write` adds to the checkpoint stream: the blob block of writer `w`, the
dedup stack-trace block if ids are pending, and the block of the chain store. -/
def write_blocks (w : JfrCheckpointWriter) (set : JfrTraceIdSet)
    (repository : List JfrStackTrace) (edge_store : EdgeStore) : List JfrCheckpointWriter :=
  block_of w ++
    (if set.is_nonempty then block_of (dedup_block (dedup_traces set repository)) else []) ++
    (if edge_store.isEmpty then [] else block_of (EdgeStore.iterate edge_store []))

/-- The end-to-end scenario: the newest sample 0 has stack-trace id 7 and no stack-trace blob;
the samples 1, 2, 3 share stack-trace id 42 (hash 3) and stack-trace blob 0.  All are live
samples of a live platform thread with thread blob 1.  No blob is flagged as written.  The
repository holds the trace with id 7, flagged `should_write`. -/
def State.scenario : State :=
  { State.initial with
    samples := [{ ObjectSample.live (some 1) 5 7 with thread := some 1 },
                { ObjectSample.live (some 2) 3 42 with stacktrace := some 0, thread := some 1 },
                { ObjectSample.live (some 3) 3 42 with stacktrace := some 0, thread := some 1 },
                { ObjectSample.live none 3 42 with stacktrace := some 0, thread := some 1 }]
    last := some 0
    last_resolved := some 1
    unresolved_entry := true
    blobs := fun k => ⟨[Field.u8 (100 + k)], false⟩
    blob_count := 2
    repository := [JfrStackTrace.plain 5 7 true] }

/-- The scenario state with an empty trace repository: the pending id 7 has no trace. -/
def State.pending_without_trace : State := { State.scenario with repository := [] }

/-- What the resolver needs of a sample that satisfies the stack-trace precondition, to
resolve it: no stack-trace blob yet, and a trace for its (hash, id) in the repository, whose
frames carry nonzero method ids. -/
def resolvable (st : State) (s : ObjectSample) : Prop :=
  stack_trace_precondition s = true →
    s.stacktrace = none ∧
    ∃ t, st.repository.find? (fun t => decide (t.hash = s.stack_trace_hash) &&
        decide (t.id = s.stack_trace_id)) = some t ∧
      ∀ f ∈ t.frames, f.methodid ≠ 0

/-- A sample whose stack-trace handle differs from the one it had in `st0` has a cache entry. -/
def touched_cached (st0 : State) (p : StackTraceBlobInstaller × State) : Prop :=
  ∀ (b : Addr) (s s0 : ObjectSample), p.2.samples[b]? = some s → st0.samples[b]? = some s0 →
    s.stacktrace = s0.stacktrace ∨ ∃ e, p.1.cache.find s = some e

/-- What the per-sample pass needs of a sample it selects: a thread blob, and a nonzero thread
id unless the thread is virtual. -/
def writable (s : ObjectSample) : Prop :=
  s.has_thread = true ∧ (s.is_virtual_thread = true ∨ s.thread_id ≠ 0)

/-- The flag reset of `reset_blob_write_state` applied to the samples at `nodes`, in order. -/
def reset_nodes (nodes : List Addr) (st : State) : State :=
  nodes.foldl (fun acc a => match acc.samples[a]? with
    | some s => reset_sample acc s
    | none => acc) st

/-- The nodes of `nodes` whose sample is alive and older than the time stamp, in order. -/
def marked_nodes (samples : List ObjectSample) (time_stamp : Int) (nodes : List Addr) :
    List Addr :=
  nodes.filter (fun a => match samples[a]? with
    | some s => s.is_alive_and_older_than time_stamp
    | none => false)

/-- The objects of the samples at `nodes`, in order. -/
def objects_at (samples : List ObjectSample) (nodes : List Addr) : List oopDesc :=
  nodes.filterMap (fun a => match samples[a]? with
    | some s => s.object
    | none => none)

/-- The newest sample of the scenario: a live sample of platform thread 1 with thread blob 1,
no stack-trace blob and no type-set blob. -/
def ObjectSample.scenario_head : ObjectSample :=
  { ObjectSample.live (some 1) 5 7 with thread := some 1 }

/-- The scenario state at the start of a per-sample pass, after thread 1 has exited. -/
def State.scenario_exited : State :=
  { State.scenario with stacktrace_id_set := some ⟨[]⟩, unloaded_thread_id_set := some ⟨[1]⟩ }

/-- A state at the start of a resolution pass in which class 2 is reported unloaded. -/
def State.unloaded_two : State :=
  { prepare_for_resolution State.initial with unloaded_klasses := [2] }

/-- Three samples 0 → 1 → 2 in the unresolved range: one without a stack-trace id, one dead,
and one live with key (5, 7). -/
def State.mixed_range : State :=
  { State.initial with
    samples := [ObjectSample.live (some 1) 3 0,
                { ObjectSample.live (some 2) 3 42 with object := none },
                ObjectSample.live none 5 7]
    last := some 0
    last_resolved := none
    unresolved_entry := true
    repository := [JfrStackTrace.plain 5 7 true] }

/-! # Theorems -/

/-! ## Exited threads -/

theorem has_thread_exited_add (st : State) (tid : traceid) (h : tid ≠ 0) :
    has_thread_exited (add_to_unloaded_thread_set st tid) tid = .ok true := by
  unfold has_thread_exited add_to_unloaded_thread_set JfrTraceIdSet.add JfrTraceIdSet.contains
  simp only [h, if_false]
  cases hs : st.unloaded_thread_id_set with
  | none => simp [c_heap_allocate_set]
  | some set =>
    by_cases hm : tid ∈ set.ids <;> simp [hm]

theorem has_thread_exited_mono (st : State) (tid o : traceid)
    (h : has_thread_exited st tid = .ok true) :
    has_thread_exited (add_to_unloaded_thread_set st o) tid = .ok true := by
  unfold has_thread_exited at h ⊢
  by_cases h0 : tid = 0
  · simp [h0] at h
  · simp only [h0, if_false] at h ⊢
    unfold add_to_unloaded_thread_set JfrTraceIdSet.add JfrTraceIdSet.contains
    cases hs : st.unloaded_thread_id_set with
    | none => simp [hs] at h
    | some set =>
      simp only [hs, JfrTraceIdSet.contains, Except.ok.injEq, decide_eq_true_eq] at h
      by_cases hm : o ∈ set.ids <;> simp [hm, h]

theorem has_thread_exited_exits (others : List traceid) :
    ∀ (st st2 : State) (tid : traceid), has_thread_exited st tid = .ok true →
      on_thread_exits st others = .ok st2 → has_thread_exited st2 tid = .ok true := by
  induction others with
  | nil =>
    intro st st2 tid h hrun
    simp only [on_thread_exits, Except.ok.injEq] at hrun
    subst hrun; exact h
  | cons o os ih =>
    intro st st2 tid h hrun
    simp only [on_thread_exits] at hrun
    cases hstep : ObjectSampleCheckpoint.on_thread_exit st o with
    | error e => simp [hstep] at hrun
    | ok st1 =>
      simp only [hstep] at hrun
      refine ih st1 st2 tid ?_ hrun
      unfold ObjectSampleCheckpoint.on_thread_exit at hstep
      by_cases h0 : o = 0
      · simp [h0] at hstep
      · simp only [h0, if_false] at hstep
        by_cases hr : st.running = true
        · simp only [hr, if_true, Except.ok.injEq] at hstep
          subst hstep; exact has_thread_exited_mono st tid o h
        · simp only [hr, Except.ok.injEq] at hstep
          simp at hstep
          subst hstep; exact h

theorem on_thread_exits_total (others : List traceid) :
    ∀ (st : State), (∀ o ∈ others, o ≠ 0) → ∃ st2, on_thread_exits st others = .ok st2 := by
  induction others with
  | nil => intro st _; exact ⟨st, rfl⟩
  | cons o os ih =>
    intro st h
    have ho : o ≠ 0 := h o (List.mem_cons_self _ _)
    have hos : ∀ x ∈ os, x ≠ 0 := fun x hx => h x (List.mem_cons_of_mem _ hx)
    simp only [on_thread_exits, ObjectSampleCheckpoint.on_thread_exit, ho, if_false]
    by_cases hr : st.running = true
    · simp only [hr, if_true]; exact ih _ hos
    · simp only [hr]; exact ih _ hos

/-- C8: after `on_thread_exit(tid)` for a nonzero `tid` while the leak profiler is running,
`has_thread_exited(tid)` returns true, and still does after any further `on_thread_exit`
calls (which all return); the set is allocated by the first recording call, holding just
`tid`, and a call while the profiler is not running allocates nothing. -/
theorem on_thread_exit_recorded (st : State) (tid : traceid) (others : List traceid)
    (htid : tid ≠ 0) (hothers : ∀ o ∈ others, o ≠ 0) :
    (st.running = true →
      ∃ st1 st2, ObjectSampleCheckpoint.on_thread_exit st tid = .ok st1 ∧
        has_thread_exited st1 tid = .ok true ∧
        on_thread_exits st1 others = .ok st2 ∧
        has_thread_exited st2 tid = .ok true ∧
        (st.unloaded_thread_id_set = none → st1.unloaded_thread_id_set = some ⟨[tid]⟩)) ∧
    (st.running = false → ObjectSampleCheckpoint.on_thread_exit st tid = .ok st) := by
  constructor
  · intro hrun
    obtain ⟨st2, h2⟩ := on_thread_exits_total others (add_to_unloaded_thread_set st tid) hothers
    refine ⟨add_to_unloaded_thread_set st tid, st2, ?_, has_thread_exited_add st tid htid, h2,
      has_thread_exited_exits others _ st2 tid (has_thread_exited_add st tid htid) h2, ?_⟩
    · simp [ObjectSampleCheckpoint.on_thread_exit, htid, hrun]
    · intro hnone
      simp [add_to_unloaded_thread_set, hnone, c_heap_allocate_set, JfrTraceIdSet.add,
        JfrTraceIdSet.contains]
  · intro hrun
    simp [ObjectSampleCheckpoint.on_thread_exit, htid, hrun]

theorem on_thread_exit_recorded_witness :
    (State.initial.running = true →
      ∃ st1 st2, ObjectSampleCheckpoint.on_thread_exit State.initial 5 = .ok st1 ∧
        has_thread_exited st1 5 = .ok true ∧
        on_thread_exits st1 [6, 7] = .ok st2 ∧
        has_thread_exited st2 5 = .ok true ∧
        (State.initial.unloaded_thread_id_set = none →
          st1.unloaded_thread_id_set = some ⟨[5]⟩)) ∧
    (State.initial.running = false →
      ObjectSampleCheckpoint.on_thread_exit State.initial 5 = .ok State.initial) :=
  on_thread_exit_recorded State.initial 5 [6, 7] (by decide) (by decide)

theorem on_thread_exits_nonzero (ids : List traceid) :
    ∀ (st st1 : State), on_thread_exits st ids = .ok st1 → ∀ tid ∈ ids, tid ≠ 0 := by
  induction ids with
  | nil => intro _ _ _ tid h; simp at h
  | cons o os ih =>
    intro st st1 hrun tid hmem
    simp only [on_thread_exits] at hrun
    cases hstep : ObjectSampleCheckpoint.on_thread_exit st o with
    | error e => simp [hstep] at hrun
    | ok st0 =>
      simp only [hstep] at hrun
      rcases List.mem_cons.mp hmem with rfl | hmem
      · intro h0
        simp [ObjectSampleCheckpoint.on_thread_exit, h0] at hstep
      · exact ih st0 st1 hrun tid hmem

/-- C9: while the exited-thread set is unallocated `has_thread_exited` returns false for every
nonzero id; `clear()` leaves the set unallocated, after which `has_thread_exited` returns
false for every nonzero id (for no id does it return true), in particular for all ids
recorded before by `on_thread_exit`. -/
theorem has_thread_exited_unallocated_and_cleared (st : State) (tid : traceid) :
    (st.unloaded_thread_id_set = none → tid ≠ 0 → has_thread_exited st tid = .ok false) ∧
    (ObjectSampleCheckpoint.clear st).unloaded_thread_id_set = none ∧
    has_thread_exited (ObjectSampleCheckpoint.clear st) tid ≠ .ok true ∧
    (tid ≠ 0 → has_thread_exited (ObjectSampleCheckpoint.clear st) tid = .ok false) ∧
    (∀ (st0 : State) (ids : List traceid), on_thread_exits st0 ids = .ok st → tid ∈ ids →
      has_thread_exited (ObjectSampleCheckpoint.clear st) tid = .ok false) := by
  have hclear : (ObjectSampleCheckpoint.clear st).unloaded_thread_id_set = none := by
    unfold ObjectSampleCheckpoint.clear
    cases hs : st.unloaded_thread_id_set <;> simp [hs]
  have hfalse : tid ≠ 0 → has_thread_exited (ObjectSampleCheckpoint.clear st) tid = .ok false := by
    intro h0
    simp [has_thread_exited, h0, hclear]
  refine ⟨?_, hclear, ?_, hfalse, ?_⟩
  · intro hnone h0
    simp [has_thread_exited, h0, hnone]
  · by_cases h0 : tid = 0
    · simp [has_thread_exited, h0]
    · rw [hfalse h0]; simp
  · intro st0 ids hrun hmem
    exact hfalse (on_thread_exits_nonzero ids st0 st hrun tid hmem)

theorem has_thread_exited_unallocated_and_cleared_witness :
    has_thread_exited
      (ObjectSampleCheckpoint.clear (add_to_unloaded_thread_set State.initial 5)) 5 = .ok false ∧
    has_thread_exited State.initial 5 = .ok false :=
  ⟨(has_thread_exited_unallocated_and_cleared (add_to_unloaded_thread_set State.initial 5) 5).2.2.2.1
      (by decide),
   (has_thread_exited_unallocated_and_cleared State.initial 5).1 rfl (by decide)⟩

/-! ## BlobCache -/

namespace BlobCache

theorem lookup_chain_eq (c : BlobCache) (hash : Nat) (l : List BlobEntry) :
    c.lookup_chain hash l = .ok (l.find? (is_key hash c.lookup_id)) := by
  induction l with
  | nil => rfl
  | cons e es ih =>
    unfold lookup_chain
    by_cases hh : e.hash = hash
    · by_cases hi : e.id = c.lookup_id
      · simp [on_equals, hh, hi, is_key]
      · simp [on_equals, hh, hi, is_key, ih]
    · simp [hh, is_key, ih]

theorem find_bucket (t : BlobTable) (hash : Nat) (id : traceid) :
    (t.bucket (t.index_for hash)).find? (is_key hash id) = t.entries.find? (is_key hash id) := by
  unfold BlobTable.bucket
  induction t.entries with
  | nil => rfl
  | cons e es ih =>
    by_cases hk : is_key hash id e = true
    · have hh : e.hash = hash := by
        simp only [is_key, Bool.and_eq_true, decide_eq_true_eq] at hk
        exact hk.1
      simp [List.filter_cons, hh, hk]
    · by_cases hb : t.index_for e.hash = t.index_for hash
      · simp [List.filter_cons, hb, hk, ih]
      · simp [List.filter_cons, hb, hk, ih]

theorem lookup_only_eq (c : BlobCache) (hash : Nat) :
    c.lookup_only hash = .ok (c.table.entries.find? (is_key hash c.lookup_id)) := by
  unfold lookup_only
  rw [lookup_chain_eq, find_bucket]

theorem find_none_of_not_has_entry (c : BlobCache) (hash : Nat) (id : traceid)
    (h : c.has_entry hash id = false) : c.table.entries.find? (is_key hash id) = none := by
  unfold has_entry at h
  rw [List.find?_eq_none]
  intro e he hk
  have : c.table.entries.any (is_key hash id) = true := List.any_eq_true.mpr ⟨e, he, hk⟩
  rw [h] at this
  exact Bool.noConfusion this

end BlobCache

namespace BlobCache

theorem get_eq (c : BlobCache) (s : ObjectSample) (h0 : s.stack_trace_id ≠ 0) :
    c.get s = .ok (match c.table.entries.find? (is_key s.stack_trace_hash s.stack_trace_id) with
        | some entry => entry.literal
        | none => none,
      { c with lookup_id := s.stack_trace_id }) := by
  unfold get
  simp only [h0, if_false, lookup_only_eq]
  cases c.table.entries.find? (is_key s.stack_trace_hash s.stack_trace_id) <;> rfl

theorem put_eq (c : BlobCache) (s : ObjectSample) (b : JfrBlobHandle)
    (h0 : s.stack_trace_id ≠ 0)
    (hstale : c.table.entries.find? (is_key s.stack_trace_hash c.lookup_id) = none)
    (hnew : c.table.entries.find? (is_key s.stack_trace_hash s.stack_trace_id) = none) :
    c.put s b = .ok ⟨⟨c.table.size,
      ⟨s.stack_trace_hash, s.stack_trace_id, b⟩ :: c.table.entries⟩, s.stack_trace_id⟩ := by
  unfold put
  simp only [lookup_only_eq, hstale, h0, if_false]
  unfold table_put
  simp only [lookup_only_eq, hnew, on_link]
  simp

theorem put_fault_of_stale (c : BlobCache) (s : ObjectSample) (b : JfrBlobHandle) (e : BlobEntry)
    (hstale : c.table.entries.find? (is_key s.stack_trace_hash c.lookup_id) = some e) :
    c.put s b = .error .invariant := by
  unfold put
  simp only [lookup_only_eq, hstale]

end BlobCache

/-- C2: for every cache without entries for the two keys (the precondition of `put`) and
every two samples with the same hash and different nonzero ids, inserted the way `install`
inserts (`get` on the sample, and `put` on it after `get` has returned the empty handle), all
four calls return and both entries are in the cache: afterwards `get` returns each sample its
own blob, neither entry overwritten or shadowed, and returns the empty handle for a nonzero id
of that hash that has no entry. -/
theorem get_put_hash_collision (c : BlobCache) (s1 s2 s3 : ObjectSample) (b1 b2 : JfrBlobHandle)
    (hhash : s1.stack_trace_hash = s2.stack_trace_hash)
    (h1 : s1.stack_trace_id ≠ 0) (h2 : s2.stack_trace_id ≠ 0)
    (hne : s1.stack_trace_id ≠ s2.stack_trace_id)
    (hc1 : c.has_entry s1.stack_trace_hash s1.stack_trace_id = false)
    (hc2 : c.has_entry s2.stack_trace_hash s2.stack_trace_id = false) :
    ∃ c1 c2 c3 c4, c.get s1 = .ok (none, c1) ∧ c1.put s1 b1 = .ok c2 ∧
      c2.get s2 = .ok (none, c3) ∧ c3.put s2 b2 = .ok c4 ∧
      c4.get_blob s1 = .ok b1 ∧ c4.get_blob s2 = .ok b2 ∧
      (s3.stack_trace_hash = s1.stack_trace_hash → s3.stack_trace_id ≠ 0 →
        s3.stack_trace_id ≠ s1.stack_trace_id → s3.stack_trace_id ≠ s2.stack_trace_id →
        c.has_entry s3.stack_trace_hash s3.stack_trace_id = false →
        c4.get_blob s3 = .ok none) := by
  have f1 := BlobCache.find_none_of_not_has_entry c _ _ hc1
  have f2 := BlobCache.find_none_of_not_has_entry c _ _ hc2
  have hne' : ¬ s2.stack_trace_id = s1.stack_trace_id := fun h => hne h.symm
  refine ⟨{ c with lookup_id := s1.stack_trace_id },
    ⟨⟨c.table.size, ⟨s1.stack_trace_hash, s1.stack_trace_id, b1⟩ :: c.table.entries⟩,
      s1.stack_trace_id⟩,
    ⟨⟨c.table.size, ⟨s1.stack_trace_hash, s1.stack_trace_id, b1⟩ :: c.table.entries⟩,
      s2.stack_trace_id⟩,
    ⟨⟨c.table.size, ⟨s2.stack_trace_hash, s2.stack_trace_id, b2⟩ ::
      ⟨s1.stack_trace_hash, s1.stack_trace_id, b1⟩ :: c.table.entries⟩, s2.stack_trace_id⟩,
    ?_, ?_, ?_, ?_, ?_, ?_, ?_⟩
  · rw [BlobCache.get_eq c s1 h1, f1]
  · exact BlobCache.put_eq _ s1 b1 h1 f1 f1
  · rw [BlobCache.get_eq _ s2 h2]
    simp [List.find?_cons, BlobCache.is_key, hne, f2, hhash]
  · refine BlobCache.put_eq _ s2 b2 h2 ?_ ?_ <;>
      simp [List.find?_cons, BlobCache.is_key, hne, f2, hhash]
  · simp [BlobCache.get_blob, BlobCache.get_eq _ s1 h1, List.find?_cons, BlobCache.is_key,
      hne', hhash]
  · simp [BlobCache.get_blob, BlobCache.get_eq _ s2 h2, List.find?_cons, BlobCache.is_key]
  · intro h3h h30 h31 h32 hc3
    have f3 := BlobCache.find_none_of_not_has_entry c _ _ hc3
    have h31' : ¬ s2.stack_trace_id = s3.stack_trace_id := fun h => h32 h.symm
    have h32' : ¬ s1.stack_trace_id = s3.stack_trace_id := fun h => h31 h.symm
    simp [BlobCache.get_blob, BlobCache.get_eq _ s3 h30, List.find?_cons, BlobCache.is_key,
      h31', h32', f3]

theorem get_put_hash_collision_witness :
    ∃ c1 c2 c3 c4,
      (BlobCache.new 8).get (ObjectSample.live none 3 1) = .ok (none, c1) ∧
      c1.put (ObjectSample.live none 3 1) (some 0) = .ok c2 ∧
      c2.get (ObjectSample.live none 3 2) = .ok (none, c3) ∧
      c3.put (ObjectSample.live none 3 2) (some 1) = .ok c4 ∧
      c4.get_blob (ObjectSample.live none 3 1) = .ok (some 0) ∧
      c4.get_blob (ObjectSample.live none 3 2) = .ok (some 1) ∧
      ((ObjectSample.live none 3 9).stack_trace_hash = (ObjectSample.live none 3 1).stack_trace_hash →
        (ObjectSample.live none 3 9).stack_trace_id ≠ 0 →
        (ObjectSample.live none 3 9).stack_trace_id ≠ (ObjectSample.live none 3 1).stack_trace_id →
        (ObjectSample.live none 3 9).stack_trace_id ≠ (ObjectSample.live none 3 2).stack_trace_id →
        (BlobCache.new 8).has_entry (ObjectSample.live none 3 9).stack_trace_hash
          (ObjectSample.live none 3 9).stack_trace_id = false →
        c4.get_blob (ObjectSample.live none 3 9) = .ok none) :=
  get_put_hash_collision (BlobCache.new 8) (ObjectSample.live none 3 1)
    (ObjectSample.live none 3 2) (ObjectSample.live none 3 9) (some 0) (some 1)
    rfl (by decide) (by decide) (by decide) rfl rfl

/-! ## Iteration -/

theorem is_path_of_links (S1 S2 : List ObjectSample) (h : links S1 = links S2) :
    ∀ (nodes : List Addr) (p e : Option Addr), is_path S1 p e nodes = is_path S2 p e nodes := by
  intro nodes
  induction nodes with
  | nil => intro p e; rfl
  | cons a rest ih =>
    intro p e
    have ha : (S1[a]?).map (fun s => s.next) = (S2[a]?).map (fun s => s.next) := by
      have := congrArg (fun l => l[a]?) h
      simpa [links, List.getElem?_map] using this
    unfold is_path
    cases h1 : S1[a]? with
    | none =>
      cases h2 : S2[a]? with
      | none => rfl
      | some s2 => simp [h1, h2] at ha
    | some s1 =>
      cases h2 : S2[a]? with
      | none => simp [h1, h2] at ha
      | some s2 =>
        simp only [h1, h2, Option.map_some', Option.some.injEq] at ha
        simp only [ha, ih]

theorem links_update_sample (st : State) (a : Addr) (f : ObjectSample → ObjectSample)
    (hf : ∀ s, (f s).next = s.next) : links (st.update_sample a f).samples = links st.samples := by
  unfold State.update_sample
  cases h : st.samples[a]? with
  | none => rfl
  | some s =>
    simp only [links]
    apply List.ext_getElem?
    intro i
    simp only [List.getElem?_map, List.getElem?_set]
    by_cases hi : a = i
    · subst hi
      have hlt : a < st.samples.length := by
        rcases List.getElem?_eq_some.mp h with ⟨hlt, _⟩
        exact hlt
      simp [hlt, h, hf]
    · simp [hi]

/-- The loop of `do_samples` visits exactly the nodes of the path, in order, when the
processor leaves the links alone and the fuel covers the path. -/
theorem do_samples_loop_eq {π : Type} (sample_do : Addr → π × State → Except Fault (π × State))
    (hframe : ∀ a p p1, sample_do a p = .ok p1 → links p1.2.samples = links p.2.samples) :
    ∀ (nodes : List Addr) (fuel : Nat) (ptr e : Option Addr) (p : π × State),
      is_path p.2.samples ptr e nodes = true → nodes.length ≤ fuel →
      do_samples_loop sample_do fuel ptr e p = run_list sample_do nodes p := by
  intro nodes
  induction nodes with
  | nil =>
    intro fuel ptr e p hpath _
    simp only [is_path, decide_eq_true_eq] at hpath
    cases fuel <;> simp [do_samples_loop, hpath, run_list]
  | cons a rest ih =>
    intro fuel ptr e p hpath hfuel
    unfold is_path at hpath
    simp only [Bool.and_eq_true, decide_eq_true_eq] at hpath
    obtain ⟨⟨hptr, hne⟩, hrest⟩ := hpath
    cases fuel with
    | zero => simp at hfuel
    | succ fuel =>
      have hfuel' : rest.length ≤ fuel := by simpa using hfuel
      subst hptr
      unfold do_samples_loop
      simp only [hne, if_false, run_list]
      cases hdo : sample_do a p with
      | error err => rfl
      | ok p1 =>
        simp only
        have hl := hframe a p p1 hdo
        cases hs : p.2.samples[a]? with
        | none => simp [hs] at hrest
        | some s =>
          simp only [hs] at hrest
          have hrest1 : is_path p1.2.samples s.next e rest = true := by
            rw [is_path_of_links _ _ hl]; exact hrest
          have ha : (p1.2.samples[a]?).map (fun s => s.next) = some s.next := by
            have := congrArg (fun l => l[a]?) hl
            simp only [links, List.getElem?_map, hs, Option.map_some'] at this
            exact this
          cases hs1 : p1.2.samples[a]? with
          | none => simp [hs1] at ha
          | some s1 =>
            simp only [hs1, Option.map_some', Option.some.injEq] at ha
            simp only [ha]
            exact ih fuel s.next e p1 hrest1 hfuel'

/-! ## Flag reset -/

theorem reset_write_state_frame (st : State) (h : JfrBlobHandle) :
    st.reset_write_state h = { st with blobs := (st.reset_write_state h).blobs } := by
  cases h <;> rfl

theorem reset_write_state_blobs (st : State) (h : JfrBlobHandle) (k : Nat) :
    (st.reset_write_state h).blobs k =
      if h = some k then { st.blobs k with written := false } else st.blobs k := by
  cases h with
  | none => simp [State.reset_write_state]
  | some j =>
    by_cases hj : j = k
    · subst hj; simp [State.reset_write_state]
    · have hj' : k ≠ j := fun h => hj h.symm
      simp [State.reset_write_state, hj, Function.update_noteq hj']

theorem reset_sample_frame (st : State) (s : ObjectSample) :
    reset_sample st s = { st with blobs := (reset_sample st s).blobs } := by
  obtain ⟨_, _, _, _, _, _, _, h1, h2, h3⟩ := s
  cases h1 <;> cases h2 <;> cases h3 <;> rfl

theorem reset_sample_blobs (st : State) (s : ObjectSample) (k : Nat) :
    (reset_sample st s).blobs k =
      if s.holds k then { st.blobs k with written := false } else st.blobs k := by
  obtain ⟨_, _, _, _, _, _, _, h1, h2, h3⟩ := s
  rcases h1 with _ | a <;> rcases h2 with _ | b <;> rcases h3 with _ | c <;>
    simp only [reset_sample, ObjectSample.holds, ObjectSample.has_stacktrace,
      ObjectSample.has_thread, ObjectSample.has_type_set, JfrBlobHandle.valid, Option.isSome,
      if_true, if_false, reset_write_state_blobs, Bool.false_eq_true, Option.some.injEq,
      false_or, or_false, reduceCtorEq] <;>
    split_ifs <;> simp_all

theorem reset_loop_step (fuel : Nat) (a : Addr) (st : State) (s : ObjectSample)
    (hs : st.samples[a]? = some s) :
    reset_blob_write_state_loop (fuel + 1) (some a) st =
      reset_blob_write_state_loop fuel s.next (reset_sample st s) := by
  simp only [reset_blob_write_state_loop, hs, reset_sample]

/-- The loop of `reset_blob_write_state` returns when the fuel covers the path to the end
of the list; it changes nothing but blob flags, sets none, and leaves the flag of every blob
held by a visited sample unset. -/
theorem reset_loop_spec :
    ∀ (nodes : List Addr) (fuel : Nat) (ptr : Option Addr) (st : State),
      is_path st.samples ptr none nodes = true → nodes.length ≤ fuel →
      ∃ st1, reset_blob_write_state_loop fuel ptr st = .ok st1 ∧
        st1 = { st with blobs := st1.blobs } ∧
        (∀ k, (st1.blobs k).data = (st.blobs k).data) ∧
        (∀ k, (st1.blobs k).written = true → (st.blobs k).written = true) ∧
        (∀ a ∈ nodes, ∀ s, st.samples[a]? = some s → ∀ k, s.holds k →
          (st1.blobs k).written = false) := by
  intro nodes
  induction nodes with
  | nil =>
    intro fuel ptr st hpath _
    simp only [is_path, decide_eq_true_eq] at hpath
    subst hpath
    refine ⟨st, ?_, rfl, fun _ => rfl, fun _ h => h, ?_⟩
    · cases fuel <;> rfl
    · intro a ha; simp at ha
  | cons a rest ih =>
    intro fuel ptr st hpath hfuel
    unfold is_path at hpath
    simp only [Bool.and_eq_true, decide_eq_true_eq] at hpath
    obtain ⟨⟨hptr, _⟩, hrest⟩ := hpath
    subst hptr
    cases fuel with
    | zero => simp at hfuel
    | succ fuel =>
      have hfuel' : rest.length ≤ fuel := by simpa using hfuel
      cases hs : st.samples[a]? with
      | none => simp [hs] at hrest
      | some s =>
        simp only [hs] at hrest
        have hsame : (reset_sample st s).samples = st.samples := by
          rw [reset_sample_frame]
        have hrest1 : is_path (reset_sample st s).samples s.next none rest = true := by
          rw [hsame]; exact hrest
        obtain ⟨st1, hrun, hfr, hdata, hmono, hflags⟩ := ih fuel s.next (reset_sample st s) hrest1 hfuel'
        refine ⟨st1, ?_, ?_, ?_, ?_, ?_⟩
        · rw [reset_loop_step fuel a st s hs]; exact hrun
        · rw [hfr, reset_sample_frame]
        · intro k
          rw [hdata k, reset_sample_blobs]
          split_ifs <;> rfl
        · intro k hk
          have := hmono k hk
          rw [reset_sample_blobs] at this
          by_cases hh : s.holds k
          · simp [hh] at this
          · simpa [hh] using this
        · intro b hb s' hs' k hk
          rcases List.mem_cons.mp hb with rfl | hb
          · rw [hs] at hs'
            cases hs'
            cases hw : (st1.blobs k).written with
            | false => rfl
            | true =>
              have := hmono k hw
              rw [reset_sample_blobs] at this
              simp [hk] at this
          · rw [← hsame] at hs'
            exact hflags b hb s' hs' k hk

/-! ## The resolver step -/

theorem add_to_leakp_set_method_frame (st st1 : State) (ik : Nat) (m : traceid)
    (h : ObjectSampleCheckpoint.add_to_leakp_set st ik m = .ok st1) :
    st1 = { st with id_set := st1.id_set, leakp_methods := st1.leakp_methods } := by
  unfold ObjectSampleCheckpoint.add_to_leakp_set is_processed at h
  by_cases h0 : m = 0
  · simp [h0] at h
  · simp only [h0, if_false] at h
    cases hs : st.id_set with
    | none => simp [hs] at h
    | some set =>
      simp only [hs] at h
      cases hb : !(set.add m).1 with
      | true =>
        simp only [hb, Except.ok.injEq] at h
        subst h; rfl
      | false =>
        simp only [hb] at h
        split_ifs at h <;> (simp only [Except.ok.injEq] at h; subst h; rfl)

theorem write_frames_spec : ∀ (frames : List JfrStackFrame) (w w1 : JfrCheckpointWriter)
    (st st1 : State), write_frames frames w st = .ok (w1, st1) →
    st1 = { st with id_set := st1.id_set, leakp_methods := st1.leakp_methods } ∧
    w1 = w ++ frames.map (fun f => Entry.field (Field.frame f)) := by
  intro frames
  induction frames with
  | nil =>
    intro w w1 st st1 h
    simp only [write_frames, Except.ok.injEq, Prod.mk.injEq] at h
    obtain ⟨rfl, rfl⟩ := h
    exact ⟨rfl, by simp⟩
  | cons f rest ih =>
    intro w w1 st st1 h
    simp only [write_frames] at h
    cases hstep : ObjectSampleCheckpoint.add_to_leakp_set st f.klass f.methodid with
    | error e => simp [hstep] at h
    | ok st0 =>
      simp only [hstep] at h
      obtain ⟨hfr, hw⟩ := ih _ _ _ _ h
      have h0 := add_to_leakp_set_method_frame st st0 _ _ hstep
      refine ⟨?_, ?_⟩
      · rw [hfr, h0]
      · rw [hw]; simp

theorem write_stacktrace_spec (t : JfrStackTrace) (w w1 : JfrCheckpointWriter) (st st1 : State)
    (h : ObjectSampleCheckpoint.write_stacktrace t w st = .ok (w1, st1)) :
    st1 = { st with id_set := st1.id_set, leakp_methods := st1.leakp_methods } ∧
    w1 = w ++ [Entry.field (Field.u8 t.id),
               Entry.field (Field.u1 (if t.reached_root then 0 else 1)),
               Entry.field (Field.u4 (t.number_of_frames % 2 ^ 32))]
           ++ t.frames.map (fun f => Entry.field (Field.frame f)) := by
  unfold ObjectSampleCheckpoint.write_stacktrace at h
  simp only [JfrStackTrace.number_of_frames, List.take_length] at h
  obtain ⟨hfr, hw⟩ := write_frames_spec _ _ _ _ _ h
  refine ⟨hfr, ?_⟩
  rw [hw]; simp [JfrStackTrace.number_of_frames]

theorem add_to_leakp_set_frame (st : State) (s : ObjectSample) :
    add_to_leakp_set st s = { st with leakp_klasses := (add_to_leakp_set st s).leakp_klasses } := by
  unfold add_to_leakp_set
  cases s.object <;> rfl

theorem update_sample_of_some (st : State) (a : Addr) (f : ObjectSample → ObjectSample)
    (s : ObjectSample) (hs : st.samples[a]? = some s) :
    st.update_sample a f = { st with samples := st.samples.set a (f s) } := by
  unfold State.update_sample
  simp only [hs]

theorem commit_frame (st : State) (w : JfrCheckpointWriter) :
    st.commit w = { st with checkpoints := (st.commit w).checkpoints } := by
  unfold State.commit
  split_ifs <;> rfl

theorem commit_proj (st : State) (w : JfrCheckpointWriter) :
    (st.commit w).samples = st.samples ∧ (st.commit w).blobs = st.blobs ∧
    (st.commit w).blob_count = st.blob_count ∧ (st.commit w).lookups = st.lookups ∧
    (st.commit w).fixed = st.fixed := by
  rw [commit_frame]; exact ⟨rfl, rfl, rfl, rfl, rfl⟩

theorem update_sample_proj (st : State) (a : Addr) (f : ObjectSample → ObjectSample) :
    (st.update_sample a f).blobs = st.blobs ∧
    (st.update_sample a f).blob_count = st.blob_count ∧
    (st.update_sample a f).lookups = st.lookups ∧
    (st.update_sample a f).fixed = st.fixed := by
  unfold State.update_sample
  cases st.samples[a]? <;> exact ⟨rfl, rfl, rfl, rfl⟩

theorem precondition_id_ne_zero (s : ObjectSample) (h : stack_trace_precondition s = true) :
    s.stack_trace_id ≠ 0 := by
  simp only [stack_trace_precondition, ObjectSample.has_stack_trace_id, Bool.and_eq_true,
    decide_eq_true_eq] at h
  exact h.1

theorem writer_fields_of_trace (t : JfrStackTrace) :
    (List.filterMap (fun e => match e with
        | Entry.field f => some f
        | Entry.blob_bytes _ _ => none)
      (write_count (write_type [] TYPE_STACKTRACE) 1 ++
        [Entry.field (Field.u8 t.id), Entry.field (Field.u1 (if t.reached_root then 0 else 1)),
         Entry.field (Field.u4 (t.number_of_frames % 2 ^ 32))] ++
        t.frames.map (fun f => Entry.field (Field.frame f)))) = trace_blob_data t := by
  simp only [write_count, write_type, trace_blob_data, List.nil_append, List.filterMap_append,
    List.filterMap_cons, List.filterMap_nil, List.cons_append, List.filterMap_map]
  have hfs : ∀ fs : List JfrStackFrame, List.filterMap
      ((fun e => match e with
        | Entry.field f => some f
        | Entry.blob_bytes _ _ => none) ∘ fun f => Entry.field (Field.frame f)) fs
      = fs.map Field.frame := by
    intro fs
    induction fs with
    | nil => rfl
    | cons f fs ih => simp [List.filterMap_cons, ih]
  simp [hfs]

/-- What a returning `sample_do` of the resolver has done: nothing for a sample that fails
the precondition; for a cache hit, attached the cached blob; for a miss, recorded one
repository lookup, made one new blob of the trace, cached and attached it. -/
theorem installer_sample_do_ok (a : Addr) (p p1 : StackTraceBlobInstaller × State)
    (h : StackTraceBlobInstaller.sample_do a p = .ok p1) :
    ∃ s, p.2.samples[a]? = some s ∧
      ((stack_trace_precondition s = false ∧ p1 = p) ∨
       (stack_trace_precondition s = true ∧
        p1.1.cache.table.size = p.1.cache.table.size ∧ p1.2.fixed = p.2.fixed ∧
        ((∃ e k, p.1.cache.find s = some e ∧ e.literal = some k ∧
            p1.1.cache.table.entries = p.1.cache.table.entries ∧
            p1.2.samples = p.2.samples.set a (s.set_stacktrace (some k)) ∧
            p1.2.blobs = p.2.blobs ∧ p1.2.blob_count = p.2.blob_count ∧
            p1.2.lookups = p.2.lookups) ∨
         (∃ t, p.1.cache.find s = none ∧ s.stacktrace = none ∧
            p.2.repository.find? (fun t => decide (t.hash = s.stack_trace_hash) &&
              decide (t.id = s.stack_trace_id)) = some t ∧
            p1.1.cache.table.entries =
              ⟨s.stack_trace_hash, s.stack_trace_id, some p.2.blob_count⟩ ::
                p.1.cache.table.entries ∧
            p1.2.samples = p.2.samples.set a (s.set_stacktrace (some p.2.blob_count)) ∧
            p1.2.blobs = Function.update p.2.blobs p.2.blob_count ⟨trace_blob_data t, false⟩ ∧
            p1.2.blob_count = p.2.blob_count + 1 ∧
            p1.2.lookups = p.2.lookups ++ [s.key])))) := by
  obtain ⟨inst, st⟩ := p
  unfold StackTraceBlobInstaller.sample_do at h
  simp only at h ⊢
  cases hs : st.samples[a]? with
  | none => simp [hs] at h
  | some s =>
    simp only [hs] at h
    refine ⟨s, rfl, ?_⟩
    by_cases hpre : stack_trace_precondition s = true
    swap
    · simp only [hpre] at h
      simp only [Bool.not_eq_true] at hpre
      simp only [Bool.false_eq_true, if_false, Except.ok.injEq] at h
      exact Or.inl ⟨hpre, h.symm⟩
    · right
      simp only [hpre, if_true] at h
      have hid := precondition_id_ne_zero s hpre
      have hst1 := add_to_leakp_set_frame st s
      generalize add_to_leakp_set st s = st1 at h hst1
      have hs1 : st1.samples[a]? = some s := by rw [hst1]; exact hs
      unfold StackTraceBlobInstaller.install at h
      simp only [hs1, BlobCache.get_eq inst.cache s hid] at h
      refine ⟨hpre, ?_⟩
      cases hfind : inst.cache.table.entries.find?
          (BlobCache.is_key s.stack_trace_hash s.stack_trace_id) with
      | some e =>
        simp only [hfind] at h
        cases hlit : e.literal with
        | some k =>
          simp only [hlit, JfrBlobHandle.valid, Option.isSome, if_true, Except.ok.injEq] at h
          subst h
          refine ⟨rfl, ?_, Or.inl ⟨e, k, hfind, hlit, rfl, ?_, ?_, ?_, ?_⟩⟩
          all_goals (rw [update_sample_of_some st1 a _ s hs1, hst1])
          rfl
        | none =>
          exfalso
          simp only [hlit, JfrBlobHandle.valid, Option.isSome, Bool.false_eq_true, if_false] at h
          cases hv : StackTraceBlobInstaller.validate_stack_trace s
              (StackTraceBlobInstaller.resolve st1 s).1 with
          | error err => simp [hv] at h
          | ok t =>
            simp only [hv] at h
            cases hw : ObjectSampleCheckpoint.write_stacktrace t
                (write_count (write_type [] TYPE_STACKTRACE) 1)
                (StackTraceBlobInstaller.resolve st1 s).2 with
            | error err => simp [hw] at h
            | ok r =>
              obtain ⟨w1, st2⟩ := r
              simp only [hw] at h
              rw [BlobCache.put_fault_of_stale _ s _ e hfind] at h
              simp at h
      | none =>
        simp only [hfind, JfrBlobHandle.valid, Option.isSome, Bool.false_eq_true, if_false] at h
        cases hv : StackTraceBlobInstaller.validate_stack_trace s
            (StackTraceBlobInstaller.resolve st1 s).1 with
        | error err => simp [hv] at h
        | ok t =>
          simp only [hv] at h
          cases hw : ObjectSampleCheckpoint.write_stacktrace t
              (write_count (write_type [] TYPE_STACKTRACE) 1)
              (StackTraceBlobInstaller.resolve st1 s).2 with
          | error err => simp [hw] at h
          | ok r =>
            obtain ⟨w1, st2⟩ := r
            simp only [hw] at h
            obtain ⟨hfr2, hw1⟩ := write_stacktrace_spec _ _ _ _ _ hw
            have hnost : s.stacktrace = none ∧ st.repository.find?
                (fun t => decide (t.hash = s.stack_trace_hash) &&
                  decide (t.id = s.stack_trace_id)) = some t := by
              unfold StackTraceBlobInstaller.validate_stack_trace at hv
              unfold StackTraceBlobInstaller.resolve State.lookup_for_leak_profiler at hv
              simp only [ObjectSample.has_stacktrace, JfrBlobHandle.valid] at hv
              cases hst : s.stacktrace with
              | some k => simp [hst] at hv
              | none =>
                simp only [hst, Option.isSome, Bool.false_eq_true, if_false] at hv
                rw [hst1] at hv
                simp only at hv
                cases hrep : st.repository.find? (fun t => decide (t.hash = s.stack_trace_hash) &&
                  decide (t.id = s.stack_trace_id)) with
                | none => simp [hrep] at hv
                | some t0 =>
                  simp only [hrep] at hv
                  split_ifs at hv
                  simp only [Except.ok.injEq] at hv
                  subst hv
                  exact ⟨rfl, rfl⟩
            have hres : (StackTraceBlobInstaller.resolve st1 s).2 =
                { st1 with lookups := st1.lookups ++ [s.key] } := rfl
            rw [hres] at hfr2
            have hdata : (List.filterMap (fun e => match e with
                | Entry.field f => some f
                | Entry.blob_bytes _ _ => none) w1) = trace_blob_data t := by
              rw [hw1]; exact writer_fields_of_trace t
            have hput := BlobCache.put_eq { inst.cache with lookup_id := s.stack_trace_id } s
              (some st2.blob_count) hid hfind hfind
            have hs2 : (st2.make_blob (trace_blob_data t)).2.samples[a]? = some s := by
              simp only [State.make_blob]
              rw [hfr2, hst1]; exact hs
            have hcount : st2.blob_count = st.blob_count := by rw [hfr2, hst1]
            have hgoal : ∀ w : JfrCheckpointWriter, p1 = (⟨⟨⟨inst.cache.table.size,
                  ⟨s.stack_trace_hash, s.stack_trace_id, some st2.blob_count⟩ ::
                    inst.cache.table.entries⟩, s.stack_trace_id⟩⟩,
                (((st2.make_blob (trace_blob_data t)).2.update_sample a
                  (fun s => s.set_stacktrace (some st2.blob_count))).commit w)) →
                p1.1.cache.table.size = inst.cache.table.size ∧ p1.2.fixed = st.fixed ∧
                p1.1.cache.table.entries =
                  ⟨s.stack_trace_hash, s.stack_trace_id, some st.blob_count⟩ ::
                    inst.cache.table.entries ∧
                p1.2.samples = st.samples.set a (s.set_stacktrace (some st.blob_count)) ∧
                p1.2.blobs = Function.update st.blobs st.blob_count ⟨trace_blob_data t, false⟩ ∧
                p1.2.blob_count = st.blob_count + 1 ∧
                p1.2.lookups = st.lookups ++ [s.key] := by
              intro w hp1
              subst hp1
              have e1 : st2.samples = st.samples := by rw [hfr2, hst1]
              have e2 : st2.blobs = st.blobs := by rw [hfr2, hst1]
              have e3 : st2.lookups = st.lookups ++ [s.key] := by rw [hfr2, hst1]
              have e4 : st2.fixed = st.fixed := by rw [hfr2, hst1]; rfl
              obtain ⟨c1, c2, c3, c4, c5⟩ := commit_proj
                ((st2.make_blob (trace_blob_data t)).2.update_sample a
                  (fun s => s.set_stacktrace (some st2.blob_count))) w
              obtain ⟨u1, u2, u3, u4⟩ := update_sample_proj (st2.make_blob (trace_blob_data t)).2 a
                (fun s => s.set_stacktrace (some st2.blob_count))
              refine ⟨rfl, ?_, ?_, ?_, ?_, ?_, ?_⟩
              · rw [c5, u4, ← e4]; rfl
              · rw [hcount]
              · rw [c1, update_sample_of_some _ a _ s hs2, ← hcount, ← e1]; rfl
              · rw [c2, u1, ← hcount, ← e2]; rfl
              · rw [c3, u2, ← hcount]; rfl
              · rw [c4, u3, ← e3]; rfl
            have hmain : ∃ w : JfrCheckpointWriter, p1 = (⟨⟨⟨inst.cache.table.size,
                  ⟨s.stack_trace_hash, s.stack_trace_id, some st2.blob_count⟩ ::
                    inst.cache.table.entries⟩, s.stack_trace_id⟩⟩,
                (((st2.make_blob (trace_blob_data t)).2.update_sample a
                  (fun s => s.set_stacktrace (some st2.blob_count))).commit w)) := by
              cases hsw : t.should_write with
              | true =>
                simp only [hsw, if_true, writer_copy, hdata] at h
                simp only [State.make_blob] at h hput ⊢
                rw [hput] at h
                simp only [Except.ok.injEq] at h
                exact ⟨w1, h.symm⟩
              | false =>
                simp only [hsw, Bool.false_eq_true, if_false, writer_move, hdata] at h
                simp only [State.make_blob] at h hput ⊢
                rw [hput] at h
                simp only [Except.ok.injEq] at h
                exact ⟨[], h.symm⟩
            obtain ⟨w, hp1⟩ := hmain
            obtain ⟨g1, g2, g3, g4, g5, g6, g7⟩ := hgoal w hp1
            exact ⟨g1, g2, Or.inr ⟨t, hfind, hnost.1, hnost.2, g3, g4, g5, g6, g7⟩⟩

/-! ## First visits -/

theorem first_visits_snoc {α : Type} [DecidableEq α] (keys : List α) (k : α) :
    first_visits (keys ++ [k]) =
      if k ∈ first_visits keys then first_visits keys else first_visits keys ++ [k] := by
  simp [first_visits, first_visits_from, List.foldl_append]

theorem mem_first_visits {α : Type} [DecidableEq α] (keys : List α) (k : α) :
    k ∈ first_visits keys ↔ k ∈ keys := by
  induction keys using List.reverseRecOn with
  | nil => simp [first_visits, first_visits_from]
  | append_singleton ks x ih =>
    rw [first_visits_snoc]
    by_cases hx : x ∈ first_visits ks
    · simp only [hx, if_true, List.mem_append, List.mem_singleton]
      constructor
      · intro h; exact Or.inl (ih.mp h)
      · rintro (h | h)
        · exact ih.mpr h
        · subst h; exact hx
    · simp only [hx, if_false, List.mem_append, List.mem_singleton, ih]

theorem first_visits_nodup {α : Type} [DecidableEq α] (keys : List α) :
    (first_visits keys).Nodup := by
  induction keys using List.reverseRecOn with
  | nil => simp [first_visits, first_visits_from]
  | append_singleton ks x ih =>
    rw [first_visits_snoc]
    by_cases hx : x ∈ first_visits ks
    · simp only [hx, if_true]; exact ih
    · simp only [hx, if_false]
      rw [List.nodup_append]
      refine ⟨ih, List.nodup_singleton x, ?_⟩
      intro a ha hb
      simp only [List.mem_singleton] at hb
      subst hb
      exact hx ha

theorem precondition_keys_snoc (samples : List ObjectSample) (nodes : List Addr) (a : Addr) :
    precondition_keys samples (nodes ++ [a]) =
      precondition_keys samples nodes ++ (precondition_key samples a).toList := by
  simp only [precondition_keys, List.filterMap_append]
  cases h : precondition_key samples a <;> simp [List.filterMap_cons, h]

namespace BlobCache

theorem is_key_iff (hash : Nat) (id : traceid) (e : BlobEntry) :
    is_key hash id e = true ↔ e.key = (hash, id) := by
  simp [is_key, BlobEntry.key, Prod.ext_iff]

theorem find_eq_none_iff (c : BlobCache) (s : ObjectSample) :
    c.find s = none ↔ s.key ∉ c.table.entries.map BlobEntry.key := by
  unfold find
  rw [List.find?_eq_none]
  simp only [List.mem_map, not_exists, not_and, is_key_iff, ObjectSample.key]

theorem find_some_mem (c : BlobCache) (s : ObjectSample) (e : BlobEntry)
    (h : c.find s = some e) : e ∈ c.table.entries ∧ e.key = s.key := by
  unfold find at h
  have h1 := List.mem_of_find?_eq_some h
  have h2 := List.find?_some h
  exact ⟨h1, (is_key_iff _ _ _).mp h2⟩

theorem find_congr (c : BlobCache) (s1 s2 : ObjectSample) (h : s1.key = s2.key) :
    c.find s1 = c.find s2 := by
  unfold find
  simp only [ObjectSample.key, Prod.mk.injEq] at h
  rw [h.1, h.2]

end BlobCache

/-! ## The resolver pass -/

theorem map_identity_set (l : List ObjectSample) (a : Addr) (s : ObjectSample)
    (b : JfrBlobHandle) (hs : l[a]? = some s) :
    (l.set a (s.set_stacktrace b)).map ObjectSample.identity = l.map ObjectSample.identity := by
  apply List.ext_getElem?
  intro i
  simp only [List.getElem?_map, List.getElem?_set]
  by_cases hi : a = i
  · subst hi
    have hlt : a < l.length := (List.getElem?_eq_some.mp hs).1
    simp [hlt, hs, ObjectSample.identity, ObjectSample.set_stacktrace]
  · simp [hi]

theorem identity_at (l l0 : List ObjectSample)
    (h : l.map ObjectSample.identity = l0.map ObjectSample.identity) (a : Addr)
    (s : ObjectSample) (hs : l[a]? = some s) :
    ∃ s0, l0[a]? = some s0 ∧ s0.identity = s.identity := by
  have := congrArg (fun x => x[a]?) h
  simp only [List.getElem?_map, hs, Option.map_some'] at this
  cases h0 : l0[a]? with
  | none => simp [h0] at this
  | some s0 =>
    simp only [h0, Option.map_some', Option.some.injEq] at this
    exact ⟨s0, rfl, this.symm⟩

theorem precondition_of_identity (s s0 : ObjectSample) (h : s0.identity = s.identity) :
    stack_trace_precondition s0 = stack_trace_precondition s ∧ s0.key = s.key := by
  have h1 : stack_trace_precondition s0 = stack_trace_precondition s0.identity := rfl
  have h2 : stack_trace_precondition s = stack_trace_precondition s.identity := rfl
  have h3 : s0.key = s0.identity.key := rfl
  have h4 : s.key = s.identity.key := rfl
  rw [h1, h2, h3, h4, h]
  exact ⟨rfl, rfl⟩

theorem precondition_key_of_identity (l l0 : List ObjectSample)
    (h : l.map ObjectSample.identity = l0.map ObjectSample.identity) (a : Addr)
    (s : ObjectSample) (hs : l[a]? = some s) :
    precondition_key l0 a = if stack_trace_precondition s then some s.key else none := by
  obtain ⟨s0, hs0, hid⟩ := identity_at l l0 h a s hs
  obtain ⟨h1, h2⟩ := precondition_of_identity s s0 hid
  simp only [precondition_key, hs0, h1, h2]

theorem trace_blob_data_ne_nil (t : JfrStackTrace) : trace_blob_data t ≠ [] := by
  simp [trace_blob_data]

theorem getElem?_set_cases (l : List ObjectSample) (a b : Addr) (x s : ObjectSample)
    (h : (l.set a x)[b]? = some s) : (b = a ∧ s = x) ∨ (b ≠ a ∧ l[b]? = some s) := by
  rw [List.getElem?_set] at h
  by_cases hab : a = b
  · subst hab
    simp only [if_true] at h
    by_cases hlt : a < l.length
    · simp only [hlt, if_true, Option.some.injEq] at h
      exact Or.inl ⟨rfl, h.symm⟩
    · simp [hlt] at h
  · simp only [hab, if_false] at h
    exact Or.inr ⟨fun h' => hab h'.symm, h⟩

theorem installer_inv_step (st0 : State) (done : List Addr) (a : Addr)
    (p p1 : StackTraceBlobInstaller × State) (inv : InstallerInv st0 done p)
    (h : StackTraceBlobInstaller.sample_do a p = .ok p1) :
    InstallerInv st0 (done ++ [a]) p1 := by
  obtain ⟨s, hs, hcase⟩ := installer_sample_do_ok a p p1 h
  have hk := precondition_key_of_identity _ _ inv.identity a s hs
  rcases hcase with ⟨hpre, rfl⟩ | ⟨hpre, hsize, hfixed, hcase⟩
  · have hkeys : precondition_keys st0.samples (done ++ [a]) =
        precondition_keys st0.samples done := by
      rw [precondition_keys_snoc, hk]; simp [hpre]
    refine ⟨inv.identity, inv.fixed, inv.count, inv.literal, inv.fresh, inv.flags, ?_, ?_, ?_,
      inv.handles⟩
    · rw [hkeys]; exact inv.keys
    · rw [hkeys]; exact inv.lookups
    · intro b hb sb hsb hpb
      rcases List.mem_append.mp hb with hb | hb
      · exact inv.attached b hb sb hsb hpb
      · simp only [List.mem_singleton] at hb
        subst hb
        rw [hs] at hsb
        cases hsb
        rw [hpre] at hpb
        exact Bool.noConfusion hpb
  · have hkeys : precondition_keys st0.samples (done ++ [a]) =
        precondition_keys st0.samples done ++ [s.key] := by
      rw [precondition_keys_snoc, hk]; simp [hpre]
    rcases hcase with ⟨e, k, hfind, hlit, hent, hsamples, hblobs, hcount, hlook⟩ |
      ⟨t, hfind, hnost, hrep, hent, hsamples, hblobs, hcount, hlook⟩
    · obtain ⟨hemem, hekey⟩ := BlobCache.find_some_mem _ _ _ hfind
      have hin : s.key ∈ first_visits (precondition_keys st0.samples done) := by
        have : s.key ∈ p.1.cache.table.entries.map BlobEntry.key :=
          List.mem_map.mpr ⟨e, hemem, hekey⟩
        rw [inv.keys] at this
        exact List.mem_reverse.mp this
      have hfv : first_visits (precondition_keys st0.samples (done ++ [a])) =
          first_visits (precondition_keys st0.samples done) := by
        rw [hkeys, first_visits_snoc]; simp [hin]
      have hfindeq : ∀ x, p1.1.cache.find x = p.1.cache.find x := by
        intro x; unfold BlobCache.find; rw [hent]
      obtain ⟨k', hk', hlo, hhi⟩ := inv.literal e hemem
      rw [hlit] at hk'
      cases hk'
      refine ⟨?_, ?_, ?_, ?_, ?_, ?_, ?_, ?_, ?_, ?_⟩
      · rw [hsamples, map_identity_set _ _ _ _ hs]; exact inv.identity
      · rw [hfixed]; exact inv.fixed
      · rw [hcount, hent]; exact inv.count
      · intro e' he'
        rw [hent] at he'
        rw [hcount]
        exact inv.literal e' he'
      · intro j hj1 hj2
        rw [hblobs]
        rw [hcount] at hj2
        exact inv.fresh j hj1 hj2
      · intro j hj
        rw [hblobs] at hj
        exact inv.flags j hj
      · rw [hent, hfv]; exact inv.keys
      · rw [hlook, hfv]; exact inv.lookups
      · intro b hb sb hsb hpb
        rw [hsamples] at hsb
        rcases getElem?_set_cases _ _ _ _ _ hsb with ⟨rfl, rfl⟩ | ⟨hne, hsb'⟩
        · refine ⟨e, ?_, ?_⟩
          · rw [hfindeq, ← hfind]
            exact BlobCache.find_congr _ _ _ rfl
          · simp [ObjectSample.set_stacktrace, hlit]
        · have hb' : b ∈ done := by
            rcases List.mem_append.mp hb with hb | hb
            · exact hb
            · simp only [List.mem_singleton] at hb
              exact absurd hb hne
          obtain ⟨e', he', hst'⟩ := inv.attached b hb' sb hsb' hpb
          exact ⟨e', by rw [hfindeq]; exact he', hst'⟩
      · intro b sb s0 hsb hs0
        rw [hsamples] at hsb
        rcases getElem?_set_cases _ _ _ _ _ hsb with ⟨rfl, rfl⟩ | ⟨hne, hsb'⟩
        · right
          exact ⟨k, rfl, hlo, by rw [hcount]; exact hhi⟩
        · rw [hcount]
          exact inv.handles b sb s0 hsb' hs0
    · have hnot : s.key ∉ first_visits (precondition_keys st0.samples done) := by
        have := (BlobCache.find_eq_none_iff _ _).mp hfind
        rw [inv.keys] at this
        intro hin
        exact this (List.mem_reverse.mpr hin)
      have hfv : first_visits (precondition_keys st0.samples (done ++ [a])) =
          first_visits (precondition_keys st0.samples done) ++ [s.key] := by
        rw [hkeys, first_visits_snoc]; simp [hnot]
      have hlo : st0.blob_count ≤ p.2.blob_count := by rw [inv.count]; exact Nat.le_add_right _ _
      refine ⟨?_, ?_, ?_, ?_, ?_, ?_, ?_, ?_, ?_, ?_⟩
      · rw [hsamples, map_identity_set _ _ _ _ hs]; exact inv.identity
      · rw [hfixed]; exact inv.fixed
      · rw [hcount, hent, inv.count]; simp [Nat.add_assoc]
      · intro e' he'
        rw [hent] at he'
        rw [hcount]
        rcases List.mem_cons.mp he' with rfl | he'
        · exact ⟨p.2.blob_count, rfl, hlo, Nat.lt_succ_self _⟩
        · obtain ⟨j, hj, hj1, hj2⟩ := inv.literal e' he'
          exact ⟨j, hj, hj1, Nat.lt_succ_of_lt hj2⟩
      · intro j hj1 hj2
        rw [hblobs]
        rw [hcount] at hj2
        by_cases hj : j = p.2.blob_count
        · subst hj
          rw [Function.update_same]
          exact ⟨trace_blob_data_ne_nil t, rfl⟩
        · rw [Function.update_noteq hj]
          exact inv.fresh j hj1 (lt_of_le_of_ne (Nat.lt_succ_iff.mp hj2) hj)
      · intro j hj
        rw [hblobs] at hj
        by_cases hjc : j = p.2.blob_count
        · subst hjc
          simp only [Function.update_same] at hj
          exact Bool.noConfusion hj
        · rw [Function.update_noteq hjc] at hj
          exact inv.flags j hj
      · rw [hent, hfv, List.map_cons, inv.keys, List.reverse_append]
        rfl
      · rw [hlook, hfv, inv.lookups, List.append_assoc]
      · intro b hb sb hsb hpb
        rw [hsamples] at hsb
        rcases getElem?_set_cases _ _ _ _ _ hsb with ⟨rfl, rfl⟩ | ⟨hne, hsb'⟩
        · refine ⟨⟨s.stack_trace_hash, s.stack_trace_id, some p.2.blob_count⟩, ?_, rfl⟩
          unfold BlobCache.find
          rw [hent]
          simp [List.find?_cons, BlobCache.is_key, ObjectSample.set_stacktrace]
        · have hb' : b ∈ done := by
            rcases List.mem_append.mp hb with hb | hb
            · exact hb
            · simp only [List.mem_singleton] at hb
              exact absurd hb hne
          obtain ⟨e', he', hst'⟩ := inv.attached b hb' sb hsb' hpb
          refine ⟨e', ?_, hst'⟩
          have hkne : sb.key ≠ s.key := by
            intro hkk
            rw [BlobCache.find_congr _ _ _ hkk, hfind] at he'
            exact Option.noConfusion he'
          have hhead : BlobCache.is_key sb.stack_trace_hash sb.stack_trace_id
              ⟨s.stack_trace_hash, s.stack_trace_id, some p.2.blob_count⟩ = false := by
            cases hb : BlobCache.is_key sb.stack_trace_hash sb.stack_trace_id
              ⟨s.stack_trace_hash, s.stack_trace_id, some p.2.blob_count⟩ with
            | false => rfl
            | true =>
              exfalso
              exact hkne ((BlobCache.is_key_iff _ _ _).mp hb).symm
          unfold BlobCache.find at he' ⊢
          rw [hent, List.find?_cons, hhead]
          exact he'
      · intro b sb s0 hsb hs0
        rw [hsamples] at hsb
        rcases getElem?_set_cases _ _ _ _ _ hsb with ⟨rfl, rfl⟩ | ⟨hne, hsb'⟩
        · right
          exact ⟨p.2.blob_count, rfl, hlo, by rw [hcount]; exact Nat.lt_succ_self _⟩
        · rw [hcount]
          rcases inv.handles b sb s0 hsb' hs0 with h1 | ⟨j, hj, hj1, hj2⟩
          · exact Or.inl h1
          · exact Or.inr ⟨j, hj, hj1, Nat.lt_succ_of_lt hj2⟩

theorem installer_inv_run (st0 : State) :
    ∀ (nodes done : List Addr) (p p1 : StackTraceBlobInstaller × State),
      InstallerInv st0 done p → run_list StackTraceBlobInstaller.sample_do nodes p = .ok p1 →
      InstallerInv st0 (done ++ nodes) p1 := by
  intro nodes
  induction nodes with
  | nil =>
    intro done p p1 inv h
    simp only [run_list, Except.ok.injEq] at h
    subst h
    simpa using inv
  | cons a rest ih =>
    intro done p p1 inv h
    simp only [run_list] at h
    cases hstep : StackTraceBlobInstaller.sample_do a p with
    | error e => simp [hstep] at h
    | ok p0 =>
      simp only [hstep] at h
      have := ih (done ++ [a]) p0 p1 (installer_inv_step st0 done a p p0 inv hstep) h
      simpa using this

theorem installer_inv_new (st : State) :
    InstallerInv (prepare_for_resolution st) [] (StackTraceBlobInstaller.new st) := by
  refine ⟨rfl, rfl, rfl, ?_, ?_, fun _ h => h, rfl, ?_, ?_, fun _ _ _ h1 h2 => ?_⟩
  · intro e he
    simp [StackTraceBlobInstaller.new, BlobCache.new] at he
  · intro k h1 h2
    exact absurd h2 (Nat.not_lt.mpr h1)
  · simp [StackTraceBlobInstaller.new, first_visits, first_visits_from, precondition_keys]
  · intro b hb
    simp at hb
  · left
    simp only [StackTraceBlobInstaller.new] at h1
    rw [h1] at h2
    cases h2
    rfl

theorem installer_links (a : Addr) (p p1 : StackTraceBlobInstaller × State)
    (h : StackTraceBlobInstaller.sample_do a p = .ok p1) :
    links p1.2.samples = links p.2.samples := by
  obtain ⟨s, hs, hcase⟩ := installer_sample_do_ok a p p1 h
  have hset : ∀ b : JfrBlobHandle,
      links (p.2.samples.set a (s.set_stacktrace b)) = links p.2.samples := by
    intro b
    have := links_update_sample p.2 a (fun s => s.set_stacktrace b) (fun _ => rfl)
    rw [update_sample_of_some p.2 a _ s hs] at this
    exact this
  rcases hcase with ⟨_, rfl⟩ | ⟨_, _, _, hcase⟩
  · rfl
  · rcases hcase with ⟨e, k, _, _, _, hsamples, _⟩ | ⟨t, _, _, _, _, hsamples, _⟩
    · rw [hsamples]; exact hset _
    · rw [hsamples]; exact hset _

/-- A returning resolver pass over the path `nodes` ends in a state that satisfies the pass
invariant for all of `nodes`. -/
theorem install_stack_traces_inv (fuel : Nat) (st st1 : State) (nodes : List Addr)
    (hpath : is_path st.samples st.last st.last_resolved nodes = true)
    (hfuel : nodes.length ≤ fuel) (h : install_stack_traces fuel st = .ok st1) :
    ∃ inst, InstallerInv (prepare_for_resolution st) nodes (inst, st1) := by
  unfold install_stack_traces at h
  split_ifs at h with h1 h2
  cases hrun : iterate_samples StackTraceBlobInstaller.sample_do fuel false
      (StackTraceBlobInstaller.new st) with
  | error e => simp [hrun] at h
  | ok p =>
    simp only [hrun, Except.ok.injEq] at h
    subst h
    unfold iterate_samples do_samples at hrun
    have hlast : (StackTraceBlobInstaller.new st).2.last = st.last := rfl
    have hlr : (StackTraceBlobInstaller.new st).2.last_resolved = st.last_resolved := rfl
    simp only [hlast, hlr, h1, if_false, Bool.false_eq_true] at hrun
    rw [do_samples_loop_eq _ installer_links nodes fuel _ _ _ hpath hfuel] at hrun
    have := installer_inv_run (prepare_for_resolution st) nodes [] _ _ (installer_inv_new st) hrun
    exact ⟨p.1, by simpa using this⟩

/-! ## Rotation -/

theorem reset_loop_frame : ∀ (fuel : Nat) (ptr : Option Addr) (st st1 : State),
    reset_blob_write_state_loop fuel ptr st = .ok st1 →
    st1 = { st with blobs := st1.blobs } ∧
    (∀ k, (st1.blobs k).data = (st.blobs k).data) ∧
    (∀ k, (st1.blobs k).written = true → (st.blobs k).written = true) := by
  intro fuel
  induction fuel with
  | zero =>
    intro ptr st st1 h
    cases ptr with
    | none =>
      simp only [reset_blob_write_state_loop, Except.ok.injEq] at h
      subst h
      exact ⟨rfl, fun _ => rfl, fun _ h => h⟩
    | some a => simp [reset_blob_write_state_loop] at h
  | succ fuel ih =>
    intro ptr st st1 h
    cases ptr with
    | none =>
      simp only [reset_blob_write_state_loop, Except.ok.injEq] at h
      subst h
      exact ⟨rfl, fun _ => rfl, fun _ h => h⟩
    | some a =>
      cases hs : st.samples[a]? with
      | none => simp [reset_blob_write_state_loop, hs] at h
      | some s =>
        rw [reset_loop_step fuel a st s hs] at h
        obtain ⟨hfr, hdata, hmono⟩ := ih _ _ _ h
        refine ⟨?_, ?_, ?_⟩
        · rw [hfr, reset_sample_frame]
        · intro k
          rw [hdata k, reset_sample_blobs]
          split_ifs <;> rfl
        · intro k hk
          have := hmono k hk
          rw [reset_sample_blobs] at this
          by_cases hh : s.holds k
          · simp [hh] at this
          · simpa [hh] using this

/-- The shape of a returning `on_rotation`: the flag reset, then either the early return or the
resolver pass followed by the release of the repository. -/
theorem on_rotation_ok (fuel : Nat) (st st2 : State)
    (h : ObjectSampleCheckpoint.on_rotation fuel st = .ok st2) :
    st.running = true ∧ ∃ st1, reset_blob_write_state fuel st = .ok st1 ∧
      st1 = { st with blobs := st1.blobs } ∧
      (∀ k, (st1.blobs k).written = true → (st.blobs k).written = true) ∧
      ((has_unresolved_entry st = false ∧ st2 = st1) ∨
       (has_unresolved_entry st = true ∧
        ∃ st3, install_stack_traces fuel st1 = .ok st3 ∧ st2 = clear_leak_profiler st3)) := by
  unfold ObjectSampleCheckpoint.on_rotation at h
  by_cases hrun : st.running = true
  swap
  · simp [hrun] at h
  · simp only [hrun, Bool.not_true, Bool.false_eq_true, if_false] at h
    refine ⟨hrun, ?_⟩
    cases hreset : reset_blob_write_state fuel st with
    | error e => simp [hreset] at h
    | ok st1 =>
      simp only [hreset] at h
      obtain ⟨hfr, _, hmono⟩ := reset_loop_frame fuel _ st st1 hreset
      have hun : has_unresolved_entry st1 = has_unresolved_entry st := by
        unfold has_unresolved_entry; rw [hfr]
      refine ⟨st1, rfl, hfr, hmono, ?_⟩
      cases hu : has_unresolved_entry st with
      | false =>
        rw [hun, hu] at h
        simp only [Bool.not_false, if_true, Except.ok.injEq] at h
        exact Or.inl ⟨rfl, h.symm⟩
      | true =>
        rw [hun, hu] at h
        simp only [Bool.not_true, Bool.false_eq_true, if_false] at h
        cases hinst : install_stack_traces fuel st1 with
        | error e => simp [hinst] at h
        | ok st3 =>
          simp only [hinst, Except.ok.injEq] at h
          exact Or.inr ⟨rfl, st3, rfl, h.symm⟩

/-- A returning loop of `do_samples` has walked a path of at most `fuel` nodes. -/
theorem do_samples_loop_path {π : Type} (sample_do : Addr → π × State → Except Fault (π × State))
    (hframe : ∀ a p p1, sample_do a p = .ok p1 → links p1.2.samples = links p.2.samples) :
    ∀ (fuel : Nat) (ptr e : Option Addr) (p p1 : π × State),
      do_samples_loop sample_do fuel ptr e p = .ok p1 →
      ∃ nodes, is_path p.2.samples ptr e nodes = true ∧ nodes.length ≤ fuel := by
  intro fuel
  induction fuel with
  | zero =>
    intro ptr e p p1 h
    unfold do_samples_loop at h
    by_cases hpe : ptr = e
    · exact ⟨[], by simp [is_path, hpe], Nat.le_refl _⟩
    · simp [hpe] at h
  | succ fuel ih =>
    intro ptr e p p1 h
    unfold do_samples_loop at h
    by_cases hpe : ptr = e
    · exact ⟨[], by simp [is_path, hpe], Nat.zero_le _⟩
    · simp only [hpe, if_false] at h
      cases ptr with
      | none => simp at h
      | some a =>
        simp only at h
        cases hdo : sample_do a p with
        | error err => simp [hdo] at h
        | ok p0 =>
          simp only [hdo] at h
          cases hs0 : p0.2.samples[a]? with
          | none => simp [hs0] at h
          | some s0 =>
            simp only [hs0] at h
            obtain ⟨nodes, hp, hl⟩ := ih _ _ _ _ h
            have hlinks := hframe a p p0 hdo
            have ha : (p.2.samples[a]?).map (fun s => s.next) = some s0.next := by
              have := congrArg (fun l => l[a]?) hlinks
              simp only [links, List.getElem?_map, hs0, Option.map_some'] at this
              exact this.symm
            cases hs : p.2.samples[a]? with
            | none => simp [hs] at ha
            | some s =>
              simp only [hs, Option.map_some', Option.some.injEq] at ha
              refine ⟨a :: nodes, ?_, Nat.succ_le_succ hl⟩
              unfold is_path
              simp only [hs, decide_True, Bool.true_and, Bool.and_eq_true, decide_eq_true_eq]
              refine ⟨hpe, ?_⟩
              rw [ha, ← is_path_of_links _ _ hlinks]
              exact hp

/-- A returning resolver pass satisfies the pass invariant for the nodes it walked. -/
theorem install_stack_traces_inv_exists (fuel : Nat) (st st1 : State)
    (h : install_stack_traces fuel st = .ok st1) :
    ∃ nodes inst, is_path st.samples st.last st.last_resolved nodes = true ∧
      InstallerInv (prepare_for_resolution st) nodes (inst, st1) := by
  have h0 := h
  unfold install_stack_traces at h
  split_ifs at h with h1 h2
  cases hrun : iterate_samples StackTraceBlobInstaller.sample_do fuel false
      (StackTraceBlobInstaller.new st) with
  | error e => simp [hrun] at h
  | ok p =>
    unfold iterate_samples do_samples at hrun
    have hlast : (StackTraceBlobInstaller.new st).2.last = st.last := rfl
    have hlr : (StackTraceBlobInstaller.new st).2.last_resolved = st.last_resolved := rfl
    simp only [hlast, hlr, h1, if_false, Bool.false_eq_true] at hrun
    obtain ⟨nodes, hp, hl⟩ := do_samples_loop_path _ installer_links _ _ _ _ _ hrun
    obtain ⟨inst, inv⟩ := install_stack_traces_inv fuel st st1 nodes hp hl h0
    exact ⟨nodes, inst, hp, inv⟩

/-- C10: `on_rotation` resets the written flags of the blobs of the resolved samples (the path
`resolved` from the `last resolved` cursor to the end of the list).  The reset step itself
always returns, and when there is no unresolved entry `on_rotation` returns its result;
whenever `on_rotation` returns, with or without unresolved entries, every stack-trace,
thread and type-set blob held by a resolved sample (before the call, or after it) has its
flag unset. -/
theorem on_rotation_resets_write_state (fuel : Nat) (st : State) (resolved : List Addr)
    (hpath : is_path st.samples st.last_resolved none resolved = true)
    (hfuel : resolved.length ≤ fuel) (hrun : st.running = true) :
    (∃ st1, reset_blob_write_state fuel st = .ok st1 ∧
      (has_unresolved_entry st = false →
        ObjectSampleCheckpoint.on_rotation fuel st = .ok st1)) ∧
    (∀ st2, ObjectSampleCheckpoint.on_rotation fuel st = .ok st2 →
      (∀ a ∈ resolved, ∀ s, st.samples[a]? = some s → ∀ k, s.holds k →
        (st2.blobs k).written = false) ∧
      (∀ a ∈ resolved, ∀ s, st2.samples[a]? = some s → ∀ k, s.holds k →
        (st2.blobs k).written = false)) := by
  obtain ⟨st1, hreset, hfr, _, _, hflags⟩ := reset_loop_spec resolved fuel _ st hpath hfuel
  have hreset' : reset_blob_write_state fuel st = .ok st1 := hreset
  constructor
  · refine ⟨st1, hreset', ?_⟩
    intro hno
    have hun : has_unresolved_entry st1 = false := by
      unfold has_unresolved_entry at hno ⊢; rw [hfr]; exact hno
    simp [ObjectSampleCheckpoint.on_rotation, hrun, hreset', hun]
  · intro st2 h
    obtain ⟨_, st1', hreset1, _, _, hcase⟩ := on_rotation_ok fuel st st2 h
    rw [hreset'] at hreset1
    have he : st1 = st1' := Except.ok.inj hreset1
    subst he
    have hsame : st1.samples = st.samples := by rw [hfr]
    rcases hcase with ⟨_, rfl⟩ | ⟨_, st3, hinst, rfl⟩
    · refine ⟨hflags, ?_⟩
      intro a ha s hs k hk
      rw [hsame] at hs
      exact hflags a ha s hs k hk
    · obtain ⟨nodes, inst, _, inv⟩ := install_stack_traces_inv_exists fuel st1 st3 hinst
      have hmono : ∀ k, (st3.blobs k).written = true → (st1.blobs k).written = true :=
        fun k hk => inv.flags k hk
      have hpre : ∀ a ∈ resolved, ∀ s, st.samples[a]? = some s → ∀ k, s.holds k →
          (st3.blobs k).written = false := by
        intro a ha s hs k hk
        cases hw : (st3.blobs k).written with
        | false => rfl
        | true =>
          have h1 := hmono k hw
          rw [hflags a ha s hs k hk] at h1
          exact Bool.noConfusion h1
      refine ⟨hpre, ?_⟩
      intro a ha s hs k hk
      have hs3 : st3.samples[a]? = some s := hs
      obtain ⟨s0, hs0, hid⟩ := identity_at _ _ inv.identity a s hs3
      have hs0' : st.samples[a]? = some s0 := by
        have : (prepare_for_resolution st1).samples = st.samples := hsame
        rw [← this]; exact hs0
      have hthread : s.thread = s0.thread := by
        have := congrArg ObjectSample.thread hid
        exact this.symm
      have htype : s.type_set = s0.type_set := by
        have := congrArg ObjectSample.type_set hid
        exact this.symm
      rcases hk with hk | hk | hk
      · rcases inv.handles a s s0 hs3 hs0 with hst | ⟨j, hj, hlo, hhi⟩
        · exact hpre a ha s0 hs0' k (Or.inl (by rw [← hst]; exact hk))
        · rw [hk] at hj
          cases hj
          exact (inv.fresh k hlo hhi).2
      · exact hpre a ha s0 hs0' k (Or.inr (Or.inl (by rw [← hthread]; exact hk)))
      · exact hpre a ha s0 hs0' k (Or.inr (Or.inr (by rw [← htype]; exact hk)))

theorem on_rotation_resets_write_state_witness :
    (∃ st1, reset_blob_write_state 2 State.two_resolved = .ok st1 ∧
      (has_unresolved_entry State.two_resolved = false →
        ObjectSampleCheckpoint.on_rotation 2 State.two_resolved = .ok st1)) ∧
    (∀ st2, ObjectSampleCheckpoint.on_rotation 2 State.two_resolved = .ok st2 →
      (∀ a ∈ [0, 1], ∀ s, State.two_resolved.samples[a]? = some s → ∀ k, s.holds k →
        (st2.blobs k).written = false) ∧
      (∀ a ∈ [0, 1], ∀ s, st2.samples[a]? = some s → ∀ k, s.holds k →
        (st2.blobs k).written = false)) :=
  on_rotation_resets_write_state 2 State.two_resolved [0, 1] rfl (by decide) rfl

/-! ## The `last resolved` cursor -/

theorem do_samples_loop_invariant {π : Type}
    (sample_do : Addr → π × State → Except Fault (π × State)) (I : π × State → Prop)
    (hstep : ∀ a p p1, I p → sample_do a p = .ok p1 → I p1) :
    ∀ (fuel : Nat) (ptr e : Option Addr) (p p1 : π × State),
      I p → do_samples_loop sample_do fuel ptr e p = .ok p1 → I p1 := by
  intro fuel
  induction fuel with
  | zero =>
    intro ptr e p p1 hI h
    unfold do_samples_loop at h
    by_cases hpe : ptr = e
    · simp only [hpe, if_true, Except.ok.injEq] at h
      subst h; exact hI
    · simp [hpe] at h
  | succ fuel ih =>
    intro ptr e p p1 hI h
    unfold do_samples_loop at h
    by_cases hpe : ptr = e
    · simp only [hpe, if_true, Except.ok.injEq] at h
      subst h; exact hI
    · simp only [hpe, if_false] at h
      cases ptr with
      | none => simp at h
      | some a =>
        simp only at h
        cases hdo : sample_do a p with
        | error err => simp [hdo] at h
        | ok p0 =>
          simp only [hdo] at h
          cases hs0 : p0.2.samples[a]? with
          | none => simp [hs0] at h
          | some s0 =>
            simp only [hs0] at h
            exact ih _ _ _ _ (hstep a p p0 hI hdo) h

theorem map_sans_type_set_set (l : List ObjectSample) (a : Addr) (s : ObjectSample)
    (b : JfrBlobHandle) (hs : l[a]? = some s) :
    (l.set a { s with type_set := b }).map ObjectSample.sans_type_set =
      l.map ObjectSample.sans_type_set := by
  apply List.ext_getElem?
  intro i
  simp only [List.getElem?_map, List.getElem?_set]
  by_cases hi : a = i
  · subst hi
    have hlt : a < l.length := (List.getElem?_eq_some.mp hs).1
    simp [hlt, hs, ObjectSample.sans_type_set]
  · simp [hi]

theorem same_but_samples_refl (st : State) : st.same_but_samples st := by
  unfold State.same_but_samples; rfl

theorem same_but_samples_set (st1 st : State) (l : List ObjectSample)
    (h : st1.same_but_samples st) : State.same_but_samples { st1 with samples := l } st := by
  unfold State.same_but_samples at h ⊢
  exact congrArg (fun x : State => { x with samples := l }) h

/-- The type-set installation changes nothing of a sample but its type-set handle, and
nothing of the state but the samples and the record of its requests. -/
theorem type_set_install_frame (fuel : Nat) (sample end_ : Option Addr) (st st1 : State)
    (h : JfrReferenceCountedStorage.install fuel sample end_ st = .ok st1) :
    st1 = { st with samples := st1.samples,
                    type_set_installs := st.type_set_installs ++ [(sample, end_)] } ∧
    st1.samples.map ObjectSample.sans_type_set = st.samples.map ObjectSample.sans_type_set := by
  unfold JfrReferenceCountedStorage.install at h
  cases hrun : do_samples_loop install_type_set fuel sample end_
      ((), { st with type_set_installs := st.type_set_installs ++ [(sample, end_)] }) with
  | error e => simp [hrun] at h
  | ok p =>
    simp only [hrun, Except.ok.injEq] at h
    subst h
    have := do_samples_loop_invariant install_type_set
      (fun q => q.2.same_but_samples
          { st with type_set_installs := st.type_set_installs ++ [(sample, end_)] } ∧
        q.2.samples.map ObjectSample.sans_type_set = st.samples.map ObjectSample.sans_type_set)
      ?_ fuel sample end_ _ p ⟨same_but_samples_refl _, rfl⟩ hrun
    · exact this
    · intro a q q1 hI hdo
      unfold install_type_set at hdo
      cases hs : q.2.samples[a]? with
      | none => simp [hs] at hdo
      | some s =>
        simp only [hs, Except.ok.injEq] at hdo
        subst hdo
        simp only
        rw [update_sample_of_some q.2 a _ s hs]
        refine ⟨?_, ?_⟩
        · exact same_but_samples_set _ _ _ hI.1
        · simp only
          rw [map_sans_type_set_set _ _ _ _ hs]
          exact hI.2

/-- The shape of a returning `on_type_set`. -/
theorem on_type_set_ok (fuel : Nat) (st st2 : State)
    (h : ObjectSampleCheckpoint.on_type_set fuel st = .ok st2) :
    (has_unresolved_entry st = false ∧ st2 = st) ∨
    (has_unresolved_entry st = true ∧ st.last ≠ none ∧ st.last ≠ st.last_resolved ∧
      ∃ st1, JfrReferenceCountedStorage.install fuel st.last st.last_resolved st = .ok st1 ∧
        st2 = st1.set_last_resolved st.last) := by
  unfold ObjectSampleCheckpoint.on_type_set at h
  by_cases hrun : st.running = true
  swap
  · simp [hrun] at h
  · simp only [hrun, Bool.not_true, Bool.false_eq_true, if_false] at h
    cases hu : has_unresolved_entry st with
    | false =>
      simp only [hu, Bool.not_false, if_true, Except.ok.injEq] at h
      exact Or.inl ⟨rfl, h.symm⟩
    | true =>
      simp only [hu, Bool.not_true, Bool.false_eq_true, if_false] at h
      split_ifs at h with h1 h2
      cases hinst : JfrReferenceCountedStorage.install fuel st.last st.last_resolved st with
      | error e => simp [hinst] at h
      | ok st1 =>
        simp only [hinst, Except.ok.injEq] at h
        exact Or.inr ⟨rfl, h1, h2, st1, rfl, h.symm⟩

theorem is_path_cons (S : List ObjectSample) (p e : Option Addr) (a : Addr) (rest : List Addr)
    (h : is_path S p e (a :: rest) = true) :
    p = some a ∧ p ≠ e ∧ ∃ s, S[a]? = some s ∧ is_path S s.next e rest = true := by
  unfold is_path at h
  simp only [Bool.and_eq_true, decide_eq_true_eq] at h
  obtain ⟨⟨h1, h2⟩, h3⟩ := h
  cases hs : S[a]? with
  | none => simp [hs] at h3
  | some s =>
    simp only [hs] at h3
    exact ⟨h1, h2, s, rfl, h3⟩

theorem is_path_nil (S : List ObjectSample) (p e : Option Addr)
    (h : is_path S p e [] = true) : p = e := by
  simpa [is_path] using h

theorem is_path_unique (S : List ObjectSample) :
    ∀ (U U1 : List Addr) (p e : Option Addr),
      is_path S p e U = true → is_path S p e U1 = true → U = U1 := by
  intro U
  induction U with
  | nil =>
    intro U1 p e h h1
    have hpe := is_path_nil S p e h
    cases U1 with
    | nil => rfl
    | cons b rest =>
      obtain ⟨_, hne, _⟩ := is_path_cons S p e b rest h1
      exact absurd hpe hne
  | cons a rest ih =>
    intro U1 p e h h1
    obtain ⟨hp, hne, s, hs, hrest⟩ := is_path_cons S p e a rest h
    cases U1 with
    | nil => exact absurd (is_path_nil S p e h1) hne
    | cons b rest1 =>
      obtain ⟨hp1, _, s1, hs1, hrest1⟩ := is_path_cons S p e b rest1 h1
      rw [hp] at hp1
      have hab : a = b := Option.some.inj hp1
      subst hab
      rw [hs] at hs1
      have hss : s = s1 := Option.some.inj hs1
      subst hss
      rw [ih rest1 _ _ hrest hrest1]

/-- A path to the end of the list that starts where a path to `e` starts continues that path
from `e`. -/
theorem is_path_split (S : List ObjectSample) :
    ∀ (U P : List Addr) (p e : Option Addr),
      is_path S p e U = true → is_path S p none P = true →
      ∃ R, P = U ++ R ∧ is_path S e none R = true := by
  intro U
  induction U with
  | nil =>
    intro P p e h hP
    have hpe := is_path_nil S p e h
    subst hpe
    exact ⟨P, rfl, hP⟩
  | cons a rest ih =>
    intro P p e h hP
    obtain ⟨hp, hne, s, hs, hrest⟩ := is_path_cons S p e a rest h
    cases P with
    | nil =>
      have := is_path_nil S p none hP
      rw [hp] at this
      exact Option.noConfusion this
    | cons b rest1 =>
      obtain ⟨hp1, _, s1, hs1, hrest1⟩ := is_path_cons S p none b rest1 hP
      rw [hp] at hp1
      have hab : a = b := Option.some.inj hp1
      subst hab
      rw [hs] at hs1
      have hss : s = s1 := Option.some.inj hs1
      subst hss
      obtain ⟨R, hR, hpR⟩ := ih rest1 _ _ hrest hrest1
      exact ⟨R, by rw [hR]; rfl, hpR⟩

theorem links_of_identity (l l0 : List ObjectSample)
    (h : l.map ObjectSample.identity = l0.map ObjectSample.identity) : links l = links l0 := by
  have := congrArg (List.map (fun s : ObjectSample => s.next)) h
  simpa [links, List.map_map, Function.comp_def, ObjectSample.identity] using this

theorem links_of_sans_type_set (l l0 : List ObjectSample)
    (h : l.map ObjectSample.sans_type_set = l0.map ObjectSample.sans_type_set) :
    links l = links l0 := by
  have := congrArg (List.map (fun s : ObjectSample => s.next)) h
  simpa [links, List.map_map, Function.comp_def, ObjectSample.sans_type_set] using this

theorem sans_type_set_at (l l0 : List ObjectSample)
    (h : l.map ObjectSample.sans_type_set = l0.map ObjectSample.sans_type_set) (a : Addr)
    (s : ObjectSample) (hs : l[a]? = some s) :
    ∃ s0, l0[a]? = some s0 ∧ s0.sans_type_set = s.sans_type_set := by
  have := congrArg (fun x => x[a]?) h
  simp only [List.getElem?_map, hs, Option.map_some'] at this
  cases h0 : l0[a]? with
  | none => simp [h0] at this
  | some s0 =>
    simp only [h0, Option.map_some', Option.some.injEq] at this
    exact ⟨s0, rfl, this.symm⟩

/-- What a returning `on_rotation` does to the samples and the cursors. -/
theorem on_rotation_samples (fuel : Nat) (st st2 : State)
    (h : ObjectSampleCheckpoint.on_rotation fuel st = .ok st2) :
    st2.samples.map ObjectSample.identity = st.samples.map ObjectSample.identity ∧
    st2.last = st.last ∧ st2.last_resolved = st.last_resolved ∧
    has_unresolved_entry st2 = has_unresolved_entry st ∧
    (∀ (b : Addr) (s s0 : ObjectSample), st2.samples[b]? = some s → st.samples[b]? = some s0 →
      s0.has_stacktrace = true → s.has_stacktrace = true) ∧
    (has_unresolved_entry st = true →
      ∃ nodes, is_path st.samples st.last st.last_resolved nodes = true ∧
        ∀ a ∈ nodes, ∀ s, st2.samples[a]? = some s → stack_trace_precondition s = true →
          s.has_stacktrace = true) := by
  obtain ⟨_, st1, _, hfr, _, hcase⟩ := on_rotation_ok fuel st st2 h
  have hsame : st1.samples = st.samples := by rw [hfr]
  have hl : st1.last = st.last := by rw [hfr]
  have hlr : st1.last_resolved = st.last_resolved := by rw [hfr]
  have hu : has_unresolved_entry st1 = has_unresolved_entry st := by
    unfold has_unresolved_entry; rw [hfr]
  rcases hcase with ⟨hno, rfl⟩ | ⟨_, st3, hinst, rfl⟩
  · refine ⟨by rw [hsame], hl, hlr, hu, ?_, ?_⟩
    · intro b s s0 hs hs0 h0
      rw [hsame, hs0] at hs
      cases hs
      exact h0
    · intro hyes
      rw [hno] at hyes
      exact Bool.noConfusion hyes
  · obtain ⟨nodes, inst, hpath, inv⟩ := install_stack_traces_inv_exists fuel st1 st3 hinst
    have hid : st3.samples.map ObjectSample.identity = st.samples.map ObjectSample.identity := by
      have := inv.identity
      rw [← hsame]; exact this
    have hfixed : st3.fixed = st1.fixed := inv.fixed
    have h3l : st3.last = st1.last := congrArg (fun t => t.1) hfixed
    have h3lr : st3.last_resolved = st1.last_resolved := congrArg (fun t => t.2.1) hfixed
    have h3u : st3.unresolved_entry = st1.unresolved_entry := congrArg (fun t => t.2.2.1) hfixed
    refine ⟨hid, by rw [← hl, ← h3l]; rfl, by rw [← hlr, ← h3lr]; rfl, ?_, ?_, ?_⟩
    · rw [← hu]; exact h3u
    · intro b s s0 hs hs0 h0
      have hs3 : st3.samples[b]? = some s := hs
      have hs0' : (prepare_for_resolution st1).samples[b]? = some s0 := by
        have : (prepare_for_resolution st1).samples = st.samples := hsame
        rw [this]; exact hs0
      rcases inv.handles b s s0 hs3 hs0' with hst | ⟨k, hk, _, _⟩
      · simp only [ObjectSample.has_stacktrace] at h0 ⊢
        rw [hst]; exact h0
      · simp [ObjectSample.has_stacktrace, JfrBlobHandle.valid, hk]
    · intro _
      refine ⟨nodes, by rw [← hsame, ← hl, ← hlr]; exact hpath, ?_⟩
      intro a ha s hs hpre
      have hs3 : st3.samples[a]? = some s := hs
      obtain ⟨e, hfind, hlit⟩ := inv.attached a ha s hs3 hpre
      obtain ⟨k, hk, _, _⟩ := inv.literal e (BlobCache.find_some_mem _ _ _ hfind).1
      simp [ObjectSample.has_stacktrace, JfrBlobHandle.valid, hlit, hk]

theorem precondition_of_id_live (s : ObjectSample) (hid : s.stack_trace_id ≠ 0)
    (hdead : s.is_dead = false) : stack_trace_precondition s = true := by
  simp [stack_trace_precondition, ObjectSample.has_stack_trace_id, hid, hdead]

theorem on_rotation_keeps_resolved (fuel : Nat) (st st2 : State)
    (hinv : resolved_population_ok st)
    (h : ObjectSampleCheckpoint.on_rotation fuel st = .ok st2) :
    resolved_population_ok st2 := by
  obtain ⟨hid, _, hlr, _, hkeep, _⟩ := on_rotation_samples fuel st st2 h
  intro nodes hpath a ha s hs hsid hdead
  rw [is_path_of_links _ _ (links_of_identity _ _ hid), hlr] at hpath
  obtain ⟨s0, hs0, hident⟩ := identity_at _ _ hid a s hs
  have hid0 : s0.stack_trace_id ≠ 0 := by
    have := congrArg ObjectSample.stack_trace_id hident
    simp only [ObjectSample.identity] at this
    rw [this]; exact hsid
  have hdead0 : s0.is_dead = false := by
    have := congrArg ObjectSample.is_dead hident
    simp only [ObjectSample.identity, ObjectSample.is_dead] at this
    simp only [ObjectSample.is_dead]
    rw [this]; exact hdead
  exact hkeep a s s0 hs hs0 (hinv nodes hpath a ha s0 hs0 hid0 hdead0)

theorem on_rotation_resolves_range (fuel : Nat) (st st2 : State)
    (h : ObjectSampleCheckpoint.on_rotation fuel st = .ok st2)
    (hun : has_unresolved_entry st2 = true) : unresolved_range_ok st2 := by
  obtain ⟨hid, hl, hlr, hu, _, hres⟩ := on_rotation_samples fuel st st2 h
  rw [hu] at hun
  obtain ⟨nodes, hpath, hattached⟩ := hres hun
  intro U hU a ha s hs hsid hdead
  rw [is_path_of_links _ _ (links_of_identity _ _ hid), hl, hlr] at hU
  have hUn : U = nodes := is_path_unique _ _ _ _ _ hU hpath
  subst hUn
  exact hattached a ha s hs (precondition_of_id_live s hsid hdead)

theorem install_type_set_links (a : Addr) (p p1 : Unit × State)
    (h : install_type_set a p = .ok p1) : links p1.2.samples = links p.2.samples := by
  unfold install_type_set at h
  cases hs : p.2.samples[a]? with
  | none => simp [hs] at h
  | some s =>
    simp only [hs, Except.ok.injEq] at h
    subst h
    exact links_update_sample _ _ _ (fun _ => rfl)

/-- `on_type_set` keeps the resolved-population invariant when the samples it moves the
cursor over already hold their stack-trace blobs. -/
theorem on_type_set_keeps_resolved (fuel : Nat) (st st2 : State)
    (hinv : resolved_population_ok st) (hrange : unresolved_range_ok st)
    (h : ObjectSampleCheckpoint.on_type_set fuel st = .ok st2) :
    resolved_population_ok st2 := by
  rcases on_type_set_ok fuel st st2 h with ⟨_, rfl⟩ | ⟨_, _, _, st1, hinst, rfl⟩
  · exact hinv
  · obtain ⟨hfr, hsans⟩ := type_set_install_frame fuel _ _ st st1 hinst
    have hlast : st1.last = st.last := by rw [hfr]
    obtain ⟨U, hU, _⟩ : ∃ nodes, is_path st.samples st.last st.last_resolved nodes = true ∧
        nodes.length ≤ fuel := by
      unfold JfrReferenceCountedStorage.install at hinst
      cases hrun : do_samples_loop install_type_set fuel st.last st.last_resolved
          ((), { st with type_set_installs :=
            st.type_set_installs ++ [(st.last, st.last_resolved)] }) with
      | error e => simp [hrun] at hinst
      | ok p => exact do_samples_loop_path _ install_type_set_links _ _ _ _ _ hrun
    intro P hP a ha s hs hsid hdead
    have hP' : is_path st.samples st.last none P = true := by
      have : is_path st1.samples st.last none P = true := hP
      rw [is_path_of_links _ _ (links_of_sans_type_set _ _ hsans)] at this
      exact this
    obtain ⟨R, hPR, hR⟩ := is_path_split _ U P _ _ hU hP'
    have hs1 : st1.samples[a]? = some s := hs
    obtain ⟨s0, hs0, hident⟩ := sans_type_set_at _ _ hsans a s hs1
    have hid0 : s0.stack_trace_id ≠ 0 := by
      have := congrArg ObjectSample.stack_trace_id hident
      simp only [ObjectSample.sans_type_set] at this
      rw [this]; exact hsid
    have hdead0 : s0.is_dead = false := by
      have := congrArg ObjectSample.is_dead hident
      simp only [ObjectSample.sans_type_set, ObjectSample.is_dead] at this
      simp only [ObjectSample.is_dead]
      rw [this]; exact hdead
    have hst : s.has_stacktrace = s0.has_stacktrace := by
      have := congrArg ObjectSample.has_stacktrace hident
      simp only [ObjectSample.sans_type_set, ObjectSample.has_stacktrace] at this
      simp only [ObjectSample.has_stacktrace]
      exact this.symm
    rw [hst]
    rw [hPR] at ha
    rcases List.mem_append.mp ha with ha | ha
    · exact hrange U hU a ha s0 hs0 hid0 hdead0
    · exact hinv R hR a ha s0 hs0 hid0 hdead0

theorem resolved_population_ok_three_unresolved :
    resolved_population_ok State.three_unresolved := by
  intro nodes hpath a ha
  cases nodes with
  | nil => simp at ha
  | cons b rest =>
    have := (is_path_cons _ _ _ _ _ hpath).1
    exact Option.noConfusion this

/-- C7, as stated, fails: `on_type_set` alone moves the `last resolved` cursor over live
samples with a nonzero stack-trace id that hold no stack-trace blob. -/
theorem on_type_set_breaks_resolved_population :
    resolved_population_ok State.three_unresolved ∧
    ObjectSampleCheckpoint.on_type_set 3 State.three_unresolved =
      .ok (result_or (ObjectSampleCheckpoint.on_type_set 3 State.three_unresolved)
        State.initial) ∧
    ¬ resolved_population_ok
      (result_or (ObjectSampleCheckpoint.on_type_set 3 State.three_unresolved) State.initial) := by
  refine ⟨resolved_population_ok_three_unresolved, rfl, ?_⟩
  · intro hinv
    have := hinv [0, 1, 2] rfl 0 (by decide) (ObjectSample.live (some 1) 3 42) rfl
      (by decide) rfl
    exact absurd this (by decide)

/-- C7, amended: the resolved-population invariant is kept by every returning `on_rotation`,
and by a returning `on_type_set` that directly follows a returning `on_rotation`. -/
theorem resolved_population_kept (fuel fuel1 : Nat) (st st1 : State)
    (hinv : resolved_population_ok st)
    (h : ObjectSampleCheckpoint.on_rotation fuel st = .ok st1) :
    resolved_population_ok st1 ∧
    ∀ st2, ObjectSampleCheckpoint.on_type_set fuel1 st1 = .ok st2 →
      resolved_population_ok st2 := by
  have h1 := on_rotation_keeps_resolved fuel st st1 hinv h
  refine ⟨h1, ?_⟩
  intro st2 h2
  rcases on_type_set_ok fuel1 st1 st2 h2 with ⟨_, rfl⟩ | ⟨hun, _⟩
  · exact h1
  · exact on_type_set_keeps_resolved fuel1 st1 st2 h1
      (on_rotation_resolves_range fuel st st1 h hun) h2

theorem resolved_population_kept_witness :
    resolved_population_ok
      (result_or (ObjectSampleCheckpoint.on_rotation 3 State.three_unresolved) State.initial) ∧
    ∀ st2, ObjectSampleCheckpoint.on_type_set 3
        (result_or (ObjectSampleCheckpoint.on_rotation 3 State.three_unresolved) State.initial)
          = .ok st2 →
      resolved_population_ok st2 :=
  resolved_population_kept 3 3 State.three_unresolved
    (result_or (ObjectSampleCheckpoint.on_rotation 3 State.three_unresolved) State.initial)
    resolved_population_ok_three_unresolved rfl

/-! ## Blob writes -/

theorem same_but_flags_refl (st : State) : st.same_but_flags st := by
  unfold State.same_but_flags; rfl

theorem same_but_flags_trans (st2 st1 st : State) (h2 : st2.same_but_flags st1)
    (h1 : st1.same_but_flags st) : st2.same_but_flags st := by
  unfold State.same_but_flags at h1 h2 ⊢
  rw [h2, h1]

theorem flipped_trans (a b c : Bool) (hab : a = true → b = true) (hbc : b = true → c = true) :
    flipped a b + flipped b c = flipped a c := by
  cases a <;> cases b <;> cases c <;> simp_all [flipped]

theorem Emits.refl (w : JfrCheckpointWriter) (st : State) : Emits w st w st := by
  refine ⟨same_but_flags_refl st, fun _ h => h, fun _ => rfl, ?_⟩
  intro k
  cases (st.blobs k).written <;> simp [flipped]

theorem Emits.trans {w w1 w2 : JfrCheckpointWriter} {st st1 st2 : State}
    (h1 : Emits w st w1 st1) (h2 : Emits w1 st1 w2 st2) : Emits w st w2 st2 := by
  refine ⟨same_but_flags_trans _ _ _ h2.frame h1.frame, fun j h => h2.mono j (h1.mono j h),
    fun j => by rw [h2.data j, h1.data j], ?_⟩
  intro k
  rw [h2.count k, h1.count k, Nat.add_assoc, flipped_trans _ _ _ (h1.mono k) (h2.mono k)]

theorem exclusive_write_emits (st : State) (j : Nat) (w : JfrCheckpointWriter) :
    Emits w st (st.exclusive_write j w).1 (st.exclusive_write j w).2 ∧
    ((st.exclusive_write j w).2.blobs j).written = true := by
  unfold State.exclusive_write
  by_cases hw : (st.blobs j).written = true
  · rw [if_pos hw]
    exact ⟨Emits.refl w st, hw⟩
  · simp only [hw]
    simp only [Bool.not_eq_true] at hw
    refine ⟨⟨?_, ?_, ?_, ?_⟩, ?_⟩
    · unfold State.same_but_flags; rfl
    · intro i hi
      simp only [Bool.false_eq_true, if_false]
      by_cases hij : i = j
      · subst hij; simp
      · rw [Function.update_noteq hij]; exact hi
    · intro i
      simp only [Bool.false_eq_true, if_false]
      by_cases hij : i = j
      · subst hij; simp
      · rw [Function.update_noteq hij]
    · intro k
      simp only [Bool.false_eq_true, if_false, emissions_in, List.countP_append,
        List.countP_cons, List.countP_nil, Entry.is_blob]
      by_cases hkj : k = j
      · subst hkj
        simp [flipped, hw]
      · have hjk : ¬ j = k := fun h => hkj h.symm
        rw [Function.update_noteq hkj]
        cases (st.blobs k).written <;> simp [flipped, hjk]
    · simp

theorem write_blob_emits (h : JfrBlobHandle) (w w1 : JfrCheckpointWriter) (st st1 : State)
    (hr : write_blob h w st = .ok (w1, st1)) :
    Emits w st w1 st1 ∧ ∀ j, h = some j → (st1.blobs j).written = true := by
  unfold write_blob at hr
  cases h with
  | none => simp at hr
  | some j =>
    simp only [Except.ok.injEq] at hr
    have := exclusive_write_emits st j w
    rw [hr] at this
    refine ⟨this.1, ?_⟩
    intro i hi
    cases hi
    exact this.2

theorem write_blob_set (h : JfrBlobHandle) (w w1 : JfrCheckpointWriter) (st st1 : State)
    (hr : write_blob h w st = .ok (w1, st1)) :
    st1.stacktrace_id_set = st.stacktrace_id_set := by
  unfold write_blob at hr
  cases h with
  | none => simp at hr
  | some j =>
    simp only [Except.ok.injEq] at hr
    have : (st.exclusive_write j w).2.stacktrace_id_set = st.stacktrace_id_set := by
      unfold State.exclusive_write
      split_ifs <;> rfl
    rw [hr] at this
    exact this

theorem first_visits_from_nil {α : Type} [DecidableEq α] (seen : List α) :
    first_visits_from seen [] = seen := rfl

theorem first_visits_from_append {α : Type} [DecidableEq α] (seen l1 l2 : List α) :
    first_visits_from (first_visits_from seen l1) l2 = first_visits_from seen (l1 ++ l2) := by
  simp [first_visits_from, List.foldl_append]

theorem write_stacktrace_blob_spec (s : ObjectSample) (w w1 : JfrCheckpointWriter)
    (st st1 : State) (hr : write_stacktrace_blob s w st = .ok (w1, st1)) :
    Emits w st w1 st1 ∧ (∀ j, s.stacktrace = some j → (st1.blobs j).written = true) ∧
    ∃ set, st.stacktrace_id_set = some set ∧
      st1.stacktrace_id_set = some ⟨first_visits_from set.ids (pending_id s).toList⟩ := by
  unfold write_stacktrace_blob at hr
  cases hset : st.stacktrace_id_set with
  | none => simp [hset] at hr
  | some set =>
    simp only [hset] at hr
    by_cases hhas : s.has_stacktrace = true
    · simp only [hhas, if_true] at hr
      obtain ⟨he, hw⟩ := write_blob_emits _ _ _ _ _ hr
      refine ⟨he, hw, set, rfl, ?_⟩
      rw [write_blob_set _ _ _ _ _ hr, hset]
      simp [pending_id, hhas, first_visits_from_nil]
    · simp only [hhas, Bool.false_eq_true, if_false] at hr
      have hnone : ∀ j, s.stacktrace ≠ some j := by
        intro j hj
        simp [ObjectSample.has_stacktrace, JfrBlobHandle.valid, hj] at hhas
      by_cases hid : s.stack_trace_id = 0
      · simp only [hid, ne_eq, not_true_eq_false, if_false, Except.ok.injEq,
          Prod.mk.injEq] at hr
        obtain ⟨rfl, rfl⟩ := hr
        refine ⟨Emits.refl _ _, fun j hj => absurd hj (hnone j), set, rfl, ?_⟩
        simp [pending_id, hid, first_visits_from_nil, hset]
      · simp only [ne_eq, hid, not_false_eq_true, if_true, Except.ok.injEq,
          Prod.mk.injEq] at hr
        obtain ⟨rfl, rfl⟩ := hr
        refine ⟨⟨?_, fun _ h => h, fun _ => rfl, ?_⟩, fun j hj => absurd hj (hnone j),
          set, rfl, ?_⟩
        · unfold State.same_but_flags; rfl
        · intro k
          cases (st.blobs k).written <;> simp [flipped]
        · simp only [Bool.not_eq_true] at hhas
          simp only [pending_id, hhas, Bool.not_false, ne_eq, hid, not_false_eq_true,
            decide_True, Bool.and_self, if_true, Option.toList, first_visits_from,
            List.foldl_cons, List.foldl_nil, JfrTraceIdSet.add, JfrTraceIdSet.contains]
          by_cases hmem : s.stack_trace_id ∈ set.ids <;> simp [hmem]

theorem write_thread_blob_spec (s : ObjectSample) (w w1 : JfrCheckpointWriter)
    (st st1 : State) (hr : write_thread_blob s w st = .ok (w1, st1)) :
    Emits w st w1 st1 ∧ st1.stacktrace_id_set = st.stacktrace_id_set := by
  unfold write_thread_blob at hr
  split_ifs at hr with h1 h2
  · exact ⟨(write_blob_emits _ _ _ _ _ hr).1, write_blob_set _ _ _ _ _ hr⟩
  · cases hx : has_thread_exited st s.thread_id with
    | error e => simp [hx] at hr
    | ok b =>
      cases b with
      | true =>
        simp only [hx] at hr
        exact ⟨(write_blob_emits _ _ _ _ _ hr).1, write_blob_set _ _ _ _ _ hr⟩
      | false =>
        simp only [hx, Except.ok.injEq, Prod.mk.injEq] at hr
        obtain ⟨rfl, rfl⟩ := hr
        exact ⟨Emits.refl _ _, rfl⟩

theorem write_type_set_blob_spec (s : ObjectSample) (w w1 : JfrCheckpointWriter)
    (st st1 : State) (hr : write_type_set_blob s w st = .ok (w1, st1)) :
    Emits w st w1 st1 ∧ st1.stacktrace_id_set = st.stacktrace_id_set := by
  unfold write_type_set_blob at hr
  split_ifs at hr with h1
  · exact ⟨(write_blob_emits _ _ _ _ _ hr).1, write_blob_set _ _ _ _ _ hr⟩
  · simp only [Except.ok.injEq, Prod.mk.injEq] at hr
    obtain ⟨rfl, rfl⟩ := hr
    exact ⟨Emits.refl _ _, rfl⟩

theorem write_blobs_spec (s : ObjectSample) (w w1 : JfrCheckpointWriter)
    (st st1 : State) (hr : write_blobs s w st = .ok (w1, st1)) :
    Emits w st w1 st1 ∧ (∀ j, s.stacktrace = some j → (st1.blobs j).written = true) ∧
    ∃ set, st.stacktrace_id_set = some set ∧
      st1.stacktrace_id_set = some ⟨first_visits_from set.ids (pending_id s).toList⟩ := by
  unfold write_blobs at hr
  cases h1 : write_stacktrace_blob s w st with
  | error e => simp [h1] at hr
  | ok r1 =>
    obtain ⟨wa, sta⟩ := r1
    simp only [h1] at hr
    cases h2 : write_thread_blob s wa sta with
    | error e => simp [h2] at hr
    | ok r2 =>
      obtain ⟨wb, stb⟩ := r2
      simp only [h2] at hr
      obtain ⟨e1, hw1, set, hset, hset1⟩ := write_stacktrace_blob_spec _ _ _ _ _ h1
      obtain ⟨e2, hs2⟩ := write_thread_blob_spec _ _ _ _ _ h2
      obtain ⟨e3, hs3⟩ := write_type_set_blob_spec _ _ _ _ _ hr
      refine ⟨e1.trans (e2.trans e3), ?_, set, hset, by rw [hs3, hs2, hset1]⟩
      intro j hj
      exact e3.mono j (e2.mono j (hw1 j hj))

theorem blob_writer_sample_do_ok (a : Addr) (p p1 : BlobWriter × State)
    (h : BlobWriter.sample_do a p = .ok p1) :
    ∃ s, p.2.samples[a]? = some s ∧ p1.1.last_sweep = p.1.last_sweep ∧
      Emits p.1.writer p.2 p1.1.writer p1.2 ∧
      ((s.is_alive_and_older_than p.1.last_sweep = false ∧ p1 = p) ∨
       (s.is_alive_and_older_than p.1.last_sweep = true ∧
        (∀ j, s.stacktrace = some j → (p1.2.blobs j).written = true) ∧
        ∃ set, p.2.stacktrace_id_set = some set ∧
          p1.2.stacktrace_id_set =
            some ⟨first_visits_from set.ids (pending_id s).toList⟩)) := by
  unfold BlobWriter.sample_do at h
  cases hs : p.2.samples[a]? with
  | none => simp [hs] at h
  | some s =>
    simp only [hs] at h
    refine ⟨s, rfl, ?_⟩
    by_cases hsel : s.is_alive_and_older_than p.1.last_sweep = true
    · simp only [hsel, if_true] at h
      cases hw : write_blobs s p.1.writer p.2 with
      | error e => simp [hw] at h
      | ok r =>
        obtain ⟨w1, st1⟩ := r
        simp only [hw, Except.ok.injEq] at h
        subst h
        obtain ⟨he, hwr, hset⟩ := write_blobs_spec _ _ _ _ _ hw
        exact ⟨rfl, he, Or.inr ⟨hsel, hwr, hset⟩⟩
    · simp only [hsel, Bool.false_eq_true, if_false, Except.ok.injEq] at h
      subst h
      simp only [Bool.not_eq_true] at hsel
      exact ⟨rfl, Emits.refl _ _, Or.inl ⟨hsel, rfl⟩⟩

theorem emits_samples {w w1 : JfrCheckpointWriter} {st st1 : State} (h : Emits w st w1 st1) :
    st1.samples = st.samples ∧ st1.last = st.last ∧ st1.last_sweep = st.last_sweep ∧
    st1.repository = st.repository ∧ st1.checkpoints = st.checkpoints ∧
    st1.unloaded_thread_id_set = st.unloaded_thread_id_set := by
  have := h.frame
  unfold State.same_but_flags at this
  rw [this]
  exact ⟨rfl, rfl, rfl, rfl, rfl, rfl⟩

theorem blob_writer_links (a : Addr) (p p1 : BlobWriter × State)
    (h : BlobWriter.sample_do a p = .ok p1) : links p1.2.samples = links p.2.samples := by
  obtain ⟨s, _, _, he, _⟩ := blob_writer_sample_do_ok a p p1 h
  rw [(emits_samples he).1]

/-- The per-sample pass of `write` over the nodes of a list: blob bytes are copied exactly
when a flag goes from unset to set, the stack-trace blob of every selected sample ends up
flagged, and the pending set grows by the ids of the selected samples without a blob. -/
theorem blob_writer_run : ∀ (nodes : List Addr) (p p1 : BlobWriter × State),
    run_list BlobWriter.sample_do nodes p = .ok p1 →
    p1.1.last_sweep = p.1.last_sweep ∧ Emits p.1.writer p.2 p1.1.writer p1.2 ∧
    (∀ a ∈ nodes, ∀ s, p.2.samples[a]? = some s →
      s.is_alive_and_older_than p.1.last_sweep = true →
      ∀ j, s.stacktrace = some j → (p1.2.blobs j).written = true) ∧
    (∀ set, p.2.stacktrace_id_set = some set → p1.2.stacktrace_id_set =
      some ⟨first_visits_from set.ids (selected_pending p.2.samples p.1.last_sweep nodes)⟩) := by
  intro nodes
  induction nodes with
  | nil =>
    intro p p1 h
    simp only [run_list, Except.ok.injEq] at h
    subst h
    refine ⟨rfl, Emits.refl _ _, ?_, ?_⟩
    · intro a ha; simp at ha
    · intro set hset
      simp [selected_pending, first_visits_from_nil, hset]
  | cons a rest ih =>
    intro p p1 h
    simp only [run_list] at h
    cases hstep : BlobWriter.sample_do a p with
    | error e => simp [hstep] at h
    | ok p0 =>
      simp only [hstep] at h
      obtain ⟨s, hs, hls, he, hcase⟩ := blob_writer_sample_do_ok a p p0 hstep
      obtain ⟨hls1, he1, hatt, hset1⟩ := ih p0 p1 h
      have hsam : p0.2.samples = p.2.samples := (emits_samples he).1
      rw [hsam, hls] at hatt hset1
      refine ⟨by rw [hls1, hls], he.trans he1, ?_, ?_⟩
      · intro b hb sb hsb hsel j hj
        rcases List.mem_cons.mp hb with rfl | hb
        · rw [hs] at hsb
          cases hsb
          rcases hcase with ⟨hno, _⟩ | ⟨_, hwr, _⟩
          · rw [hno] at hsel; exact Bool.noConfusion hsel
          · exact he1.mono j (hwr j hj)
        · exact hatt b hb sb hsb hsel j hj
      · intro set hset
        have hcons : selected_pending p.2.samples p.1.last_sweep (a :: rest) =
            (if s.is_alive_and_older_than p.1.last_sweep then (pending_id s).toList else []) ++
              selected_pending p.2.samples p.1.last_sweep rest := by
          simp only [selected_pending, List.filterMap_cons, hs]
          by_cases hsel : s.is_alive_and_older_than p.1.last_sweep = true
          · simp only [hsel, if_true]
            cases pending_id s <;> simp
          · simp [hsel]
        rw [hcons, ← first_visits_from_append]
        rcases hcase with ⟨hno, rfl⟩ | ⟨hyes, _, set0, hset0, hset0'⟩
        · simp only [hno, Bool.false_eq_true, if_false, first_visits_from_nil]
          exact hset1 set hset
        · rw [hset] at hset0
          cases hset0
          simp only [hyes, if_true]
          exact hset1 _ hset0'

/-! ## The dedup stack-trace block -/

theorem trace_write_eq (t : JfrStackTrace) (w : JfrCheckpointWriter) :
    t.write w = w ++ trace_record t := by
  simp [JfrStackTrace.write, trace_record]

theorem iterate_leakprofiler_eq (st : State) (set : JfrTraceIdSet)
    (hset : st.stacktrace_id_set = some set) :
    ∀ (repo : List JfrStackTrace) (lp : LeakProfilerStackTraceWriter),
      iterate_leakprofiler st repo lp =
        .ok ⟨lp.writer ++ trace_records (dedup_traces set repo),
             lp.count + (dedup_traces set repo).length⟩ := by
  intro repo
  induction repo with
  | nil =>
    intro lp
    simp [iterate_leakprofiler, dedup_traces, trace_records]
  | cons t ts ih =>
    intro lp
    unfold iterate_leakprofiler LeakProfilerStackTraceWriter.apply should_write
    simp only [hset]
    by_cases hsel : (t.should_write && set.contains t.id) = true
    · simp only [hsel, ih, dedup_traces, List.filter_cons, if_true, trace_records,
        trace_write_eq, List.append_assoc, List.length_cons]
      congr 2
      omega
    · simp only [Bool.not_eq_true] at hsel
      simp only [hsel, ih, dedup_traces, List.filter_cons, Bool.false_eq_true, if_false]

theorem write_stacktraces_eq (st : State) (set : JfrTraceIdSet)
    (hset : st.stacktrace_id_set = some set) :
    ObjectSampleCheckpoint.write_stacktraces st =
      if set.is_nonempty = false then .error .invariant
      else if (dedup_traces set st.repository).length ≠ set.size then .error .invariant
      else .ok (st.commit (dedup_block (dedup_traces set st.repository))) := by
  unfold ObjectSampleCheckpoint.write_stacktraces
  simp only [hset]
  by_cases hne : set.is_nonempty = true
  · simp only [hne, Bool.not_true, Bool.false_eq_true, if_false,
      iterate_leakprofiler_eq st set hset, Nat.zero_add]
    by_cases hc : (dedup_traces set st.repository).length = set.size
    · simp only [hc, ne_eq, not_true_eq_false, if_false]
      simp [reserve, write_type, write_count_at, dedup_block, hc]
    · simp [hc]
  · simp only [Bool.not_eq_true] at hne
    simp [hne]

theorem emissions_in_of_fields (k : Nat) (w : JfrCheckpointWriter)
    (h : ∀ e ∈ w, e.is_field = true) : emissions_in k w = 0 := by
  unfold emissions_in
  rw [List.countP_eq_zero]
  intro e he
  have := h e he
  cases e with
  | field f => simp [Entry.is_blob]
  | blob_bytes j d => simp [Entry.is_field] at this

theorem trace_records_fields : ∀ (ts : List JfrStackTrace), ∀ e ∈ trace_records ts,
    e.is_field = true := by
  intro ts
  induction ts with
  | nil => intro e he; simp [trace_records] at he
  | cons t rest ih =>
    intro e he
    simp only [trace_records, List.mem_append] at he
    rcases he with he | he
    · simp only [trace_record, JfrStackTrace.write, List.nil_append, List.mem_append,
        List.mem_cons, List.mem_singleton, List.mem_map, List.not_mem_nil, or_false] at he
      rcases he with (rfl | rfl | rfl) | ⟨f, _, rfl⟩ <;> rfl
    · exact ih e he

theorem emissions_dedup_block (k : Nat) (ts : List JfrStackTrace) :
    emissions_in k (dedup_block ts) = 0 := by
  apply emissions_in_of_fields
  intro e he
  simp only [dedup_block, List.cons_append, List.nil_append, List.mem_cons] at he
  rcases he with rfl | rfl | he
  · rfl
  · rfl
  · exact trace_records_fields ts e he

theorem emissions_edges (k : Nat) (es : EdgeStore) :
    emissions_in k (EdgeStore.iterate es []) = 0 := by
  apply emissions_in_of_fields
  intro e he
  simp only [EdgeStore.iterate, List.nil_append, List.mem_map] at he
  obtain ⟨_, _, rfl⟩ := he
  rfl

/-! ## The write pass -/

theorem commit_checkpoints (st : State) (w : JfrCheckpointWriter) :
    (st.commit w).checkpoints = st.checkpoints ++ block_of w := by
  unfold State.commit block_of
  split_ifs <;> simp

theorem commit_same (st : State) (w : JfrCheckpointWriter) :
    (st.commit w).samples = st.samples ∧ (st.commit w).blobs = st.blobs ∧
    (st.commit w).last = st.last ∧ (st.commit w).last_sweep = st.last_sweep ∧
    (st.commit w).repository = st.repository ∧
    (st.commit w).stacktrace_id_set = st.stacktrace_id_set ∧
    (st.commit w).last_resolved = st.last_resolved := by
  rw [commit_frame]; exact ⟨rfl, rfl, rfl, rfl, rfl, rfl, rfl⟩

theorem emissions_block_of (k : Nat) (w : JfrCheckpointWriter) :
    emissions k (block_of w) = emissions_in k w := by
  unfold block_of emissions
  by_cases hw : w.isEmpty = true
  · have : w = [] := List.isEmpty_iff.mp hw
    subst this
    simp [emissions_in]
  · simp [hw]

theorem emissions_append (k : Nat) (l1 l2 : List JfrCheckpointWriter) :
    emissions k (l1 ++ l2) = emissions k l1 + emissions k l2 := by
  simp [emissions]

/-- What a returning per-sample pass has done. -/
theorem write_sample_blobs_spec (fuel : Nat) (emit_all : Bool) (st st1 : State)
    (h : write_sample_blobs fuel emit_all st = .ok st1) :
    ∃ nodes w stX, is_path st.samples st.last none nodes = true ∧ nodes.length ≤ fuel ∧
      st1 = stX.commit w ∧ Emits [] st w stX ∧
      (∀ a ∈ nodes, ∀ s, st.samples[a]? = some s →
        s.is_alive_and_older_than (threshold st emit_all) = true →
        ∀ j, s.stacktrace = some j → (stX.blobs j).written = true) ∧
      (∀ set, st.stacktrace_id_set = some set → stX.stacktrace_id_set =
        some ⟨first_visits_from set.ids
          (selected_pending st.samples (threshold st emit_all) nodes)⟩) := by
  unfold write_sample_blobs at h
  have hthr : (if emit_all then max_jlong else st.last_sweep) = threshold st emit_all := rfl
  simp only [hthr] at h
  generalize threshold st emit_all = thr at h ⊢
  cases hrun : iterate_samples BlobWriter.sample_do fuel true (⟨[], thr⟩, st) with
  | error e => simp [hrun] at h
  | ok p =>
    simp only [hrun, Except.ok.injEq] at h
    unfold iterate_samples do_samples at hrun
    simp only [if_true] at hrun
    by_cases h1 : st.last = none
    · simp [h1] at hrun
    simp only [h1, if_false] at hrun
    obtain ⟨nodes, hp, hl⟩ := do_samples_loop_path _ blob_writer_links _ _ _ _ _ hrun
    rw [do_samples_loop_eq _ blob_writer_links nodes fuel _ _ _ hp hl] at hrun
    obtain ⟨_, he, hatt, hset⟩ := blob_writer_run nodes _ p hrun
    exact ⟨nodes, p.1.writer, p.2, hp, hl, h.symm, he, hatt, hset⟩

/-- What a returning `write` has done. -/
theorem write_spec (fuel : Nat) (st st2 : State) (es : EdgeStore) (emit_all : Bool)
    (h : ObjectSampleCheckpoint.write fuel st es emit_all = .ok st2) :
    ∃ nodes w stX set, is_path st.samples st.last none nodes = true ∧ nodes.length ≤ fuel ∧
      Emits [] { st with stacktrace_id_set := some ⟨[]⟩ } w stX ∧
      (∀ a ∈ nodes, ∀ s, st.samples[a]? = some s →
        s.is_alive_and_older_than (threshold st emit_all) = true →
        ∀ j, s.stacktrace = some j → (stX.blobs j).written = true) ∧
      stX.stacktrace_id_set = some set ∧
      set.ids = first_visits (selected_pending st.samples (threshold st emit_all) nodes) ∧
      (set.is_nonempty = true → (dedup_traces set st.repository).length = set.size) ∧
      st2.checkpoints = st.checkpoints ++ write_blocks w set st.repository es ∧
      st2.blobs = stX.blobs ∧ st2.samples = st.samples ∧ st2.last = st.last ∧
      st2.last_sweep = st.last_sweep ∧ st2.repository = st.repository ∧
      st2.last_resolved = st.last_resolved := by
  unfold ObjectSampleCheckpoint.write at h
  simp only at h
  cases hpass : write_sample_blobs fuel emit_all { st with stacktrace_id_set := some ⟨[]⟩ } with
  | error e => simp [hpass] at h
  | ok st1 =>
    simp only [hpass] at h
    obtain ⟨nodes, w, stX, hp, hl, hst1, he, hatt, hset⟩ :=
      write_sample_blobs_spec fuel emit_all _ st1 hpass
    obtain ⟨set, hsetdef⟩ : ∃ set : JfrTraceIdSet, set =
        ⟨first_visits (selected_pending st.samples (threshold st emit_all) nodes)⟩ := ⟨_, rfl⟩
    have hsetX : stX.stacktrace_id_set = some set := by
      rw [hsetdef]; exact hset ⟨[]⟩ rfl
    have hids : set.ids =
        first_visits (selected_pending st.samples (threshold st emit_all) nodes) := by
      rw [hsetdef]
    clear hsetdef hset
    obtain ⟨x1, x2, x3, x4, x5, _⟩ := emits_samples he
    obtain ⟨c1, c2, c3, c4, c5, c6, c7⟩ := commit_same stX w
    have hXlr : stX.last_resolved = st.last_resolved := by
      have := he.frame
      unfold State.same_but_flags at this
      rw [this]
    have hset1 : st1.stacktrace_id_set = some set := by
      rw [hst1, c6]; exact hsetX
    have hrepo1 : st1.repository = st.repository := by rw [hst1, c5, x4]
    have hcp1 : st1.checkpoints = st.checkpoints ++ block_of w := by
      rw [hst1, commit_checkpoints, x5]
    refine ⟨nodes, w, stX, set, hp, hl, he, hatt, hsetX, hids, ?_⟩
    simp only [hset1] at h
    have hfinal : ∀ st3 : State, st3.blobs = st1.blobs → st3.samples = st1.samples →
        st3.last = st1.last → st3.last_sweep = st1.last_sweep →
        st3.repository = st1.repository → st3.last_resolved = st1.last_resolved →
        (if es.isEmpty then st3 else st3.commit (EdgeStore.iterate es [])) = st2 →
        st2.checkpoints = st3.checkpoints ++
          (if es.isEmpty then [] else block_of (EdgeStore.iterate es [])) ∧
        st2.blobs = stX.blobs ∧ st2.samples = st.samples ∧ st2.last = st.last ∧
        st2.last_sweep = st.last_sweep ∧ st2.repository = st.repository ∧
        st2.last_resolved = st.last_resolved := by
      intro st3 b1 b2 b3 b4 b5 b6 hes
      obtain ⟨d1, d2, d3, d4, d5, _, d7⟩ := commit_same st3 (EdgeStore.iterate es [])
      by_cases hempty : es.isEmpty = true
      · simp only [hempty, if_true] at hes ⊢
        subst hes
        refine ⟨by simp, ?_, ?_, ?_, ?_, ?_, ?_⟩
        · rw [b1, hst1, c2]
        · rw [b2, hst1, c1, x1]
        · rw [b3, hst1, c3, x2]
        · rw [b4, hst1, c4, x3]
        · rw [b5, hrepo1]
        · rw [b6, hst1, c7, hXlr]
      · simp only [hempty, Bool.false_eq_true, if_false] at hes ⊢
        subst hes
        refine ⟨commit_checkpoints _ _, ?_, ?_, ?_, ?_, ?_, ?_⟩
        · rw [d2, b1, hst1, c2]
        · rw [d1, b2, hst1, c1, x1]
        · rw [d3, b3, hst1, c3, x2]
        · rw [d4, b4, hst1, c4, x3]
        · rw [d5, b5, hrepo1]
        · rw [d7, b6, hst1, c7, hXlr]
    by_cases hne : set.is_nonempty = true
    · simp only [hne, if_true] at h
      rw [write_stacktraces_eq st1 set hset1] at h
      simp only [hne, Bool.true_eq_false, if_false] at h
      by_cases hc : (dedup_traces set st1.repository).length = set.size
      · simp only [hc, ne_eq, not_true_eq_false, if_false] at h
        obtain ⟨e1, e2, e3, e4, e5, _, e7⟩ := commit_same st1
          (dedup_block (dedup_traces set st1.repository))
        have hes : (if es.isEmpty then st1.commit (dedup_block (dedup_traces set st1.repository))
            else (st1.commit (dedup_block (dedup_traces set st1.repository))).commit
              (EdgeStore.iterate es [])) = st2 := by
          by_cases hempty : es.isEmpty = true
          · simp only [hempty, Bool.not_true, Bool.false_eq_true, if_false,
              Except.ok.injEq] at h
            simp only [hempty, if_true]; exact h
          · simp only [hempty, Bool.not_false, if_true, Except.ok.injEq] at h
            simp only [hempty, Bool.false_eq_true, if_false]; exact h
        obtain ⟨f1, f2⟩ := hfinal _ e2 e1 e3 e4 e5 e7 hes
        refine ⟨fun _ => by rw [← hrepo1]; exact hc, ?_, f2⟩
        rw [f1, commit_checkpoints, hcp1, hrepo1]
        simp [write_blocks, hne, List.append_assoc]
      · simp [hc] at h
    · simp only [hne, Bool.false_eq_true, if_false] at h
      have hes : (if es.isEmpty then st1 else st1.commit (EdgeStore.iterate es [])) = st2 := by
        by_cases hempty : es.isEmpty = true
        · simp only [hempty, Bool.not_true, Bool.false_eq_true, if_false,
            Except.ok.injEq] at h
          simp only [hempty, if_true]; exact h
        · simp only [hempty, Bool.not_false, if_true, Except.ok.injEq] at h
          simp only [hempty, Bool.false_eq_true, if_false]; exact h
      obtain ⟨f1, f2⟩ := hfinal st1 rfl rfl rfl rfl rfl rfl hes
      refine ⟨fun hh => absurd hh hne, ?_, f2⟩
      rw [f1, hcp1]
      simp [write_blocks, hne, List.append_assoc]

theorem emissions_write_blocks (k : Nat) (w : JfrCheckpointWriter) (set : JfrTraceIdSet)
    (repo : List JfrStackTrace) (es : EdgeStore) :
    emissions k (write_blocks w set repo es) = emissions_in k w := by
  unfold write_blocks
  rw [emissions_append, emissions_append, emissions_block_of]
  have h1 : emissions k (if set.is_nonempty then
      block_of (dedup_block (dedup_traces set repo)) else []) = 0 := by
    split_ifs
    · rw [emissions_block_of, emissions_dedup_block]
    · rfl
  have h2 : emissions k (if es.isEmpty then [] else block_of (EdgeStore.iterate es [])) = 0 := by
    split_ifs
    · rfl
    · rw [emissions_block_of, emissions_edges]
  rw [h1, h2]
  rfl

/-- The emissions of one returning `write`: the bytes of a blob are emitted exactly when its
flag goes from unset to set; set flags stay set; the stack-trace blob of every sample of
the selected population ends up flagged. -/
theorem write_emissions (fuel : Nat) (st st2 : State) (es : EdgeStore) (emit_all : Bool)
    (h : ObjectSampleCheckpoint.write fuel st es emit_all = .ok st2) :
    ∃ new, st2.checkpoints = st.checkpoints ++ new ∧
      (∀ k, emissions k new = flipped (st.blobs k).written (st2.blobs k).written) ∧
      (∀ j, (st.blobs j).written = true → (st2.blobs j).written = true) ∧
      (∀ nodes, is_path st.samples st.last none nodes = true →
        ∀ a ∈ nodes, ∀ s, st.samples[a]? = some s →
          s.is_alive_and_older_than (threshold st emit_all) = true →
          ∀ j, s.stacktrace = some j → (st2.blobs j).written = true) ∧
      st2.samples = st.samples ∧ st2.last = st.last ∧ st2.last_sweep = st.last_sweep ∧
      st2.last_resolved = st.last_resolved := by
  obtain ⟨nodes, w, stX, set, hp, _, he, hatt, _, _, _, hcp, hb, hs, hl, hls, _, hlr⟩ :=
    write_spec fuel st st2 es emit_all h
  refine ⟨_, hcp, ?_, ?_, ?_, hs, hl, hls, hlr⟩
  · intro k
    rw [emissions_write_blocks, he.count k, hb]
    simp [emissions_in]
  · intro j hj
    rw [hb]
    exact he.mono j hj
  · intro nodes1 hp1 a ha s hsa hsel j hj
    have : nodes1 = nodes := is_path_unique _ _ _ _ _ hp1 hp
    subst this
    rw [hb]
    exact hatt a ha s hsa hsel j hj

/-! ## Emission count -/

theorem dedup_traces_length (set : JfrTraceIdSet) (repo : List JfrStackTrace)
    (hset : set.ids.Nodup)
    (hnodup : ((repo.filter (fun t => t.should_write)).map (fun t => t.id)).Nodup)
    (hall : ∀ id ∈ set.ids, ∃ t ∈ repo, t.should_write = true ∧ t.id = id) :
    (dedup_traces set repo).length = set.size := by
  have hsub : List.Sublist (dedup_traces set repo) (repo.filter (fun t => t.should_write)) := by
    have : dedup_traces set repo =
        (repo.filter (fun t => t.should_write)).filter (fun t => set.contains t.id) := by
      simp [dedup_traces, List.filter_filter, Bool.and_comm]
    rw [this]
    exact List.filter_sublist _
  have hnd : ((dedup_traces set repo).map (fun t => t.id)).Nodup :=
    List.Nodup.sublist (hsub.map _) hnodup
  have hperm : ((dedup_traces set repo).map (fun t => t.id)).Perm set.ids := by
    rw [List.perm_ext_iff_of_nodup hnd hset]
    intro id
    simp only [dedup_traces, List.mem_map, List.mem_filter, Bool.and_eq_true,
      JfrTraceIdSet.contains, decide_eq_true_eq]
    constructor
    · rintro ⟨t, ⟨_, _, hc⟩, rfl⟩
      exact hc
    · intro hid
      obtain ⟨t, ht, hsw, rfl⟩ := hall id hid
      exact ⟨t, ⟨ht, hsw, hid⟩, rfl⟩
  have := hperm.length_eq
  simpa [JfrTraceIdSet.size] using this

/-- C4, as stated, fails: for a population with a pending id whose trace the repository does
not hold, no record is written for a pending set of size one, and the assertion of
`write_stacktraces` fails. -/
theorem emission_count_mismatch :
    (result_or (write_sample_blobs 4 true
        { State.pending_without_trace with stacktrace_id_set := some ⟨[]⟩ })
      State.initial).stacktrace_id_set = some ⟨[7]⟩ ∧
    dedup_traces ⟨[7]⟩ State.pending_without_trace.repository = [] ∧
    ObjectSampleCheckpoint.write 4 State.pending_without_trace [] true = .error .invariant := by
  refine ⟨by decide, by decide, rfl⟩

/-- After a returning per-sample pass the pending set has no duplicates, and the repository
is as before. -/
theorem pass_pending_set (fuel : Nat) (st st1 : State) (emit_all : Bool) (set : JfrTraceIdSet)
    (hpass : write_sample_blobs fuel emit_all { st with stacktrace_id_set := some ⟨[]⟩ }
      = .ok st1)
    (hset : st1.stacktrace_id_set = some set) :
    set.ids.Nodup ∧ st1.repository = st.repository := by
  obtain ⟨nodes, w, stX, _, _, hst1, he, _, hsetX⟩ :=
    write_sample_blobs_spec fuel emit_all _ st1 hpass
  have hsetX' := hsetX ⟨[]⟩ rfl
  obtain ⟨_, _, _, x4, _, _⟩ := emits_samples he
  obtain ⟨_, _, _, _, c5, c6, _⟩ := commit_same stX w
  refine ⟨?_, by rw [hst1, c5, x4]⟩
  have : st1.stacktrace_id_set = some ⟨first_visits_from []
      (selected_pending st.samples (threshold st emit_all) nodes)⟩ := by
    rw [hst1, c6]; exact hsetX'
  rw [hset] at this
  have hs := Option.some.inj this
  rw [hs]
  exact first_visits_nodup _

/-- After a returning per-sample pass `write` returns, provided `write_stacktraces` returns
when ids are pending. -/
theorem write_returns_after_pass (fuel : Nat) (st st1 : State) (es : EdgeStore)
    (emit_all : Bool) (set : JfrTraceIdSet)
    (hpass : write_sample_blobs fuel emit_all { st with stacktrace_id_set := some ⟨[]⟩ }
      = .ok st1)
    (hset : st1.stacktrace_id_set = some set)
    (hws : set.is_nonempty = true →
      ∃ st3, ObjectSampleCheckpoint.write_stacktraces st1 = .ok st3) :
    ∃ st2, ObjectSampleCheckpoint.write fuel st es emit_all = .ok st2 := by
  unfold ObjectSampleCheckpoint.write
  simp only [hpass, hset]
  by_cases hne : set.is_nonempty = true
  · obtain ⟨st3, h3⟩ := hws hne
    simp only [hne, if_true, h3]
    by_cases hempty : es.isEmpty = true
    · simp only [hempty, Bool.not_true, Bool.false_eq_true, if_false]
      exact ⟨_, rfl⟩
    · simp only [hempty, Bool.not_false, if_true]
      exact ⟨_, rfl⟩
  · simp only [hne, Bool.false_eq_true, if_false]
    by_cases hempty : es.isEmpty = true
    · simp only [hempty, Bool.not_true, Bool.false_eq_true, if_false]
      exact ⟨_, rfl⟩
    · simp only [hempty, Bool.not_false, if_true]
      exact ⟨_, rfl⟩

/-- C4, amended: when the repository holds, for every pending id, exactly one trace flagged
`should_write` (the ids of its flagged traces are distinct and include every pending id),
then for any population whose per-sample pass returns, the number of records written into
the dedup block equals the size of the pending set, the assertion of `write_stacktraces`
holds, the patched count field is that size, and `write` returns. -/
theorem emission_count (fuel : Nat) (st st1 : State) (es : EdgeStore) (emit_all : Bool)
    (set : JfrTraceIdSet)
    (hpass : write_sample_blobs fuel emit_all { st with stacktrace_id_set := some ⟨[]⟩ }
      = .ok st1)
    (hset : st1.stacktrace_id_set = some set)
    (hnodup : ((st.repository.filter (fun t => t.should_write)).map (fun t => t.id)).Nodup)
    (hall : ∀ id ∈ set.ids, ∃ t ∈ st.repository, t.should_write = true ∧ t.id = id) :
    (dedup_traces set st1.repository).length = set.size ∧
    iterate_leakprofiler st1 st1.repository ⟨(reserve (write_type [] TYPE_STACKTRACE)).2, 0⟩ =
      .ok ⟨(reserve (write_type [] TYPE_STACKTRACE)).2 ++
        trace_records (dedup_traces set st1.repository), set.size⟩ ∧
    (set.is_nonempty = true → ObjectSampleCheckpoint.write_stacktraces st1 =
      .ok (st1.commit ([Entry.field (Field.type TYPE_STACKTRACE),
        Entry.field (Field.count set.size)] ++
          trace_records (dedup_traces set st1.repository)))) ∧
    ∃ st2, ObjectSampleCheckpoint.write fuel st es emit_all = .ok st2 := by
  obtain ⟨hids, hrepo⟩ := pass_pending_set fuel st st1 emit_all set hpass hset
  have hlen : (dedup_traces set st1.repository).length = set.size := by
    rw [hrepo]; exact dedup_traces_length set st.repository hids hnodup hall
  have hws : set.is_nonempty = true → ObjectSampleCheckpoint.write_stacktraces st1 =
      .ok (st1.commit (dedup_block (dedup_traces set st1.repository))) := by
    intro hne
    rw [write_stacktraces_eq st1 set hset]
    simp [hne, hlen]
  refine ⟨hlen, ?_, ?_, ?_⟩
  · rw [iterate_leakprofiler_eq st1 set hset, hlen, Nat.zero_add]
  · intro hne
    rw [hws hne, dedup_block, hlen]
  · exact write_returns_after_pass fuel st st1 es emit_all set hpass hset
      (fun hne => ⟨_, hws hne⟩)

theorem emission_count_witness :
    (dedup_traces ⟨[7]⟩ (result_or (write_sample_blobs 4 true
        { State.scenario with stacktrace_id_set := some ⟨[]⟩ }) State.initial).repository).length
      = (⟨[7]⟩ : JfrTraceIdSet).size :=
  (emission_count 4 State.scenario
    (result_or (write_sample_blobs 4 true
      { State.scenario with stacktrace_id_set := some ⟨[]⟩ }) State.initial)
    [] true ⟨[7]⟩ rfl rfl (by decide) (by decide)).1

/-! ## The resolver pass returns -/

theorem add_to_leakp_set_method_total (st : State) (ik : Nat) (m : traceid)
    (hid : st.id_set.isSome = true) (hm : m ≠ 0) :
    ∃ st1, ObjectSampleCheckpoint.add_to_leakp_set st ik m = .ok st1 ∧
      st1.id_set.isSome = true := by
  unfold ObjectSampleCheckpoint.add_to_leakp_set is_processed
  cases hs : st.id_set with
  | none => simp [hs] at hid
  | some set =>
    simp only [hm, if_false]
    cases hb : !(set.add m).1 with
    | true => exact ⟨_, rfl, rfl⟩
    | false =>
      simp only
      split_ifs
      · exact ⟨_, rfl, rfl⟩
      · exact ⟨_, rfl, rfl⟩

theorem write_frames_total : ∀ (frames : List JfrStackFrame) (w : JfrCheckpointWriter)
    (st : State), st.id_set.isSome = true → (∀ f ∈ frames, f.methodid ≠ 0) →
    ∃ w1 st1, write_frames frames w st = .ok (w1, st1) ∧ st1.id_set.isSome = true := by
  intro frames
  induction frames with
  | nil => intro w st hid _; exact ⟨w, st, rfl, hid⟩
  | cons f rest ih =>
    intro w st hid hm
    obtain ⟨st0, h0, hid0⟩ := add_to_leakp_set_method_total st f.klass f.methodid hid
      (hm f (List.mem_cons_self _ _))
    obtain ⟨w1, st1, h1, hid1⟩ := ih (w ++ [Entry.field (Field.frame f)]) st0 hid0
      (fun g hg => hm g (List.mem_cons_of_mem _ hg))
    refine ⟨w1, st1, ?_, hid1⟩
    simp only [write_frames, h0, h1]

theorem write_stacktrace_total (t : JfrStackTrace) (w : JfrCheckpointWriter) (st : State)
    (hid : st.id_set.isSome = true) (hm : ∀ f ∈ t.frames, f.methodid ≠ 0) :
    ∃ w1 st1, ObjectSampleCheckpoint.write_stacktrace t w st = .ok (w1, st1) ∧
      st1.id_set.isSome = true := by
  unfold ObjectSampleCheckpoint.write_stacktrace
  simp only [JfrStackTrace.number_of_frames, List.take_length]
  exact write_frames_total _ _ _ hid hm

theorem update_sample_id_set (st : State) (a : Addr) (f : ObjectSample → ObjectSample) :
    (st.update_sample a f).id_set = st.id_set := by
  unfold State.update_sample
  cases st.samples[a]? <;> rfl

theorem commit_id_set (st : State) (w : JfrCheckpointWriter) :
    (st.commit w).id_set = st.id_set := by
  rw [commit_frame]

/-- The resolver's `sample_do` returns for a sample that is cached or resolvable. -/
theorem installer_sample_do_total (a : Addr) (p : StackTraceBlobInstaller × State)
    (s : ObjectSample) (hs : p.2.samples[a]? = some s) (hid : p.2.id_set.isSome = true)
    (hlit : ∀ e ∈ p.1.cache.table.entries, e.literal.isSome = true)
    (hmiss : p.1.cache.find s = none → resolvable p.2 s) :
    ∃ p1, StackTraceBlobInstaller.sample_do a p = .ok p1 ∧ p1.2.id_set.isSome = true := by
  obtain ⟨inst, st⟩ := p
  unfold StackTraceBlobInstaller.sample_do
  have hs' : st.samples[a]? = some s := hs
  simp only [hs']
  by_cases hpre : stack_trace_precondition s = true
  swap
  · simp only [hpre, Bool.false_eq_true, if_false]
    exact ⟨_, rfl, hid⟩
  · simp only [hpre, if_true]
    have hidne := precondition_id_ne_zero s hpre
    have hst1 := add_to_leakp_set_frame st s
    generalize add_to_leakp_set st s = st1 at hst1 ⊢
    have hs1 : st1.samples[a]? = some s := by rw [hst1]; exact hs'
    have hid1 : st1.id_set.isSome = true := by rw [hst1]; exact hid
    unfold StackTraceBlobInstaller.install
    simp only [hs1, BlobCache.get_eq inst.cache s hidne]
    cases hfind : inst.cache.table.entries.find?
        (BlobCache.is_key s.stack_trace_hash s.stack_trace_id) with
    | some e =>
      have hev := hlit e (List.mem_of_find?_eq_some hfind)
      simp only [JfrBlobHandle.valid, hev, if_true]
      refine ⟨_, rfl, ?_⟩
      simp only [update_sample_id_set]
      exact hid1
    | none =>
      simp only [JfrBlobHandle.valid, Option.isSome, Bool.false_eq_true, if_false]
      obtain ⟨hnost, t, hrep, hframes⟩ := hmiss hfind hpre
      have hrep1 : st1.repository.find? (fun t => decide (t.hash = s.stack_trace_hash) &&
          decide (t.id = s.stack_trace_id)) = some t := by rw [hst1]; exact hrep
      have ht : t.hash = s.stack_trace_hash ∧ t.id = s.stack_trace_id := by
        have := List.find?_some hrep
        simpa using this
      have hv : StackTraceBlobInstaller.validate_stack_trace s
          (StackTraceBlobInstaller.resolve st1 s).1 = .ok t := by
        unfold StackTraceBlobInstaller.validate_stack_trace StackTraceBlobInstaller.resolve
          State.lookup_for_leak_profiler
        simp [ObjectSample.has_stacktrace, JfrBlobHandle.valid, hnost, hrep1, ht.1, ht.2]
      have hid2 : (StackTraceBlobInstaller.resolve st1 s).2.id_set.isSome = true := hid1
      obtain ⟨w1, st2, hw, hid3⟩ := write_stacktrace_total t
        (write_count (write_type [] TYPE_STACKTRACE) 1) _ hid2 hframes
      simp only [hv, hw]
      have hput : ∀ b : JfrBlobHandle, ∃ c2,
          BlobCache.put { inst.cache with lookup_id := s.stack_trace_id } s b = .ok c2 :=
        fun b => ⟨_, BlobCache.put_eq _ s b hidne hfind hfind⟩
      cases hsw : t.should_write with
      | true =>
        simp only [if_true, writer_copy]
        obtain ⟨c2, hc2⟩ := hput (st2.make_blob (List.filterMap (fun e => match e with
          | Entry.field f => some f
          | Entry.blob_bytes _ _ => none) w1)).1
        simp only [hc2]
        refine ⟨_, rfl, ?_⟩
        simp only [commit_id_set, update_sample_id_set]
        exact hid3
      | false =>
        simp only [Bool.false_eq_true, if_false, writer_move]
        obtain ⟨c2, hc2⟩ := hput (st2.make_blob (List.filterMap (fun e => match e with
          | Entry.field f => some f
          | Entry.blob_bytes _ _ => none) w1)).1
        simp only [hc2]
        refine ⟨_, rfl, ?_⟩
        simp only [commit_id_set, update_sample_id_set]
        exact hid3

theorem touched_cached_step (st0 : State) (a : Addr) (p p1 : StackTraceBlobInstaller × State)
    (ht : touched_cached st0 p) (h : StackTraceBlobInstaller.sample_do a p = .ok p1) :
    touched_cached st0 p1 := by
  obtain ⟨s, hs, hcase⟩ := installer_sample_do_ok a p p1 h
  rcases hcase with ⟨_, rfl⟩ | ⟨_, _, _, hcase⟩
  · exact ht
  · rcases hcase with ⟨e, k, hfind, hlit, hent, hsamples, _⟩ |
      ⟨t, hfind, _, _, hent, hsamples, _⟩
    · have hfindeq : ∀ x, p1.1.cache.find x = p.1.cache.find x := by
        intro x; unfold BlobCache.find; rw [hent]
      intro b sb s0 hsb hs0
      rw [hsamples] at hsb
      rcases getElem?_set_cases _ _ _ _ _ hsb with ⟨rfl, rfl⟩ | ⟨_, hsb'⟩
      · right
        refine ⟨e, ?_⟩
        rw [hfindeq, ← hfind]
        exact BlobCache.find_congr _ _ _ rfl
      · rcases ht b sb s0 hsb' hs0 with h1 | ⟨e', he'⟩
        · exact Or.inl h1
        · exact Or.inr ⟨e', by rw [hfindeq]; exact he'⟩
    · intro b sb s0 hsb hs0
      rw [hsamples] at hsb
      have hcons : ∀ x : ObjectSample, (∃ e', p.1.cache.find x = some e') →
          ∃ e', p1.1.cache.find x = some e' := by
        intro x ⟨e', he'⟩
        unfold BlobCache.find at he' ⊢
        rw [hent, List.find?_cons]
        cases BlobCache.is_key x.stack_trace_hash x.stack_trace_id
          ⟨s.stack_trace_hash, s.stack_trace_id, some p.2.blob_count⟩ with
        | true => exact ⟨_, rfl⟩
        | false => exact ⟨e', he'⟩
      rcases getElem?_set_cases _ _ _ _ _ hsb with ⟨rfl, rfl⟩ | ⟨_, hsb'⟩
      · right
        refine ⟨⟨s.stack_trace_hash, s.stack_trace_id, some p.2.blob_count⟩, ?_⟩
        unfold BlobCache.find
        rw [hent]
        simp [List.find?_cons, BlobCache.is_key, ObjectSample.set_stacktrace]
      · rcases ht b sb s0 hsb' hs0 with h1 | he'
        · exact Or.inl h1
        · exact Or.inr (hcons sb he')

/-- A resolver pass over resolvable samples returns. -/
theorem installer_run_total (st0 : State) :
    ∀ (nodes done : List Addr) (p : StackTraceBlobInstaller × State),
      InstallerInv st0 done p → p.2.id_set.isSome = true → touched_cached st0 p →
      (∀ a ∈ nodes, ∃ s0, st0.samples[a]? = some s0 ∧ resolvable st0 s0) →
      ∃ p1, run_list StackTraceBlobInstaller.sample_do nodes p = .ok p1 := by
  intro nodes
  induction nodes with
  | nil => intro done p _ _ _ _; exact ⟨p, rfl⟩
  | cons a rest ih =>
    intro done p inv hid ht hres
    obtain ⟨s0, hs0, hr0⟩ := hres a (List.mem_cons_self _ _)
    obtain ⟨s, hs, hident⟩ := identity_at _ _ inv.identity.symm a s0 hs0
    obtain ⟨hpre_eq, hkey_eq⟩ := precondition_of_identity s0 s hident
    have hrepo : p.2.repository = st0.repository :=
      congrArg (fun t => t.2.2.2.2.2.2.2.2.1) inv.fixed
    have hmiss : p.1.cache.find s = none → resolvable p.2 s := by
      intro hnone hpre
      rw [hpre_eq] at hpre
      obtain ⟨hnost, t, hrep, hframes⟩ := hr0 hpre
      refine ⟨?_, t, ?_, hframes⟩
      · rcases ht a s s0 hs hs0 with h1 | ⟨e, he⟩
        · rw [h1]; exact hnost
        · rw [hnone] at he; exact Option.noConfusion he
      · rw [hrepo]
        simp only [ObjectSample.key, Prod.mk.injEq] at hkey_eq
        rw [hkey_eq.1, hkey_eq.2]
        exact hrep
    have hlit : ∀ e ∈ p.1.cache.table.entries, e.literal.isSome = true := by
      intro e he
      obtain ⟨k, hk, _, _⟩ := inv.literal e he
      rw [hk]; rfl
    obtain ⟨p1, hstep, hid1⟩ := installer_sample_do_total a p s hs hid hlit hmiss
    obtain ⟨p2, hrun⟩ := ih (done ++ [a]) p1 (installer_inv_step st0 done a p p1 inv hstep) hid1
      (touched_cached_step st0 a p p1 ht hstep)
      (fun b hb => hres b (List.mem_cons_of_mem _ hb))
    exact ⟨p2, by simp only [run_list, hstep, hrun]⟩

theorem is_path_samples (S : List ObjectSample) :
    ∀ (nodes : List Addr) (p e : Option Addr), is_path S p e nodes = true →
      ∀ a ∈ nodes, ∃ s, S[a]? = some s := by
  intro nodes
  induction nodes with
  | nil => intro p e _ a ha; simp at ha
  | cons b rest ih =>
    intro p e h a ha
    obtain ⟨_, _, s, hs, hrest⟩ := is_path_cons S p e b rest h
    rcases List.mem_cons.mp ha with rfl | ha
    · exact ⟨s, hs⟩
    · exact ih _ _ hrest a ha

/-- The resolver pass returns when the unresolved range is not empty, fits the fuel, and its
samples are resolvable. -/
theorem install_stack_traces_total (fuel : Nat) (st : State) (nodes : List Addr)
    (hpath : is_path st.samples st.last st.last_resolved nodes = true)
    (hfuel : nodes.length ≤ fuel) (hne : nodes ≠ [])
    (hres : ∀ a ∈ nodes, ∀ s, st.samples[a]? = some s → resolvable st s) :
    ∃ st1, install_stack_traces fuel st = .ok st1 := by
  have hlast : st.last ≠ none ∧ st.last ≠ st.last_resolved := by
    cases nodes with
    | nil => exact absurd rfl hne
    | cons a rest =>
      obtain ⟨h1, h2, _⟩ := is_path_cons _ _ _ _ _ hpath
      exact ⟨by rw [h1]; exact Option.some_ne_none a, h2⟩
  have hres0 : ∀ a ∈ nodes, ∃ s0, (prepare_for_resolution st).samples[a]? = some s0 ∧
      resolvable (prepare_for_resolution st) s0 := by
    intro a ha
    obtain ⟨s, hs⟩ := is_path_samples _ _ _ _ hpath a ha
    exact ⟨s, hs, hres a ha s hs⟩
  obtain ⟨p1, hrun⟩ := installer_run_total (prepare_for_resolution st) nodes []
    (StackTraceBlobInstaller.new st) (installer_inv_new st) rfl
    (fun b s s0 h1 h2 => Or.inl (by
      have h1' : st.samples[b]? = some s := h1
      have h2' : st.samples[b]? = some s0 := h2
      rw [h1'] at h2'
      rw [Option.some.inj h2'])) hres0
  refine ⟨p1.2, ?_⟩
  unfold install_stack_traces iterate_samples do_samples
  have hl : (StackTraceBlobInstaller.new st).2.last = st.last := rfl
  have hlr : (StackTraceBlobInstaller.new st).2.last_resolved = st.last_resolved := rfl
  simp only [hlast.1, hlast.2, if_false, hl, hlr, Bool.false_eq_true]
  rw [do_samples_loop_eq _ installer_links nodes fuel _ _ _ hpath hfuel, hrun]

/-- C5: in a state with unresolved entries, after a returning `on_rotation` every sample
between `last` and the `last resolved` boundary (`unresolved`) that has a nonzero stack-trace
id and is not dead holds a valid stack-trace blob whose data is not empty; and `on_rotation`
does return when the profiler is running, the list fits the fuel, the range is not empty,
and for each such sample, not yet holding a blob, the repository returns a trace (with
nonzero method ids) for its (hash, id). -/
theorem on_rotation_attaches_blobs (fuel : Nat) (st : State) (unresolved resolved : List Addr)
    (hpath : is_path st.samples st.last st.last_resolved unresolved = true)
    (hfuel : unresolved.length ≤ fuel) (hun : has_unresolved_entry st = true) :
    (∀ st2, ObjectSampleCheckpoint.on_rotation fuel st = .ok st2 →
      ∀ a ∈ unresolved, ∀ s, st2.samples[a]? = some s →
        s.stack_trace_id ≠ 0 → s.is_dead = false →
        ∃ k, s.stacktrace = some k ∧ (st2.blobs k).data ≠ []) ∧
    (st.running = true → unresolved ≠ [] →
      is_path st.samples st.last_resolved none resolved = true → resolved.length ≤ fuel →
      (∀ a ∈ unresolved, ∀ s, st.samples[a]? = some s → resolvable st s) →
      ∃ st2, ObjectSampleCheckpoint.on_rotation fuel st = .ok st2) := by
  constructor
  · intro st2 h
    obtain ⟨_, st1, _, hfr, _, hcase⟩ := on_rotation_ok fuel st st2 h
    rcases hcase with ⟨hno, _⟩ | ⟨_, st3, hinst, rfl⟩
    · rw [hun] at hno; exact Bool.noConfusion hno
    · have hpath1 : is_path st1.samples st1.last st1.last_resolved unresolved = true := by
        rw [hfr]; exact hpath
      obtain ⟨inst, inv⟩ := install_stack_traces_inv fuel st1 st3 unresolved hpath1 hfuel hinst
      intro a ha s hs hid hdead
      have hs3 : st3.samples[a]? = some s := hs
      have hpre : stack_trace_precondition s = true := precondition_of_id_live s hid hdead
      obtain ⟨e, hfind, hlit⟩ := inv.attached a ha s hs3 hpre
      obtain ⟨k, hk, hlo, hhi⟩ := inv.literal e (BlobCache.find_some_mem _ _ _ hfind).1
      exact ⟨k, by rw [hlit, hk], (inv.fresh k hlo hhi).1⟩
  · intro hrun hne hrpath hrfuel hres
    obtain ⟨st1, hreset, hfr, _, _, _⟩ := reset_loop_spec resolved fuel _ st hrpath hrfuel
    have hreset' : reset_blob_write_state fuel st = .ok st1 := hreset
    have hun1 : has_unresolved_entry st1 = true := by
      unfold has_unresolved_entry at hun ⊢; rw [hfr]; exact hun
    have hpath1 : is_path st1.samples st1.last st1.last_resolved unresolved = true := by
      rw [hfr]; exact hpath
    have hres1 : ∀ a ∈ unresolved, ∀ s, st1.samples[a]? = some s → resolvable st1 s := by
      intro a ha s hs
      have hs' : st.samples[a]? = some s := by rw [hfr] at hs; exact hs
      have := hres a ha s hs'
      unfold resolvable at this ⊢
      rw [hfr]; exact this
    obtain ⟨st3, hinst⟩ := install_stack_traces_total fuel st1 unresolved hpath1 hfuel hne hres1
    refine ⟨clear_leak_profiler st3, ?_⟩
    simp [ObjectSampleCheckpoint.on_rotation, hrun, hreset', hun1, hinst]

theorem on_rotation_attaches_blobs_witness :
    (∃ k, ({ ObjectSample.live none 5 7 with stacktrace := some 1 } : ObjectSample).stacktrace
        = some k ∧
      ((result_or (ObjectSampleCheckpoint.on_rotation 3 State.three_unresolved)
        State.initial).blobs k).data ≠ []) ∧
    ∃ st2, ObjectSampleCheckpoint.on_rotation 3 State.three_unresolved = .ok st2 :=
  ⟨(on_rotation_attaches_blobs 3 State.three_unresolved [0, 1, 2] [] rfl (by decide) rfl).1
      (result_or (ObjectSampleCheckpoint.on_rotation 3 State.three_unresolved) State.initial)
      rfl 2 (by decide) { ObjectSample.live none 5 7 with stacktrace := some 1 } rfl
      (by decide) rfl,
   (on_rotation_attaches_blobs 3 State.three_unresolved [0, 1, 2] [] rfl (by decide) rfl).2
      rfl (by decide) rfl (by decide) (by
        intro a ha s hs hpre
        refine ⟨?_, ?_⟩
        · simp only [List.mem_cons, List.mem_singleton, List.not_mem_nil, or_false] at ha
          rcases ha with rfl | rfl | rfl <;> (cases hs; rfl)
        · simp only [List.mem_cons, List.mem_singleton, List.not_mem_nil, or_false] at ha
          rcases ha with rfl | rfl | rfl
          · cases hs; exact ⟨JfrStackTrace.plain 3 42 false, rfl, by decide⟩
          · cases hs; exact ⟨JfrStackTrace.plain 3 42 false, rfl, by decide⟩
          · cases hs; exact ⟨JfrStackTrace.plain 5 7 true, rfl, by decide⟩)⟩

/-- C1: after one returning resolver pass (one StackTraceBlobInstaller, starting with an empty
cache) over the samples `nodes`, any two visited samples that satisfy the stack-trace
precondition and share (hash, id) hold the same valid blob handle; the repository lookups
of the pass are the distinct keys of those samples, each once, in the order of their first
visits, and one blob was made per lookup.  The pass returns when the range is not empty and
its samples are resolvable. -/
theorem resolver_pass_dedup (fuel : Nat) (st : State) (nodes : List Addr)
    (hpath : is_path st.samples st.last st.last_resolved nodes = true)
    (hfuel : nodes.length ≤ fuel) :
    (∀ st1, install_stack_traces fuel st = .ok st1 →
      (∀ a b sa sb, a ∈ nodes → b ∈ nodes →
        st1.samples[a]? = some sa → st1.samples[b]? = some sb →
        stack_trace_precondition sa = true → stack_trace_precondition sb = true →
        sa.key = sb.key → sa.stacktrace.valid = true ∧ sa.stacktrace = sb.stacktrace) ∧
      st1.lookups = st.lookups ++ first_visits (precondition_keys st.samples nodes) ∧
      st1.blob_count =
        st.blob_count + (first_visits (precondition_keys st.samples nodes)).length) ∧
    (first_visits (precondition_keys st.samples nodes)).Nodup ∧
    (∀ k, k ∈ first_visits (precondition_keys st.samples nodes) ↔
      k ∈ precondition_keys st.samples nodes) ∧
    (nodes ≠ [] → (∀ a ∈ nodes, ∀ s, st.samples[a]? = some s → resolvable st s) →
      ∃ st1, install_stack_traces fuel st = .ok st1) := by
  refine ⟨?_, first_visits_nodup _, fun k => mem_first_visits _ k,
    fun hne hres => install_stack_traces_total fuel st nodes hpath hfuel hne hres⟩
  intro st1 h
  obtain ⟨inst, inv⟩ := install_stack_traces_inv fuel st st1 nodes hpath hfuel h
  refine ⟨?_, inv.lookups, ?_⟩
  · intro a b sa sb ha hb hsa hsb hpa hpb hkey
    obtain ⟨ea, hfa, hla⟩ := inv.attached a ha sa hsa hpa
    obtain ⟨eb, hfb, hlb⟩ := inv.attached b hb sb hsb hpb
    have hfind : BlobCache.find inst.cache sa = BlobCache.find inst.cache sb :=
      BlobCache.find_congr _ _ _ hkey
    have hfa' : inst.cache.find sa = some ea := hfa
    have hfb' : inst.cache.find sb = some eb := hfb
    rw [hfind, hfb'] at hfa'
    have heq : eb = ea := Option.some.inj hfa'
    subst heq
    obtain ⟨k, hk, _, _⟩ := inv.literal eb (BlobCache.find_some_mem _ _ _ hfb).1
    refine ⟨?_, by rw [hla, hlb]⟩
    rw [hla, hk]; rfl
  · have hc := inv.count
    have hlen := congrArg List.length inv.keys
    simp only [List.length_map, List.length_reverse] at hlen
    have hc' : st1.blob_count = st.blob_count + inst.cache.table.entries.length := hc
    rw [hc', hlen]
    rfl

theorem resolver_pass_dedup_witness :
    (result_or (install_stack_traces 3 State.three_unresolved) State.initial).lookups =
      [] ++ first_visits [(3, 42), (3, 42), (5, 7)] :=
  ((resolver_pass_dedup 3 State.three_unresolved [0, 1, 2] rfl (by decide)).1
    (result_or (install_stack_traces 3 State.three_unresolved) State.initial) rfl).2.1

/-! ## The write pass returns -/

theorem write_blob_total (h : JfrBlobHandle) (w : JfrCheckpointWriter) (st : State)
    (hv : h.valid = true) : ∃ r, write_blob h w st = .ok r := by
  cases h with
  | none => simp [JfrBlobHandle.valid] at hv
  | some k => exact ⟨_, rfl⟩

theorem write_blobs_total (s : ObjectSample) (w : JfrCheckpointWriter) (st : State)
    (hset : st.stacktrace_id_set.isSome = true) (hw : writable s) :
    ∃ r, write_blobs s w st = .ok r := by
  have h1 : ∃ r, write_stacktrace_blob s w st = .ok r := by
    unfold write_stacktrace_blob
    cases hs : st.stacktrace_id_set with
    | none => simp [hs] at hset
    | some set =>
      simp only
      split_ifs with ha hb
      · exact write_blob_total _ _ _ ha
      · exact ⟨_, rfl⟩
      · exact ⟨_, rfl⟩
  obtain ⟨⟨wa, sta⟩, h1⟩ := h1
  have h2 : ∃ r, write_thread_blob s wa sta = .ok r := by
    unfold write_thread_blob
    simp only [hw.1, Bool.not_true, Bool.false_eq_true, if_false]
    by_cases hvirt : s.is_virtual_thread = true
    · simp only [hvirt, if_true]
      exact write_blob_total _ _ _ hw.1
    · simp only [hvirt, Bool.false_eq_true, if_false]
      have htid : s.thread_id ≠ 0 := by
        rcases hw.2 with h | h
        · exact absurd h hvirt
        · exact h
      unfold has_thread_exited
      simp only [htid, if_false]
      cases sta.unloaded_thread_id_set with
      | none => exact ⟨_, rfl⟩
      | some set =>
        simp only
        cases set.contains s.thread_id with
        | true => exact write_blob_total _ _ _ hw.1
        | false => exact ⟨_, rfl⟩
  obtain ⟨⟨wb, stb⟩, h2⟩ := h2
  have h3 : ∃ r, write_type_set_blob s wb stb = .ok r := by
    unfold write_type_set_blob
    split_ifs with ha
    · exact write_blob_total _ _ _ ha
    · exact ⟨_, rfl⟩
  obtain ⟨r, h3⟩ := h3
  exact ⟨r, by simp only [write_blobs, h1, h2, h3]⟩

/-- The per-sample pass over the nodes of a list returns when the pending set is allocated and
every selected sample is writable. -/
theorem blob_writer_run_total : ∀ (nodes : List Addr) (p : BlobWriter × State),
    p.2.stacktrace_id_set.isSome = true →
    (∀ a ∈ nodes, ∃ s, p.2.samples[a]? = some s ∧
      (s.is_alive_and_older_than p.1.last_sweep = true → writable s)) →
    ∃ p1, run_list BlobWriter.sample_do nodes p = .ok p1 := by
  intro nodes
  induction nodes with
  | nil => intro p _ _; exact ⟨p, rfl⟩
  | cons a rest ih =>
    intro p hset hw
    obtain ⟨s, hs, hws⟩ := hw a (List.mem_cons_self _ _)
    have hstep : ∃ p1, BlobWriter.sample_do a p = .ok p1 := by
      unfold BlobWriter.sample_do
      simp only [hs]
      by_cases hsel : s.is_alive_and_older_than p.1.last_sweep = true
      · simp only [hsel, if_true]
        obtain ⟨⟨w1, st1⟩, hr⟩ := write_blobs_total s p.1.writer p.2 hset (hws hsel)
        simp only [hr]
        exact ⟨_, rfl⟩
      · simp only [hsel, Bool.false_eq_true, if_false]
        exact ⟨_, rfl⟩
    obtain ⟨p1, hstep⟩ := hstep
    obtain ⟨s', hs', hls, he, hcase⟩ := blob_writer_sample_do_ok a p p1 hstep
    have hsam : p1.2.samples = p.2.samples := (emits_samples he).1
    have hset1 : p1.2.stacktrace_id_set.isSome = true := by
      rcases hcase with ⟨_, rfl⟩ | ⟨_, _, set, _, hset1⟩
      · exact hset
      · rw [hset1]; rfl
    obtain ⟨p2, hrun⟩ := ih p1 hset1 (by
      intro b hb
      rw [hsam, hls]
      exact hw b (List.mem_cons_of_mem _ hb))
    exact ⟨p2, by simp only [run_list, hstep, hrun]⟩

/-- The per-sample pass of `write` returns when the list is not empty and fits the fuel, and
every selected sample is writable. -/
theorem write_sample_blobs_total (fuel : Nat) (emit_all : Bool) (st : State) (nodes : List Addr)
    (hpath : is_path st.samples st.last none nodes = true) (hfuel : nodes.length ≤ fuel)
    (hne : nodes ≠ []) (hset : st.stacktrace_id_set.isSome = true)
    (hw : ∀ a ∈ nodes, ∀ s, st.samples[a]? = some s →
      s.is_alive_and_older_than (threshold st emit_all) = true → writable s) :
    ∃ st1, write_sample_blobs fuel emit_all st = .ok st1 := by
  have hlast : st.last ≠ none := by
    cases nodes with
    | nil => exact absurd rfl hne
    | cons a rest =>
      obtain ⟨h1, _, _⟩ := is_path_cons _ _ _ _ _ hpath
      rw [h1]; exact Option.some_ne_none a
  obtain ⟨p1, hrun⟩ := blob_writer_run_total nodes (⟨[], threshold st emit_all⟩, st) hset (by
    intro a ha
    obtain ⟨s, hs⟩ := is_path_samples _ _ _ _ hpath a ha
    exact ⟨s, hs, hw a ha s hs⟩)
  refine ⟨p1.2.commit p1.1.writer, ?_⟩
  unfold write_sample_blobs iterate_samples do_samples
  have hthr : (if emit_all then max_jlong else st.last_sweep) = threshold st emit_all := rfl
  simp only [hthr, hlast, if_false, if_true]
  rw [do_samples_loop_eq _ blob_writer_links nodes fuel _ _ _ hpath hfuel, hrun]

/-- `write` returns when the list is not empty and fits the fuel, every selected sample is
writable, and the repository holds exactly one flagged trace for every id that becomes
pending. -/
theorem write_total (fuel : Nat) (st : State) (es : EdgeStore) (emit_all : Bool)
    (nodes : List Addr)
    (hpath : is_path st.samples st.last none nodes = true) (hfuel : nodes.length ≤ fuel)
    (hne : nodes ≠ [])
    (hw : ∀ a ∈ nodes, ∀ s, st.samples[a]? = some s →
      s.is_alive_and_older_than (threshold st emit_all) = true → writable s)
    (hnodup : ((st.repository.filter (fun t => t.should_write)).map (fun t => t.id)).Nodup)
    (hall : ∀ id ∈ selected_pending st.samples (threshold st emit_all) nodes,
      ∃ t ∈ st.repository, t.should_write = true ∧ t.id = id) :
    ∃ st2, ObjectSampleCheckpoint.write fuel st es emit_all = .ok st2 := by
  obtain ⟨st1, hpass⟩ := write_sample_blobs_total fuel emit_all
    { st with stacktrace_id_set := some ⟨[]⟩ } nodes hpath hfuel hne rfl hw
  obtain ⟨nodes1, w, stX, hp1, _, hst1, _, _, hsetX⟩ :=
    write_sample_blobs_spec fuel emit_all _ st1 hpass
  have hn : nodes1 = nodes := is_path_unique _ _ _ _ _ hp1 hpath
  subst hn
  have hset1 : st1.stacktrace_id_set = some
      ⟨first_visits (selected_pending st.samples (threshold st emit_all) nodes1)⟩ := by
    rw [hst1, (commit_same stX w).2.2.2.2.2.1]
    exact hsetX ⟨[]⟩ rfl
  obtain ⟨hids, hrepo⟩ := pass_pending_set fuel st st1 emit_all _ hpass hset1
  refine write_returns_after_pass fuel st st1 es emit_all _ hpass hset1 ?_
  intro hne
  rw [write_stacktraces_eq st1 _ hset1]
  have hlen := dedup_traces_length _ st.repository hids hnodup
    (fun id hid => hall id ((mem_first_visits _ id).mp hid))
  rw [hrepo]
  simp only [hne, Bool.true_eq_false, if_false]
  rw [if_neg (by simpa using hlen)]
  exact ⟨_, rfl⟩

/-- C3: write once per epoch.  Let blob `k`, with its flag unset, be the stack-trace blob of
the N ≥ 2 samples `shared` of the selected population.  A returning `write` emits the bytes
of `k` exactly once; a further `write` without a flag reset emits them zero times; a
`reset_blob_write_state` that visits one of the samples returns and resets the flag of `k`;
and after a reset that has reset the flag, the next `write` emits the bytes exactly once
again.  The `write` does return when the list fits the fuel, the selected samples are
writable, and the repository holds one flagged trace for every pending id. -/
theorem write_once_per_epoch (fuel : Nat) (st : State) (es : EdgeStore) (emit_all : Bool)
    (k : Nat) (nodes shared : List Addr)
    (hpath : is_path st.samples st.last none nodes = true)
    (hN : 2 ≤ shared.length)
    (hshared : ∀ a ∈ shared, a ∈ nodes ∧ ∃ s, st.samples[a]? = some s ∧
      s.stacktrace = some k ∧ s.is_alive_and_older_than (threshold st emit_all) = true)
    (hflag : (st.blobs k).written = false) :
    (∀ st1, ObjectSampleCheckpoint.write fuel st es emit_all = .ok st1 →
      (∃ new1, st1.checkpoints = st.checkpoints ++ new1 ∧ emissions k new1 = 1) ∧
      (∀ fuel2 es2 emit_all2 st2,
        ObjectSampleCheckpoint.write fuel2 st1 es2 emit_all2 = .ok st2 →
        ∃ new2, st2.checkpoints = st1.checkpoints ++ new2 ∧ emissions k new2 = 0) ∧
      (∀ fuelr resolved a, is_path st.samples st.last_resolved none resolved = true →
        resolved.length ≤ fuelr → a ∈ shared → a ∈ resolved →
        ∃ st1r, reset_blob_write_state fuelr st1 = .ok st1r ∧
          (st1r.blobs k).written = false) ∧
      (∀ fuelr st1r fuel3 es3 st3, reset_blob_write_state fuelr st1 = .ok st1r →
        (st1r.blobs k).written = false →
        ObjectSampleCheckpoint.write fuel3 st1r es3 emit_all = .ok st3 →
        ∃ new3, st3.checkpoints = st1r.checkpoints ++ new3 ∧ emissions k new3 = 1)) ∧
    (nodes.length ≤ fuel →
      (∀ a ∈ nodes, ∀ s, st.samples[a]? = some s →
        s.is_alive_and_older_than (threshold st emit_all) = true → writable s) →
      ((st.repository.filter (fun t => t.should_write)).map (fun t => t.id)).Nodup →
      (∀ id ∈ selected_pending st.samples (threshold st emit_all) nodes,
        ∃ t ∈ st.repository, t.should_write = true ∧ t.id = id) →
      ∃ st1, ObjectSampleCheckpoint.write fuel st es emit_all = .ok st1) := by
  obtain ⟨a, ha⟩ : ∃ a, a ∈ shared := by
    cases shared with
    | nil => simp at hN
    | cons a _ => exact ⟨a, List.mem_cons_self _ _⟩
  obtain ⟨hanodes, s, hs, hsk, hsel⟩ := hshared a ha
  constructor
  · intro st1 h1
    obtain ⟨new1, hcp1, hem1, _, hatt1, hsam1, hlast1, hls1, hlr1⟩ :=
      write_emissions fuel st st1 es emit_all h1
    have hw1 : (st1.blobs k).written = true := hatt1 nodes hpath a hanodes s hs hsel k hsk
    refine ⟨⟨new1, hcp1, by rw [hem1 k, hflag, hw1]; rfl⟩, ?_, ?_, ?_⟩
    · intro fuel2 es2 emit_all2 st2 h2
      obtain ⟨new2, hcp2, hem2, _⟩ := write_emissions fuel2 st1 st2 es2 emit_all2 h2
      refine ⟨new2, hcp2, ?_⟩
      rw [hem2 k, hw1]
      rfl
    · intro fuelr resolved b hrpath hrfuel hb hbres
      obtain ⟨_, sb, hsb, hsbk, _⟩ := hshared b hb
      have hrpath1 : is_path st1.samples st1.last_resolved none resolved = true := by
        rw [hsam1, hlr1]; exact hrpath
      obtain ⟨st1r, hreset, _, _, _, hflags⟩ := reset_loop_spec resolved fuelr _ st1 hrpath1 hrfuel
      refine ⟨st1r, hreset, ?_⟩
      exact hflags b hbres sb (by rw [hsam1]; exact hsb) k (Or.inl hsbk)
    · intro fuelr st1r fuel3 es3 st3 hreset hflagr h3
      obtain ⟨hfr, _, _⟩ := reset_loop_frame fuelr _ st1 st1r hreset
      have hsamr : st1r.samples = st.samples := by rw [hfr]; exact hsam1
      have hlastr : st1r.last = st.last := by rw [hfr]; exact hlast1
      have hthr : threshold st1r emit_all = threshold st emit_all := by
        unfold threshold
        have : st1r.last_sweep = st.last_sweep := by rw [hfr]; exact hls1
        rw [this]
      obtain ⟨new3, hcp3, hem3, _, hatt3, _⟩ := write_emissions fuel3 st1r st3 es3 emit_all h3
      have hw3 : (st3.blobs k).written = true := by
        refine hatt3 nodes ?_ a hanodes s ?_ ?_ k hsk
        · rw [hsamr, hlastr]; exact hpath
        · rw [hsamr]; exact hs
        · rw [hthr]; exact hsel
      exact ⟨new3, hcp3, by rw [hem3 k, hflagr, hw3]; rfl⟩
  · intro hfuel hw hnodup hall
    have hne : nodes ≠ [] := by
      intro hnil
      rw [hnil] at hanodes
      simp at hanodes
    exact write_total fuel st es emit_all nodes hpath hfuel hne hw hnodup hall

theorem write_once_per_epoch_witness :
    (∃ new1, (result_or (ObjectSampleCheckpoint.write 4 State.scenario [] true)
        State.initial).checkpoints = State.scenario.checkpoints ++ new1 ∧
      emissions 0 new1 = 1) ∧
    ∃ st1, ObjectSampleCheckpoint.write 4 State.scenario [] true = .ok st1 :=
  ⟨((write_once_per_epoch 4 State.scenario [] true 0 [0, 1, 2, 3] [1, 2, 3] rfl (by decide)
      (by decide) rfl).1
      (result_or (ObjectSampleCheckpoint.write 4 State.scenario [] true) State.initial) rfl).1,
   (write_once_per_epoch 4 State.scenario [] true 0 [0, 1, 2, 3] [1, 2, 3] rfl (by decide)
      (by decide) rfl).2 (by decide) (by
        intro a ha s hs _
        simp only [List.mem_cons, List.mem_singleton, List.not_mem_nil, or_false] at ha
        rcases ha with rfl | rfl | rfl | rfl <;>
          (cases hs; exact ⟨rfl, Or.inr (by decide)⟩)) (by decide) (by decide)⟩

/-! ## The end-to-end scenario -/

theorem first_visits_const (x : traceid) :
    ∀ (l : List traceid), (∀ y ∈ l, y = x) → l ≠ [] → first_visits l = [x] := by
  intro l
  induction l using List.reverseRecOn with
  | nil => intro _ h; exact absurd rfl h
  | append_singleton l y ih =>
    intro hall _
    have hy : y = x := hall y (by simp)
    subst hy
    rw [first_visits_snoc]
    by_cases hl : l = []
    · subst hl
      simp [first_visits, first_visits_from]
    · have := ih (fun z hz => hall z (by simp [hz])) hl
      simp [this]

theorem length_one_of_mem {α : Type} (l : List α) (x : α) (hl : l.length = 1) (hx : x ∈ l) :
    l = [x] := by
  cases l with
  | nil => simp at hl
  | cons y rest =>
    cases rest with
    | nil =>
      simp only [List.mem_singleton] at hx
      rw [hx]
    | cons z rest => simp at hl

/-- C6: the end-to-end scenario.  The sample list holds the live sample `a7` with stack-trace
id 7 and no stack-trace blob, and three live samples `shared` with stack-trace id 42 that
share the stack-trace blob `k`, whose flag is unset; the repository holds the trace `t7` with
id 7, flagged `should_write`.  Then a full `write` (emit_all) returns, and what it adds to
the stream is the blob block, in which the bytes of blob `k` occur exactly once, followed by
one dedup stack-trace block with count field 1 and the record of `t7`, followed by the
block of the chain store. -/
theorem write_scenario (fuel : Nat) (st : State) (es : EdgeStore) (k : Nat)
    (nodes shared : List Addr) (a7 : Addr) (s7 : ObjectSample) (t7 : JfrStackTrace)
    (hpath : is_path st.samples st.last none nodes = true) (hfuel : nodes.length ≤ fuel)
    (hnodes : ∀ a, a ∈ nodes ↔ a = a7 ∨ a ∈ shared) (hthree : shared.length = 3)
    (hs7 : st.samples[a7]? = some s7) (hid7 : s7.stack_trace_id = 7)
    (hno7 : s7.stacktrace = none)
    (h42 : ∀ a ∈ shared, ∃ s, st.samples[a]? = some s ∧ s.stack_trace_id = 42 ∧
      s.stacktrace = some k)
    (hlive : ∀ a ∈ nodes, ∀ s, st.samples[a]? = some s →
      s.is_alive_and_older_than max_jlong = true ∧ writable s)
    (hflag : (st.blobs k).written = false)
    (hnodup : ((st.repository.filter (fun t => t.should_write)).map (fun t => t.id)).Nodup)
    (ht7 : t7 ∈ st.repository) (hsw7 : t7.should_write = true) (htid7 : t7.id = 7) :
    ∃ st1 w, ObjectSampleCheckpoint.write fuel st es true = .ok st1 ∧
      st1.checkpoints = st.checkpoints ++ (block_of w ++
        [[Entry.field (Field.type TYPE_STACKTRACE), Entry.field (Field.count 1)] ++
          trace_record t7] ++
        (if es.isEmpty then [] else block_of (EdgeStore.iterate es []))) ∧
      emissions_in k w = 1 := by
  have ha7 : a7 ∈ nodes := (hnodes a7).mpr (Or.inl rfl)
  have hne : nodes ≠ [] := by
    intro hnil
    rw [hnil] at ha7
    simp at ha7
  have hthr : threshold st true = max_jlong := rfl
  have hpend : ∀ id ∈ selected_pending st.samples (threshold st true) nodes, id = 7 := by
    intro id hid
    simp only [selected_pending, List.mem_filterMap] at hid
    obtain ⟨a, ha, hsome⟩ := hid
    rcases (hnodes a).mp ha with rfl | hsh
    · simp only [hs7] at hsome
      split_ifs at hsome
      simp only [pending_id] at hsome
      split_ifs at hsome
      simp only [Option.some.injEq] at hsome
      rw [← hsome, hid7]
    · obtain ⟨s, hs, _, hst⟩ := h42 a hsh
      simp only [hs] at hsome
      split_ifs at hsome
      simp [pending_id, ObjectSample.has_stacktrace, JfrBlobHandle.valid, hst] at hsome
  have hpend7 : (7 : traceid) ∈ selected_pending st.samples (threshold st true) nodes := by
    simp only [selected_pending, List.mem_filterMap]
    refine ⟨a7, ha7, ?_⟩
    simp [hs7, hthr, (hlive a7 ha7 s7 hs7).1, pending_id, ObjectSample.has_stacktrace,
      JfrBlobHandle.valid, hno7, hid7]
  have hpne : selected_pending st.samples (threshold st true) nodes ≠ [] := by
    intro hnil
    rw [hnil] at hpend7
    simp at hpend7
  obtain ⟨st1, hwrite⟩ := write_total fuel st es true nodes hpath hfuel hne
    (fun a ha s hs _ => (hlive a ha s hs).2) hnodup
    (fun id hid => ⟨t7, ht7, hsw7, by rw [htid7, hpend id hid]⟩)
  obtain ⟨nodes1, w, stX, set, hp1, _, he, hatt, _, hids, _, hcp, _⟩ :=
    write_spec fuel st st1 es true hwrite
  have hn : nodes1 = nodes := is_path_unique _ _ _ _ _ hp1 hpath
  subst hn
  have hset7 : set.ids = [7] := by
    rw [hids]; exact first_visits_const 7 _ hpend hpne
  have hset : set = ⟨[7]⟩ := by
    cases set
    simp only at hset7
    rw [hset7]
  subst hset
  have hdedup : dedup_traces ⟨[7]⟩ st.repository = [t7] := by
    apply length_one_of_mem
    · exact dedup_traces_length ⟨[7]⟩ st.repository (by simp) hnodup
        (fun id hid => ⟨t7, ht7, hsw7, by
          simp only [List.mem_singleton] at hid
          rw [htid7, hid]⟩)
    · simp [dedup_traces, ht7, hsw7, JfrTraceIdSet.contains, htid7]
  obtain ⟨b, hb⟩ : ∃ b, b ∈ shared := by
    cases shared with
    | nil => simp at hthree
    | cons b _ => exact ⟨b, List.mem_cons_self _ _⟩
  obtain ⟨sb, hsb, _, hsbk⟩ := h42 b hb
  have hbn : b ∈ nodes1 := (hnodes b).mpr (Or.inr hb)
  have hwk : (stX.blobs k).written = true :=
    hatt b hbn sb hsb (hlive b hbn sb hsb).1 k hsbk
  refine ⟨st1, w, hwrite, ?_, ?_⟩
  · rw [hcp]
    simp [write_blocks, hdedup, JfrTraceIdSet.is_nonempty, block_of, dedup_block,
      trace_records]
  · have := he.count k
    rw [this]
    have h0 : (({ st with stacktrace_id_set := some ⟨[]⟩ } : State).blobs k).written = false :=
      hflag
    rw [h0, hwk]
    simp [emissions_in, flipped]

theorem write_scenario_witness :
    ∃ st1 w, ObjectSampleCheckpoint.write 4 State.scenario [] true = .ok st1 ∧
      st1.checkpoints = State.scenario.checkpoints ++ (block_of w ++
        [[Entry.field (Field.type TYPE_STACKTRACE), Entry.field (Field.count 1)] ++
          trace_record (JfrStackTrace.plain 5 7 true)] ++
        (if ([] : EdgeStore).isEmpty then [] else block_of (EdgeStore.iterate [] []))) ∧
      emissions_in 0 w = 1 :=
  write_scenario 4 State.scenario [] 0 [0, 1, 2, 3] [1, 2, 3] 0
    { ObjectSample.live (some 1) 5 7 with thread := some 1 } (JfrStackTrace.plain 5 7 true)
    rfl (by decide) (fun a => by simp) rfl rfl rfl rfl (by decide)
    (by
      intro a ha s hs
      simp only [List.mem_cons, List.mem_singleton, List.not_mem_nil, or_false] at ha
      rcases ha with rfl | rfl | rfl | rfl <;>
        (cases hs; exact ⟨by decide, rfl, Or.inr (by decide)⟩))
    rfl (by decide) (by decide) rfl rfl

/-! ## Layout of a serialized stack trace -/

theorem getElem?_append_add {α : Type} (w l : List α) (i : Nat) :
    (w ++ l)[w.length + i]? = l[i]? := by
  rw [List.getElem?_append_right (Nat.le_add_right _ _), Nat.add_sub_cancel_left]

/-- C18: on a pass with an allocated id set and nonzero method ids, `write_stacktrace` of a
trace with `n` frames returns, and the writer has gained `n + 3` entries after its old content:
first the trace id, then one byte that is the negation of the reached-root flag (1 when the
root was not reached, 0 when it was), then the frame count `n` as a 32-bit unsigned value, then
the frames in index order `0 .. n - 1`, frame `i` at position `3 + i` and nowhere else. -/
theorem write_stacktrace_layout (t : JfrStackTrace) (w : JfrCheckpointWriter) (st : State)
    (n : Nat) (hn : t.number_of_frames = n) (h32 : n < 2 ^ 32)
    (hid : st.id_set.isSome = true) (hm : ∀ f ∈ t.frames, f.methodid ≠ 0) :
    ∃ w1 st1, ObjectSampleCheckpoint.write_stacktrace t w st = .ok (w1, st1) ∧
      w1.length = w.length + 3 + n ∧ w1.take w.length = w ∧
      w1[w.length]? = some (Entry.field (Field.u8 t.id)) ∧
      w1[w.length + 1]? = some (Entry.field (Field.u1 (if t.reached_root then 0 else 1))) ∧
      w1[w.length + 2]? = some (Entry.field (Field.u4 n)) ∧
      ∀ i, i < n → ∃ f, t.frames[i]? = some f ∧
        w1[w.length + 3 + i]? = some (Entry.field (Field.frame f)) := by
  obtain ⟨w1, st1, hrun, _⟩ := write_stacktrace_total t w st hid hm
  obtain ⟨_, hw⟩ := write_stacktrace_spec t w w1 st st1 hrun
  have hlen : t.frames.length = n := hn
  rw [List.append_assoc] at hw
  have hat : ∀ i, w1[w.length + i]? =
      ([Entry.field (Field.u8 t.id), Entry.field (Field.u1 (if t.reached_root then 0 else 1)),
        Entry.field (Field.u4 (t.number_of_frames % 2 ^ 32))] ++
        t.frames.map (fun f => Entry.field (Field.frame f)))[i]? := by
    intro i
    rw [hw]
    exact getElem?_append_add _ _ i
  refine ⟨w1, st1, hrun, ?_, ?_, ?_, ?_, ?_, ?_⟩
  · rw [hw]; simp [hlen]; omega
  · rw [hw]; simp
  · have := hat 0
    simpa using this
  · have := hat 1
    simpa using this
  · have := hat 2
    rw [hn, Nat.mod_eq_of_lt h32] at this
    simpa using this
  · intro i hi
    have hi' : i < t.frames.length := by omega
    refine ⟨t.frames[i], List.getElem?_eq_getElem hi', ?_⟩
    have := hat (3 + i)
    rw [← Nat.add_assoc] at this
    rw [this, List.getElem?_append_right (by simp)]
    simp [List.getElem?_eq_getElem hi']

/-- C18 at a trace with two frames whose root was not reached: the byte after the id is 1. -/
theorem write_stacktrace_layout_witness :
    ∃ w1 st1, ObjectSampleCheckpoint.write_stacktrace
        ⟨42, 3, false, [⟨1, 65537, 10, 0, 0⟩, ⟨1, 65538, 11, 0, 0⟩], true⟩ []
        (prepare_for_resolution State.initial) = .ok (w1, st1) ∧
      w1.length = ([] : JfrCheckpointWriter).length + 3 + 2 ∧
      w1.take ([] : JfrCheckpointWriter).length = [] ∧
      w1[([] : JfrCheckpointWriter).length]? = some (Entry.field (Field.u8 42)) ∧
      w1[([] : JfrCheckpointWriter).length + 1]? =
        some (Entry.field (Field.u1 (if false then 0 else 1))) ∧
      w1[([] : JfrCheckpointWriter).length + 2]? = some (Entry.field (Field.u4 2)) ∧
      ∀ i, i < 2 → ∃ f,
        ([⟨1, 65537, 10, 0, 0⟩, ⟨1, 65538, 11, 0, 0⟩] : List JfrStackFrame)[i]? = some f ∧
        w1[([] : JfrCheckpointWriter).length + 3 + i]? = some (Entry.field (Field.frame f)) :=
  write_stacktrace_layout ⟨42, 3, false, [⟨1, 65537, 10, 0, 0⟩, ⟨1, 65538, 11, 0, 0⟩], true⟩ []
    (prepare_for_resolution State.initial) 2 rfl (by decide) rfl (by decide)

/-! ## Runs of a processor over a path -/

/-- A processor that returns on every node of a list, keeping an invariant, returns on the
whole list. -/
theorem run_list_total {π : Type} (sample_do : Addr → π × State → Except Fault (π × State))
    (I : π × State → Prop) :
    ∀ (nodes : List Addr) (p : π × State), I p →
      (∀ a ∈ nodes, ∀ q, I q → ∃ q1, sample_do a q = .ok q1 ∧ I q1) →
      ∃ p1, run_list sample_do nodes p = .ok p1 ∧ I p1 := by
  intro nodes
  induction nodes with
  | nil => intro p hI _; exact ⟨p, rfl, hI⟩
  | cons a rest ih =>
    intro p hI hstep
    obtain ⟨q1, hq1, hI1⟩ := hstep a (List.mem_cons_self _ _) p hI
    obtain ⟨p1, hp1, hIp1⟩ := ih q1 hI1 (fun b hb => hstep b (List.mem_cons_of_mem _ hb))
    exact ⟨p1, by simp only [run_list, hq1, hp1], hIp1⟩

/-- The type-set installation over a path returns and leaves the samples off the path alone. -/
theorem type_set_install_total (fuel : Nat) (sample end_ : Option Addr) (st : State)
    (nodes : List Addr) (hpath : is_path st.samples sample end_ nodes = true)
    (hfuel : nodes.length ≤ fuel) :
    ∃ st1, JfrReferenceCountedStorage.install fuel sample end_ st = .ok st1 ∧
      ∀ b, b ∉ nodes → st1.samples[b]? = st.samples[b]? := by
  unfold JfrReferenceCountedStorage.install
  simp only
  rw [do_samples_loop_eq install_type_set install_type_set_links nodes fuel sample end_
    ((), { st with type_set_installs := st.type_set_installs ++ [(sample, end_)] })
    hpath hfuel]
  obtain ⟨p1, hp1, _, hI⟩ := run_list_total install_type_set
    (fun q => q.2.samples.length = st.samples.length ∧
      ∀ b, b ∉ nodes → q.2.samples[b]? = st.samples[b]?) nodes
    ((), { st with type_set_installs := st.type_set_installs ++ [(sample, end_)] })
    ⟨rfl, fun _ _ => rfl⟩ (by
      intro a ha q hq
      obtain ⟨s0, hs0⟩ := is_path_samples _ _ _ _ hpath a ha
      have hlt : a < q.2.samples.length := by
        rw [hq.1]; exact (List.getElem?_eq_some.mp hs0).1
      have hs : q.2.samples[a]? = some (q.2.samples[a]) := List.getElem?_eq_getElem hlt
      have hdo : install_type_set a q = .ok (q.1, q.2.update_sample a
          (fun s => { s with type_set :=
            if q.2.type_sets.valid then q.2.type_sets else s.type_set })) := by
        simp only [install_type_set, hs]
      refine ⟨_, hdo, ?_, ?_⟩
      · simp only
        rw [update_sample_of_some q.2 a _ _ hs]
        simp only [List.length_set]
        exact hq.1
      · intro b hb
        simp only
        rw [update_sample_of_some q.2 a _ _ hs]
        have hab : a ≠ b := fun h => hb (h ▸ ha)
        simp only [List.getElem?_set_ne hab]
        exact hq.2 b hb)
  exact ⟨p1.2, by simp only [hp1], hI⟩

/-! ## The cursor move of `on_type_set` -/

/-- C13: while the profiler runs, `on_type_set` without an unresolved entry returns the state
it was given, nothing changed.  With an unresolved entry and a non-empty range from `last` to
the `last resolved` cursor that the fuel covers, it returns, and then the `last resolved`
cursor is the sampler's `last`, the type-set installation has been requested once more, for the
range from `last` to the previous `last resolved` cursor, the links of the list are unchanged,
and no sample differs in more than its type-set handle, the samples off the range in nothing. -/
theorem on_type_set_cursor (fuel : Nat) (st : State) (hrun : st.running = true) :
    (has_unresolved_entry st = false → ObjectSampleCheckpoint.on_type_set fuel st = .ok st) ∧
    (has_unresolved_entry st = true → ∀ nodes : List Addr, nodes ≠ [] →
      is_path st.samples st.last st.last_resolved nodes = true → nodes.length ≤ fuel →
      ∃ st2, ObjectSampleCheckpoint.on_type_set fuel st = .ok st2 ∧
        st2.last_resolved = st.last ∧ st2.last = st.last ∧
        st2.type_set_installs = st.type_set_installs ++ [(st.last, st.last_resolved)] ∧
        links st2.samples = links st.samples ∧
        st2.samples.map ObjectSample.sans_type_set = st.samples.map ObjectSample.sans_type_set ∧
        ∀ b, b ∉ nodes → st2.samples[b]? = st.samples[b]?) := by
  refine ⟨?_, ?_⟩
  · intro hu
    unfold ObjectSampleCheckpoint.on_type_set
    simp [hrun, hu]
  · intro hu nodes hne hpath hfuel
    obtain ⟨st1, hinst, hoff⟩ := type_set_install_total fuel _ _ st nodes hpath hfuel
    obtain ⟨hfr, hsans⟩ := type_set_install_frame fuel _ _ st st1 hinst
    obtain ⟨a, rest, rfl⟩ := List.exists_cons_of_ne_nil hne
    obtain ⟨hlast, hneq, _⟩ := is_path_cons _ _ _ a rest hpath
    have hlast0 : st.last ≠ none := by rw [hlast]; exact fun h => Option.noConfusion h
    refine ⟨st1.set_last_resolved st.last, ?_, rfl, ?_, ?_, ?_, hsans, hoff⟩
    · unfold ObjectSampleCheckpoint.on_type_set
      simp only [hrun, hu, Bool.not_true, Bool.false_eq_true, if_false, hlast0, hneq, hinst]
    · simp only [State.set_last_resolved]; rw [hfr]
    · simp only [State.set_last_resolved]; rw [hfr]
    · exact links_of_sans_type_set _ _ hsans

/-- C13 at a state without an unresolved entry and at the three unresolved samples. -/
theorem on_type_set_cursor_witness :
    ObjectSampleCheckpoint.on_type_set 0 State.two_resolved = .ok State.two_resolved ∧
    ∃ st2, ObjectSampleCheckpoint.on_type_set 3 State.three_unresolved = .ok st2 ∧
      st2.last_resolved = State.three_unresolved.last ∧ st2.last = State.three_unresolved.last ∧
      st2.type_set_installs = State.three_unresolved.type_set_installs ++
        [(State.three_unresolved.last, State.three_unresolved.last_resolved)] ∧
      links st2.samples = links State.three_unresolved.samples ∧
      st2.samples.map ObjectSample.sans_type_set =
        State.three_unresolved.samples.map ObjectSample.sans_type_set ∧
      ∀ b, b ∉ [0, 1, 2] → st2.samples[b]? = State.three_unresolved.samples[b]? :=
  ⟨(on_type_set_cursor 0 State.two_resolved rfl).1 rfl,
   (on_type_set_cursor 3 State.three_unresolved rfl).2 rfl [0, 1, 2] (by decide) rfl
     (by decide)⟩

/-! ## Double insertion and check-then-insert use of the cache -/

/-- C15: `put` on a sample whose key (hash, id) already has an entry in the cache fails an
invariant check, whatever id the previous call left behind and whatever blob is offered; no
cache with a second entry for the key is returned. -/
theorem put_existing_key_faults (c : BlobCache) (s : ObjectSample) (b : JfrBlobHandle)
    (h : c.has_entry s.stack_trace_hash s.stack_trace_id = true) :
    c.put s b = .error .invariant := by
  unfold BlobCache.put
  simp only [BlobCache.lookup_only_eq]
  cases hstale : c.table.entries.find? (BlobCache.is_key s.stack_trace_hash c.lookup_id) with
  | some e => rfl
  | none =>
    simp only
    by_cases h0 : s.stack_trace_id = 0
    · simp [h0]
    · simp only [h0, if_false]
      unfold BlobCache.table_put
      simp only [BlobCache.lookup_only_eq]
      cases hnew : c.table.entries.find?
          (BlobCache.is_key s.stack_trace_hash s.stack_trace_id) with
      | some e => rfl
      | none =>
        unfold BlobCache.has_entry at h
        obtain ⟨e, he, hk⟩ := List.any_eq_true.mp h
        exact absurd hk (by simpa using List.find?_eq_none.mp hnew e he)

/-- C15 at a cache that holds key (3, 1) and was last asked for id 2: the stale id finds
nothing, and the insert itself is what fails. -/
theorem put_existing_key_faults_witness :
    BlobCache.has_entry ⟨⟨8, [⟨3, 1, some 0⟩]⟩, 2⟩ 3 1 = true ∧
    BlobCache.put ⟨⟨8, [⟨3, 1, some 0⟩]⟩, 2⟩ (ObjectSample.live none 3 1) (some 1)
      = .error .invariant :=
  ⟨rfl, put_existing_key_faults ⟨⟨8, [⟨3, 1, some 0⟩]⟩, 2⟩ (ObjectSample.live none 3 1)
    (some 1) rfl⟩

/-- C16: at every point of a resolver pass (the state reached from a fresh installer over any
sequence of samples), the cache holds at most one entry per (hash, id), and for every sample on
which `get` returns: a valid handle means the key has an entry, and `get` leaves the table as
it was (this is the branch of `install` without `put`); the empty handle, after which `install`
calls `put` on that sample with the cache `get` left, means the key has no entry, and that
`put` returns for every blob, with the new entry in front of the old ones.  Accordingly a
returning step of the pass either leaves the entries as they were or adds one entry, for the
key of the sample it visits, which had no entry. -/
theorem put_only_after_miss (st : State) (done : List Addr)
    (p : StackTraceBlobInstaller × State)
    (hrun : run_list StackTraceBlobInstaller.sample_do done (StackTraceBlobInstaller.new st)
      = .ok p) :
    (p.1.cache.table.entries.map BlobEntry.key).Nodup ∧
    (∀ (sample : ObjectSample) (blob : JfrBlobHandle) (cache1 : BlobCache),
      p.1.cache.get sample = .ok (blob, cache1) →
      cache1.table = p.1.cache.table ∧
      (blob.valid = true →
        p.1.cache.has_entry sample.stack_trace_hash sample.stack_trace_id = true) ∧
      (blob.valid = false →
        p.1.cache.has_entry sample.stack_trace_hash sample.stack_trace_id = false ∧
        ∀ b, cache1.put sample b = .ok ⟨⟨cache1.table.size,
          ⟨sample.stack_trace_hash, sample.stack_trace_id, b⟩ :: cache1.table.entries⟩,
          sample.stack_trace_id⟩)) ∧
    ∀ (a : Addr) (p1 : StackTraceBlobInstaller × State),
      StackTraceBlobInstaller.sample_do a p = .ok p1 →
      p1.1.cache.table.entries = p.1.cache.table.entries ∨
      ∃ s k, p.2.samples[a]? = some s ∧
        p.1.cache.has_entry s.stack_trace_hash s.stack_trace_id = false ∧
        p1.1.cache.table.entries =
          ⟨s.stack_trace_hash, s.stack_trace_id, some k⟩ :: p.1.cache.table.entries := by
  have inv := installer_inv_run (prepare_for_resolution st) done [] _ p
    (installer_inv_new st) hrun
  have hnone : ∀ s : ObjectSample, p.1.cache.table.entries.find?
      (BlobCache.is_key s.stack_trace_hash s.stack_trace_id) = none →
      p.1.cache.has_entry s.stack_trace_hash s.stack_trace_id = false := by
    intro s hf
    unfold BlobCache.has_entry
    cases hany : p.1.cache.table.entries.any
        (BlobCache.is_key s.stack_trace_hash s.stack_trace_id) with
    | false => rfl
    | true =>
      obtain ⟨e, he, hk⟩ := List.any_eq_true.mp hany
      exact absurd hk (by simpa using List.find?_eq_none.mp hf e he)
  refine ⟨?_, ?_, ?_⟩
  · rw [inv.keys]
    exact List.nodup_reverse.mpr (first_visits_nodup _)
  · intro sample blob cache1 hget
    have h0 : sample.stack_trace_id ≠ 0 := by
      intro h0
      unfold BlobCache.get at hget
      simp [h0] at hget
    rw [BlobCache.get_eq _ _ h0] at hget
    simp only [Except.ok.injEq, Prod.mk.injEq] at hget
    obtain ⟨hblob, hc1⟩ := hget
    subst hc1
    refine ⟨rfl, ?_, ?_⟩
    · intro hv
      cases hf : p.1.cache.table.entries.find?
          (BlobCache.is_key sample.stack_trace_hash sample.stack_trace_id) with
      | none =>
        rw [hf] at hblob
        rw [← hblob] at hv
        exact Bool.noConfusion hv
      | some e =>
        unfold BlobCache.has_entry
        exact List.any_eq_true.mpr ⟨e, List.mem_of_find?_eq_some hf, List.find?_some hf⟩
    · intro hv
      have hf : p.1.cache.table.entries.find?
          (BlobCache.is_key sample.stack_trace_hash sample.stack_trace_id) = none := by
        cases hf : p.1.cache.table.entries.find?
            (BlobCache.is_key sample.stack_trace_hash sample.stack_trace_id) with
        | none => rfl
        | some e =>
          rw [hf] at hblob
          obtain ⟨k, hk, _⟩ := inv.literal e (List.mem_of_find?_eq_some hf)
          simp only at hblob
          rw [← hblob, hk] at hv
          exact Bool.noConfusion hv
      exact ⟨hnone sample hf, fun b => BlobCache.put_eq _ sample b h0 hf hf⟩
  · intro a p1 hstep
    obtain ⟨s, hs, hcase⟩ := installer_sample_do_ok a p p1 hstep
    rcases hcase with ⟨_, rfl⟩ | ⟨_, _, _, ⟨e, k, _, _, hent, _⟩ | ⟨t, hfind, _, _, hent, _⟩⟩
    · exact Or.inl rfl
    · exact Or.inl hent
    · exact Or.inr ⟨s, p.2.blob_count, hs, hnone s hfind, hent⟩

/-- C16 after the first two of the three unresolved samples, which share key (3, 42): the
cache holds the one entry; `get` on the third sample, of key (5, 7), returns the empty handle,
and `put` on it returns. -/
theorem put_only_after_miss_witness :
    ((result_or (run_list StackTraceBlobInstaller.sample_do [0, 1]
        (StackTraceBlobInstaller.new State.three_unresolved))
        (StackTraceBlobInstaller.new State.initial)).1.cache.table.entries.map
          BlobEntry.key).Nodup ∧
    (∀ (sample : ObjectSample) (blob : JfrBlobHandle) (cache1 : BlobCache),
      (result_or (run_list StackTraceBlobInstaller.sample_do [0, 1]
        (StackTraceBlobInstaller.new State.three_unresolved))
        (StackTraceBlobInstaller.new State.initial)).1.cache.get sample = .ok (blob, cache1) →
      cache1.table = (result_or (run_list StackTraceBlobInstaller.sample_do [0, 1]
        (StackTraceBlobInstaller.new State.three_unresolved))
        (StackTraceBlobInstaller.new State.initial)).1.cache.table ∧
      (blob.valid = true →
        (result_or (run_list StackTraceBlobInstaller.sample_do [0, 1]
          (StackTraceBlobInstaller.new State.three_unresolved))
          (StackTraceBlobInstaller.new State.initial)).1.cache.has_entry
            sample.stack_trace_hash sample.stack_trace_id = true) ∧
      (blob.valid = false →
        (result_or (run_list StackTraceBlobInstaller.sample_do [0, 1]
          (StackTraceBlobInstaller.new State.three_unresolved))
          (StackTraceBlobInstaller.new State.initial)).1.cache.has_entry
            sample.stack_trace_hash sample.stack_trace_id = false ∧
        ∀ b, cache1.put sample b = .ok ⟨⟨cache1.table.size,
          ⟨sample.stack_trace_hash, sample.stack_trace_id, b⟩ :: cache1.table.entries⟩,
          sample.stack_trace_id⟩)) ∧
    ∀ (a : Addr) (p1 : StackTraceBlobInstaller × State),
      StackTraceBlobInstaller.sample_do a
        (result_or (run_list StackTraceBlobInstaller.sample_do [0, 1]
          (StackTraceBlobInstaller.new State.three_unresolved))
          (StackTraceBlobInstaller.new State.initial)) = .ok p1 →
      p1.1.cache.table.entries = (result_or (run_list StackTraceBlobInstaller.sample_do [0, 1]
        (StackTraceBlobInstaller.new State.three_unresolved))
        (StackTraceBlobInstaller.new State.initial)).1.cache.table.entries ∨
      ∃ s k, (result_or (run_list StackTraceBlobInstaller.sample_do [0, 1]
          (StackTraceBlobInstaller.new State.three_unresolved))
          (StackTraceBlobInstaller.new State.initial)).2.samples[a]? = some s ∧
        (result_or (run_list StackTraceBlobInstaller.sample_do [0, 1]
          (StackTraceBlobInstaller.new State.three_unresolved))
          (StackTraceBlobInstaller.new State.initial)).1.cache.has_entry
            s.stack_trace_hash s.stack_trace_id = false ∧
        p1.1.cache.table.entries = ⟨s.stack_trace_hash, s.stack_trace_id, some k⟩ ::
          (result_or (run_list StackTraceBlobInstaller.sample_do [0, 1]
            (StackTraceBlobInstaller.new State.three_unresolved))
            (StackTraceBlobInstaller.new State.initial)).1.cache.table.entries :=
  put_only_after_miss State.three_unresolved [0, 1]
    (result_or (run_list StackTraceBlobInstaller.sample_do [0, 1]
      (StackTraceBlobInstaller.new State.three_unresolved))
      (StackTraceBlobInstaller.new State.initial)) rfl

/-! ## Paths have no repeated node -/

/-- A path continued from one of its nodes is a path from that node. -/
theorem is_path_suffix (S : List ObjectSample) :
    ∀ (pre : List Addr) (p e : Option Addr) (a : Addr) (post : List Addr),
      is_path S p e (pre ++ a :: post) = true → is_path S (some a) e (a :: post) = true := by
  intro pre
  induction pre with
  | nil =>
    intro p e a post h
    obtain ⟨hp, _, _⟩ := is_path_cons S p e a post h
    rw [← hp]; exact h
  | cons b rest ih =>
    intro p e a post h
    obtain ⟨_, _, s, _, hrest⟩ := is_path_cons S p e b (rest ++ a :: post) h
    exact ih _ _ _ _ hrest

/-- No node occurs twice on a path: the walk from its second occurrence would be the walk
from its first. -/
theorem is_path_nodup (S : List ObjectSample) :
    ∀ (nodes : List Addr) (p e : Option Addr), is_path S p e nodes = true → nodes.Nodup := by
  intro nodes
  induction nodes with
  | nil => intro _ _ _; exact List.nodup_nil
  | cons a rest ih =>
    intro p e h
    obtain ⟨hp, _, s, _, hrest⟩ := is_path_cons S p e a rest h
    refine List.nodup_cons.mpr ⟨?_, ih _ _ hrest⟩
    intro hmem
    obtain ⟨pre, post, hsplit⟩ := List.append_of_mem hmem
    have h1 : is_path S (some a) e (a :: post) = true := by
      rw [hsplit] at hrest
      exact is_path_suffix S pre _ e a post hrest
    have h2 : is_path S (some a) e (a :: rest) = true := by rw [← hp]; exact h
    have := is_path_unique S _ _ _ _ h1 h2
    have hlen := congrArg List.length this
    rw [hsplit] at hlen
    simp at hlen
    omega

/-- In a list that ends (a path to null), every node is the end of a walk from the start: the
list splits there into the nodes before it and the rest, which starts with it. -/
theorem is_path_to_node (S : List ObjectSample) :
    ∀ (all : List Addr) (p : Option Addr) (x : Addr), is_path S p none all = true → x ∈ all →
      ∃ nodes rest, all = nodes ++ x :: rest ∧ is_path S p (some x) nodes = true ∧
        is_path S (some x) none (x :: rest) = true := by
  intro all
  induction all with
  | nil => intro p x _ hx; simp at hx
  | cons a rest ih =>
    intro p x h hx
    obtain ⟨hp, hne, s, hs, hrest⟩ := is_path_cons S p none a rest h
    by_cases hax : a = x
    · subst hax
      refine ⟨[], rest, rfl, ?_, ?_⟩
      · simp [is_path, hp]
      · rw [← hp]; exact h
    · have hx' : x ∈ rest := by
        rcases List.mem_cons.mp hx with h1 | h1
        · exact absurd h1.symm hax
        · exact h1
      obtain ⟨nodes, rest1, hsplit, hn, hr⟩ := ih s.next x hrest hx'
      refine ⟨a :: nodes, rest1, by rw [hsplit]; rfl, ?_, hr⟩
      unfold is_path
      simp [hp, hs, hn, hax]

/-- The loop of `reset_blob_write_state` resets the samples of the path to the end of the
list, in order, when the fuel covers the path. -/
theorem reset_loop_eq :
    ∀ (nodes : List Addr) (fuel : Nat) (ptr : Option Addr) (st : State),
      is_path st.samples ptr none nodes = true → nodes.length ≤ fuel →
      reset_blob_write_state_loop fuel ptr st = .ok (reset_nodes nodes st) := by
  intro nodes
  induction nodes with
  | nil =>
    intro fuel ptr st h _
    have := is_path_nil _ _ _ h
    subst this
    cases fuel <;> rfl
  | cons a rest ih =>
    intro fuel ptr st h hfuel
    obtain ⟨hp, _, s, hs, hrest⟩ := is_path_cons _ _ _ a rest h
    subst hp
    cases fuel with
    | zero => simp at hfuel
    | succ fuel =>
      rw [reset_loop_step fuel a st s hs]
      have hsame : (reset_sample st s).samples = st.samples := by rw [reset_sample_frame]
      rw [ih fuel s.next (reset_sample st s) (by rw [hsame]; exact hrest)
        (by simpa using hfuel)]
      simp [reset_nodes, hs]

/-! ## `do_samples` visits each node of its range once -/

/-- C20: in a sample list that ends (the walk from the start sample reaches null after the
nodes `all`: finite and acyclic), with an end marker that is null or a node of the list, the
list splits into the nodes before the marker and the rest, which starts at the marker; no node
occurs twice, so the two parts are disjoint and together are the whole list.  With fuel for the
first part, `do_samples` with a processor that leaves the links alone is the processor applied
to exactly the nodes of the first part, once each, in list order: it ends when the processor
has returned on all of them, the marker is not visited, and the walk never takes the link of a
null pointer.  In `on_rotation`, where the start is `last` and the marker `last resolved`, the
flag reset is the reset of the second part and the pass of a processor from `last` up to
`last resolved` is the processor applied to the first part. -/
theorem do_samples_visits_once {π : Type}
    (sample_do : Addr → π × State → Except Fault (π × State))
    (hframe : ∀ a p p1, sample_do a p = .ok p1 → links p1.2.samples = links p.2.samples)
    (start : Addr) (end_ : Option Addr) (p : π × State) (all : List Addr)
    (hall : is_path p.2.samples (some start) none all = true)
    (hend : end_ = none ∨ ∃ x ∈ all, end_ = some x) :
    ∃ nodes rest, all = nodes ++ rest ∧ all.Nodup ∧ List.Disjoint nodes rest ∧
      is_path p.2.samples (some start) end_ nodes = true ∧
      is_path p.2.samples end_ none rest = true ∧
      (∀ x, end_ = some x → x ∉ nodes ∧ rest.head? = some x) ∧
      (end_ = none → rest = []) ∧
      (∀ fuel, nodes.length ≤ fuel →
        do_samples sample_do fuel (some start) end_ p = run_list sample_do nodes p) ∧
      (∀ fuel, p.2.last = some start → p.2.last_resolved = end_ → nodes.length ≤ fuel →
        iterate_samples sample_do fuel false p = run_list sample_do nodes p) ∧
      (∀ fuel, p.2.last_resolved = end_ → rest.length ≤ fuel →
        reset_blob_write_state fuel p.2 = .ok (reset_nodes rest p.2)) := by
  have hnodup := is_path_nodup _ _ _ _ hall
  obtain ⟨nodes, rest, hsplit, hn, hr, hx, hnone⟩ : ∃ nodes rest, all = nodes ++ rest ∧
      is_path p.2.samples (some start) end_ nodes = true ∧
      is_path p.2.samples end_ none rest = true ∧
      (∀ x, end_ = some x → rest.head? = some x) ∧ (end_ = none → rest = []) := by
    rcases hend with rfl | ⟨x, hx, rfl⟩
    · exact ⟨all, [], by simp, hall, rfl, fun x h => Option.noConfusion h, fun _ => rfl⟩
    · obtain ⟨nodes, rest, hsplit, hn, hr⟩ := is_path_to_node _ _ _ x hall hx
      refine ⟨nodes, x :: rest, hsplit, hn, hr, ?_, fun h => Option.noConfusion h⟩
      intro y hy
      rw [Option.some.inj hy]; rfl
  have hdis : List.Disjoint nodes rest := by
    rw [hsplit] at hnodup
    exact List.disjoint_of_nodup_append hnodup
  have hdo : ∀ fuel, nodes.length ≤ fuel →
      do_samples sample_do fuel (some start) end_ p = run_list sample_do nodes p := by
    intro fuel hfuel
    unfold do_samples
    simp only [reduceCtorEq, if_false]
    exact do_samples_loop_eq sample_do hframe nodes fuel _ _ p hn hfuel
  refine ⟨nodes, rest, hsplit, hnodup, hdis, hn, hr, ?_, hnone, hdo, ?_, ?_⟩
  · intro x hxe
    have hhead := hx x hxe
    refine ⟨?_, hhead⟩
    intro hmem
    cases rest with
    | nil => simp at hhead
    | cons y rest1 =>
      simp only [List.head?_cons, Option.some.injEq] at hhead
      subst hhead
      exact hdis hmem (List.mem_cons_self _ _)
  · intro fuel hlast hlr hfuel
    unfold iterate_samples
    simp only [hlast, hlr, reduceCtorEq, if_false, Bool.false_eq_true]
    exact hdo fuel hfuel
  · intro fuel hlr hfuel
    unfold reset_blob_write_state
    rw [hlr]
    exact reset_loop_eq rest fuel end_ p.2 hr hfuel

/-- C20 at the four-sample scenario 0 → 1 → 2 → 3 with the marker at sample 1 and the type-set
installer as processor. -/
theorem do_samples_visits_once_witness :
    ∃ nodes rest, [0, 1, 2, 3] = nodes ++ rest ∧ [0, 1, 2, 3].Nodup ∧
      List.Disjoint nodes rest ∧
      is_path State.scenario.samples (some 0) (some 1) nodes = true ∧
      is_path State.scenario.samples (some 1) none rest = true ∧
      (∀ x, some 1 = some x → x ∉ nodes ∧ rest.head? = some x) ∧
      ((some 1 : Option Addr) = none → rest = []) ∧
      (∀ fuel, nodes.length ≤ fuel →
        do_samples install_type_set fuel (some 0) (some 1) ((), State.scenario) =
          run_list install_type_set nodes ((), State.scenario)) ∧
      (∀ fuel, State.scenario.last = some 0 → State.scenario.last_resolved = some 1 →
        nodes.length ≤ fuel →
        iterate_samples install_type_set fuel false ((), State.scenario) =
          run_list install_type_set nodes ((), State.scenario)) ∧
      (∀ fuel, State.scenario.last_resolved = some 1 → rest.length ≤ fuel →
        reset_blob_write_state fuel State.scenario = .ok (reset_nodes rest State.scenario)) :=
  do_samples_visits_once install_type_set install_type_set_links 0 (some 1)
    ((), State.scenario) [0, 1, 2, 3] rfl (Or.inr ⟨1, by decide, rfl⟩)

/-! ## The mark pass -/

theorem sample_marker_links (a : Addr) (p p1 : SampleMarker × State)
    (h : SampleMarker.sample_do a p = .ok p1) : links p1.2.samples = links p.2.samples := by
  unfold SampleMarker.sample_do at h
  cases hs : p.2.samples[a]? with
  | none => simp [hs] at h
  | some s =>
    simp only [hs] at h
    by_cases hsel : s.is_alive_and_older_than p.1.last_sweep = true
    · simp only [hsel, if_true] at h
      cases ho : s.object with
      | none => simp [ho] at h
      | some o =>
        simp only [ho, Except.ok.injEq] at h
        subst h; rfl
    · simp only [hsel, Bool.false_eq_true, if_false, Except.ok.injEq] at h
      subst h; rfl

/-- The marker applied to the nodes of a list: the objects of the selected nodes are handed
over in order, one per selected node, and counted; the state is not touched. -/
theorem sample_marker_run (st : State) :
    ∀ (nodes : List Addr) (m : SampleMarker), (∀ a ∈ nodes, ∃ s, st.samples[a]? = some s) →
      run_list SampleMarker.sample_do nodes (m, st) =
        .ok (⟨m.marker ++ objects_at st.samples (marked_nodes st.samples m.last_sweep nodes),
              m.last_sweep, m.count + (marked_nodes st.samples m.last_sweep nodes).length⟩, st) ∧
      (objects_at st.samples (marked_nodes st.samples m.last_sweep nodes)).length =
        (marked_nodes st.samples m.last_sweep nodes).length := by
  intro nodes
  induction nodes with
  | nil =>
    intro m _
    simp [run_list, marked_nodes, objects_at]
  | cons a rest ih =>
    intro m hmem
    obtain ⟨s, hs⟩ := hmem a (List.mem_cons_self _ _)
    have hrest : ∀ b ∈ rest, ∃ s, st.samples[b]? = some s :=
      fun b hb => hmem b (List.mem_cons_of_mem _ hb)
    by_cases hsel : s.is_alive_and_older_than m.last_sweep = true
    · have hobj : ∃ o, s.object = some o := by
        simp only [ObjectSample.is_alive_and_older_than, ObjectSample.is_dead,
          Bool.and_eq_true, Bool.not_eq_true', decide_eq_true_eq] at hsel
        cases ho : s.object with
        | none => rw [ho] at hsel; simp at hsel
        | some o => exact ⟨o, rfl⟩
      obtain ⟨o, ho⟩ := hobj
      obtain ⟨h1, h2⟩ := ih ⟨m.marker ++ [o], m.last_sweep, m.count + 1⟩ hrest
      have hstep : SampleMarker.sample_do a (m, st) =
          .ok (⟨m.marker ++ [o], m.last_sweep, m.count + 1⟩, st) := by
        simp only [SampleMarker.sample_do, hs, hsel, if_true, ho]
      have hm : marked_nodes st.samples m.last_sweep (a :: rest) =
          a :: marked_nodes st.samples m.last_sweep rest := by
        simp [marked_nodes, List.filter_cons, hs, hsel]
      refine ⟨?_, ?_⟩
      · simp only [run_list, hstep, h1, hm]
        simp [objects_at, List.filterMap_cons, hs, ho]
        omega
      · rw [hm]
        simp only [objects_at, List.filterMap_cons, hs, ho, List.length_cons]
        simp only [objects_at] at h2
        rw [h2]
    · obtain ⟨h1, h2⟩ := ih m hrest
      have hstep : SampleMarker.sample_do a (m, st) = .ok (m, st) := by
        simp only [SampleMarker.sample_do, hs, hsel, Bool.false_eq_true, if_false]
      have hm : marked_nodes st.samples m.last_sweep (a :: rest) =
          marked_nodes st.samples m.last_sweep rest := by
        simp [marked_nodes, List.filter_cons, hs, hsel]
      refine ⟨?_, ?_⟩
      · simp only [run_list, hstep, h1, hm]
      · rw [hm]; exact h2

/-- C17: `save_mark_words` returns 0 for an empty sample list, nothing handed to the marker.
For a list `all` from `last` to its end that the fuel covers, wherever the `last resolved`
cursor stands, it returns the number of the samples of the whole list that are alive and older
than the threshold (the maximal time stamp under `emit_all`, else the last sweep); the marker
has been handed the objects of exactly these samples, in list order, one object per selected
sample, and no sample occurs twice in the list; the state, with all blob handles and blob
flags, is returned as it was. -/
theorem save_mark_words_counts (fuel : Nat) (st : State) (marker : ObjectSampleMarker)
    (emit_all : Bool) :
    (st.last = none →
      ObjectSampleCheckpoint.save_mark_words fuel st marker emit_all = .ok (0, marker, st)) ∧
    (∀ all : List Addr, st.last ≠ none → is_path st.samples st.last none all = true →
      all.length ≤ fuel →
      all.Nodup ∧
      (objects_at st.samples (marked_nodes st.samples (threshold st emit_all) all)).length =
        (marked_nodes st.samples (threshold st emit_all) all).length ∧
      ObjectSampleCheckpoint.save_mark_words fuel st marker emit_all =
        .ok ((marked_nodes st.samples (threshold st emit_all) all).length,
             marker ++ objects_at st.samples
               (marked_nodes st.samples (threshold st emit_all) all), st)) := by
  refine ⟨?_, ?_⟩
  · intro h
    simp [ObjectSampleCheckpoint.save_mark_words, h]
  · intro all hlast hpath hfuel
    obtain ⟨hrun, hlen⟩ := sample_marker_run st all ⟨marker, threshold st emit_all, 0⟩
      (is_path_samples _ _ _ _ hpath)
    refine ⟨is_path_nodup _ _ _ _ hpath, hlen, ?_⟩
    unfold ObjectSampleCheckpoint.save_mark_words iterate_samples do_samples
    simp only [hlast, if_false, if_true]
    have hloop := do_samples_loop_eq SampleMarker.sample_do sample_marker_links all fuel
      st.last none (⟨marker, threshold st emit_all, 0⟩, st) hpath hfuel
    unfold threshold at hloop hrun
    rw [hloop, hrun]
    simp [threshold]

/-- C17 at the empty list and at the four-sample scenario, whose cursor stands at sample 1. -/
theorem save_mark_words_counts_witness :
    ObjectSampleCheckpoint.save_mark_words 0 State.initial [] true = .ok (0, [], State.initial) ∧
    ([0, 1, 2, 3] : List Addr).Nodup ∧
    (objects_at State.scenario.samples
      (marked_nodes State.scenario.samples (threshold State.scenario true) [0, 1, 2, 3])).length =
      (marked_nodes State.scenario.samples (threshold State.scenario true) [0, 1, 2, 3]).length ∧
    ObjectSampleCheckpoint.save_mark_words 4 State.scenario [] true =
      .ok ((marked_nodes State.scenario.samples (threshold State.scenario true)
              [0, 1, 2, 3]).length,
           [] ++ objects_at State.scenario.samples
             (marked_nodes State.scenario.samples (threshold State.scenario true) [0, 1, 2, 3]),
           State.scenario) :=
  ⟨(save_mark_words_counts 0 State.initial [] true).1 rfl,
   (save_mark_words_counts 4 State.scenario [] true).2 [0, 1, 2, 3] (by decide) rfl
     (by decide)⟩

/-! ## Blob flags are set only for the blobs a written sample holds -/

theorem exclusive_write_only (st : State) (j : Nat) (w : JfrCheckpointWriter) (i : Nat)
    (h : ((st.exclusive_write j w).2.blobs i).written = true) :
    (st.blobs i).written = true ∨ i = j := by
  unfold State.exclusive_write at h
  by_cases hw : (st.blobs j).written = true
  · rw [if_pos hw] at h
    exact Or.inl h
  · rw [if_neg hw] at h
    by_cases hij : i = j
    · exact Or.inr hij
    · simp only [Function.update_noteq hij] at h
      exact Or.inl h

theorem write_blob_only (b : JfrBlobHandle) (w w1 : JfrCheckpointWriter) (st st1 : State)
    (hr : write_blob b w st = .ok (w1, st1)) (i : Nat) (h : (st1.blobs i).written = true) :
    (st.blobs i).written = true ∨ b = some i := by
  unfold write_blob at hr
  cases b with
  | none => simp at hr
  | some j =>
    simp only [Except.ok.injEq] at hr
    have := exclusive_write_only st j w i (by rw [hr]; exact h)
    rcases this with h1 | h1
    · exact Or.inl h1
    · exact Or.inr (by rw [h1])

theorem write_blobs_only (s : ObjectSample) (w w1 : JfrCheckpointWriter) (st st1 : State)
    (hr : write_blobs s w st = .ok (w1, st1)) (i : Nat) (h : (st1.blobs i).written = true) :
    (st.blobs i).written = true ∨ s.holds i := by
  unfold write_blobs at hr
  cases h1 : write_stacktrace_blob s w st with
  | error e => simp [h1] at hr
  | ok r1 =>
    obtain ⟨wa, sta⟩ := r1
    simp only [h1] at hr
    cases h2 : write_thread_blob s wa sta with
    | error e => simp [h2] at hr
    | ok r2 =>
      obtain ⟨wb, stb⟩ := r2
      simp only [h2] at hr
      have e3 : (stb.blobs i).written = true ∨ s.type_set = some i := by
        unfold write_type_set_blob at hr
        split_ifs at hr
        · exact write_blob_only _ _ _ _ _ hr i h
        · simp only [Except.ok.injEq, Prod.mk.injEq] at hr
          rw [hr.2]; exact Or.inl h
      rcases e3 with e3 | e3
      swap
      · exact Or.inr (Or.inr (Or.inr e3))
      have e2 : (sta.blobs i).written = true ∨ s.thread = some i := by
        unfold write_thread_blob at h2
        split_ifs at h2
        · exact write_blob_only _ _ _ _ _ h2 i e3
        · cases hx : has_thread_exited sta s.thread_id with
          | error e => simp [hx] at h2
          | ok b =>
            cases b with
            | true =>
              simp only [hx] at h2
              exact write_blob_only _ _ _ _ _ h2 i e3
            | false =>
              simp only [hx, Except.ok.injEq, Prod.mk.injEq] at h2
              rw [h2.2]; exact Or.inl e3
      rcases e2 with e2 | e2
      swap
      · exact Or.inr (Or.inr (Or.inl e2))
      unfold write_stacktrace_blob at h1
      cases hset : st.stacktrace_id_set with
      | none => simp [hset] at h1
      | some set =>
        simp only [hset] at h1
        split_ifs at h1
        · rcases write_blob_only _ _ _ _ _ h1 i e2 with e1 | e1
          · exact Or.inl e1
          · exact Or.inr (Or.inl e1)
        · simp only [Except.ok.injEq, Prod.mk.injEq] at h1
          rw [← h1.2] at e2; exact Or.inl e2
        · simp only [Except.ok.injEq, Prod.mk.injEq] at h1
          rw [← h1.2] at e2; exact Or.inl e2

/-- The per-sample pass over the nodes of a list sets the flag of a blob only if a selected
sample among the nodes holds the blob. -/
theorem blob_writer_run_only : ∀ (nodes : List Addr) (p p1 : BlobWriter × State),
    run_list BlobWriter.sample_do nodes p = .ok p1 →
    ∀ i, (p1.2.blobs i).written = true → (p.2.blobs i).written = true ∨
      ∃ a ∈ nodes, ∃ s, p.2.samples[a]? = some s ∧
        s.is_alive_and_older_than p.1.last_sweep = true ∧ s.holds i := by
  intro nodes
  induction nodes with
  | nil =>
    intro p p1 h i hi
    simp only [run_list, Except.ok.injEq] at h
    subst h
    exact Or.inl hi
  | cons a rest ih =>
    intro p p1 h i hi
    simp only [run_list] at h
    cases hstep : BlobWriter.sample_do a p with
    | error e => simp [hstep] at h
    | ok p0 =>
      simp only [hstep] at h
      obtain ⟨s, hs, hsweep, hem, _⟩ := blob_writer_sample_do_ok a p p0 hstep
      have hsame : p0.2.samples = p.2.samples := (emits_samples hem).1
      rcases ih p0 p1 h i hi with h0 | ⟨b, hb, sb, hsb, hsel, hholds⟩
      · have hfirst : (p.2.blobs i).written = true ∨
            (s.is_alive_and_older_than p.1.last_sweep = true ∧ s.holds i) := by
          unfold BlobWriter.sample_do at hstep
          simp only [hs] at hstep
          by_cases hsel : s.is_alive_and_older_than p.1.last_sweep = true
          · simp only [hsel, if_true] at hstep
            cases hwb : write_blobs s p.1.writer p.2 with
            | error e => simp [hwb] at hstep
            | ok r =>
              obtain ⟨w1, st1⟩ := r
              simp only [hwb, Except.ok.injEq] at hstep
              have h0' : (st1.blobs i).written = true := by rw [← hstep] at h0; exact h0
              rcases write_blobs_only s _ _ _ _ hwb i h0' with h3 | h3
              · exact Or.inl h3
              · exact Or.inr ⟨hsel, h3⟩
          · simp only [hsel, Bool.false_eq_true, if_false, Except.ok.injEq] at hstep
            rw [← hstep] at h0; exact Or.inl h0
        rcases hfirst with h3 | ⟨h3, h4⟩
        · exact Or.inl h3
        · exact Or.inr ⟨a, List.mem_cons_self _ _, s, hs, h3, h4⟩
      · rw [hsame] at hsb
        rw [hsweep] at hsel
        exact Or.inr ⟨b, List.mem_cons_of_mem _ hb, sb, hsb, hsel, hholds⟩

/-! ## The pending set after the per-sample pass -/

/-- C19: let `nodes` be the sample list from `last` to its end.  After a returning per-sample
pass of `write` (on the fresh, empty pending set) the pending set holds an id exactly if it
is the nonzero stack-trace id of a sample of the list that is selected (alive and older than
the threshold) and has no stack-trace blob, each id once: a sample with a stack-trace blob, a
sample with id 0 and a sample that is not selected add nothing.  The step of the pass on a
sample that is not selected returns with writer and state as they were, so none of its blobs
is written for it: the pass copies the bytes of a blob, and sets a blob flag, only if a
selected sample holds the blob.  The pass returns when the list is not empty, fits the fuel,
and every selected sample is writable. -/
theorem pending_set_after_pass (fuel : Nat) (st : State) (emit_all : Bool) (nodes : List Addr)
    (hpath : is_path st.samples st.last none nodes = true) :
    (∀ st1, write_sample_blobs fuel emit_all { st with stacktrace_id_set := some ⟨[]⟩ }
        = .ok st1 →
      ∃ set w, st1.stacktrace_id_set = some set ∧ set.ids.Nodup ∧
        (∀ id, id ∈ set.ids ↔ ∃ a ∈ nodes, ∃ s, st.samples[a]? = some s ∧
          s.is_alive_and_older_than (threshold st emit_all) = true ∧
          s.has_stacktrace = false ∧ s.stack_trace_id = id ∧ id ≠ 0) ∧
        st1.checkpoints = st.checkpoints ++ block_of w ∧
        (∀ k, 0 < emissions_in k w → ∃ a ∈ nodes, ∃ s, st.samples[a]? = some s ∧
          s.is_alive_and_older_than (threshold st emit_all) = true ∧ s.holds k) ∧
        (∀ k, (st1.blobs k).written = true → (st.blobs k).written = true ∨
          ∃ a ∈ nodes, ∃ s, st.samples[a]? = some s ∧
            s.is_alive_and_older_than (threshold st emit_all) = true ∧ s.holds k)) ∧
    (∀ (a : Addr) (s : ObjectSample) (p : BlobWriter × State), p.2.samples[a]? = some s →
      s.is_alive_and_older_than p.1.last_sweep = false → BlobWriter.sample_do a p = .ok p) ∧
    (nodes ≠ [] → nodes.length ≤ fuel →
      (∀ a ∈ nodes, ∀ s, st.samples[a]? = some s →
        s.is_alive_and_older_than (threshold st emit_all) = true → writable s) →
      ∃ st1, write_sample_blobs fuel emit_all { st with stacktrace_id_set := some ⟨[]⟩ }
        = .ok st1) := by
  refine ⟨?_, ?_, ?_⟩
  · intro st1 hpass
    obtain ⟨st0, hst0⟩ : ∃ st0 : State, st0 = { st with stacktrace_id_set := some ⟨[]⟩ } :=
      ⟨_, rfl⟩
    rw [← hst0] at hpass
    have hsamples : st0.samples = st.samples := by rw [hst0]
    have hlast0 : st0.last = st.last := by rw [hst0]
    have hthr0 : threshold st0 emit_all = threshold st emit_all := by rw [hst0]; rfl
    have hblobs0 : st0.blobs = st.blobs := by rw [hst0]
    have hcp0 : st0.checkpoints = st.checkpoints := by rw [hst0]
    have hset0 : st0.stacktrace_id_set = some ⟨[]⟩ := by rw [hst0]
    unfold write_sample_blobs at hpass
    have hthr : (if emit_all then max_jlong else st0.last_sweep) = threshold st0 emit_all := rfl
    simp only [hthr] at hpass
    cases hrun : iterate_samples BlobWriter.sample_do fuel true
        (⟨[], threshold st0 emit_all⟩, st0) with
    | error e => simp [hrun] at hpass
    | ok p =>
      simp only [hrun, Except.ok.injEq] at hpass
      unfold iterate_samples do_samples at hrun
      by_cases hl : st0.last = none
      · simp [hl] at hrun
      · simp only [hl, if_false, if_true] at hrun
        obtain ⟨nodes1, hp1, hlen1⟩ :=
          do_samples_loop_path _ blob_writer_links _ _ _ _ _ hrun
        have hp1' : is_path st.samples st.last none nodes1 = true := by
          rw [← hsamples, ← hlast0]; exact hp1
        have hnn := is_path_unique _ _ _ _ _ hp1' hpath
        subst hnn
        rw [do_samples_loop_eq _ blob_writer_links nodes1 fuel _ _ _ hp1 hlen1] at hrun
        obtain ⟨_, hem, _, hsetp⟩ := blob_writer_run nodes1 _ p hrun
        have honly := blob_writer_run_only nodes1 _ p hrun
        simp only [hsamples, hthr0, hblobs0] at hsetp honly
        have hsetp' := hsetp ⟨[]⟩ hset0
        obtain ⟨_, c2, _, _, _, c6, _⟩ := commit_same p.2 p.1.writer
        have hsel : ∀ id, id ∈ selected_pending st.samples (threshold st emit_all) nodes1 ↔
            ∃ a ∈ nodes1, ∃ s, st.samples[a]? = some s ∧
              s.is_alive_and_older_than (threshold st emit_all) = true ∧
              s.has_stacktrace = false ∧ s.stack_trace_id = id ∧ id ≠ 0 := by
          intro id
          unfold selected_pending
          rw [List.mem_filterMap]
          constructor
          · rintro ⟨a, ha, hval⟩
            cases hs : st.samples[a]? with
            | none => simp [hs] at hval
            | some s =>
              simp only [hs] at hval
              by_cases hsl : s.is_alive_and_older_than (threshold st emit_all) = true
              · simp only [hsl, if_true, pending_id] at hval
                split_ifs at hval with hc
                simp only [Bool.and_eq_true, Bool.not_eq_true', decide_eq_true_eq] at hc
                have hid : s.stack_trace_id = id := Option.some.inj hval
                exact ⟨a, ha, s, hs, hsl, hc.1, hid, by rw [← hid]; exact hc.2⟩
              · simp [hsl] at hval
          · rintro ⟨a, ha, s, hs, hsl, hno, hid, h0⟩
            refine ⟨a, ha, ?_⟩
            simp only [hs, hsl, if_true, pending_id, hno, hid]
            simp [h0]
        refine ⟨⟨first_visits (selected_pending st.samples (threshold st emit_all) nodes1)⟩,
          p.1.writer, ?_, first_visits_nodup _, ?_, ?_, ?_, ?_⟩
        · rw [← hpass, c6]; exact hsetp'
        · intro id
          rw [mem_first_visits]; exact hsel id
        · rw [← hpass, commit_checkpoints, (emits_samples hem).2.2.2.2.1, hcp0]
        · intro k hk
          have hc := hem.count k
          simp only [emissions_in, List.countP_nil, Nat.zero_add] at hc
          simp only [emissions_in] at hk
          rw [hc] at hk
          have hfl : (st0.blobs k).written = false ∧ (p.2.blobs k).written = true := by
            unfold flipped at hk
            split_ifs at hk with hcond
            · simpa using hcond
            · exact absurd hk (by decide)
          rcases honly k hfl.2 with h1 | h1
          · rw [hblobs0] at hfl
            rw [hfl.1] at h1
            exact Bool.noConfusion h1
          · exact h1
        · intro k hk
          rw [← hpass, c2] at hk
          exact honly k hk
  · intro a s p hs hsel
    simp only [BlobWriter.sample_do, hs, hsel, Bool.false_eq_true, if_false]
  · intro hne hfuel hw
    exact write_sample_blobs_total fuel emit_all _ nodes hpath hfuel hne rfl hw

/-- C19 at the four-sample scenario under `emit_all`: the pass returns, and its pending set
holds exactly the ids of the selected samples without a stack-trace blob. -/
theorem pending_set_after_pass_witness :
    (∃ set, (result_or (write_sample_blobs 4 true
        { State.scenario with stacktrace_id_set := some ⟨[]⟩ }) State.initial).stacktrace_id_set
          = some set ∧ set.ids.Nodup ∧
      ∀ id, id ∈ set.ids ↔ ∃ a ∈ [0, 1, 2, 3], ∃ s, State.scenario.samples[a]? = some s ∧
        s.is_alive_and_older_than (threshold State.scenario true) = true ∧
        s.has_stacktrace = false ∧ s.stack_trace_id = id ∧ id ≠ 0) ∧
    ∃ st1, write_sample_blobs 4 true { State.scenario with stacktrace_id_set := some ⟨[]⟩ }
      = .ok st1 := by
  have h := pending_set_after_pass 4 State.scenario true [0, 1, 2, 3] rfl
  refine ⟨?_, h.2.2 (by decide) (by decide) ?_⟩
  · obtain ⟨set, _, h1, h2, h3, _⟩ := h.1 _ rfl
    exact ⟨set, h1, h2, h3⟩
  · intro a ha s hs _
    simp only [List.mem_cons, List.mem_singleton, List.not_mem_nil, or_false] at ha
    rcases ha with rfl | rfl | rfl | rfl <;>
      (cases hs; exact ⟨rfl, Or.inr (by decide)⟩)

/-! ## Which blobs of a selected sample are handed to the writer -/

theorem write_blob_valid (b : JfrBlobHandle) (w : JfrCheckpointWriter) (st : State)
    (h : b.valid = true) : ∃ r, write_blob b w st = .ok r := by
  cases b with
  | none => exact Bool.noConfusion h
  | some k => exact ⟨_, rfl⟩

theorem write_stacktrace_blob_total (s : ObjectSample) (w : JfrCheckpointWriter) (st : State)
    (hset : st.stacktrace_id_set.isSome = true) :
    ∃ r, write_stacktrace_blob s w st = .ok r := by
  unfold write_stacktrace_blob
  cases hs : st.stacktrace_id_set with
  | none => simp [hs] at hset
  | some set =>
    simp only
    by_cases hhas : s.has_stacktrace = true
    · simp only [hhas, if_true]
      exact write_blob_valid _ _ _ hhas
    · simp only [hhas, Bool.false_eq_true, if_false]
      split_ifs
      · exact ⟨_, rfl⟩
      · exact ⟨_, rfl⟩

/-- C11: the step of the per-sample pass of `write` on a selected sample (alive and older
than the threshold) that is writable, with the pending set allocated, returns, and is made of
three steps.  After the stack-trace step, the thread blob is handed to the writer (`write_blob`
on the sample's thread blob) if the sample's thread is virtual or its thread id is recorded as
exited, and otherwise, for a live platform thread, the thread step leaves writer and state as
they are, so the blob is not written; then the type-set blob is handed to the writer if the
sample has one, and otherwise the type-set step leaves writer and state as they are. -/
theorem thread_blob_handoff (a : Addr) (p : BlobWriter × State) (s : ObjectSample)
    (hs : p.2.samples[a]? = some s)
    (hsel : s.is_alive_and_older_than p.1.last_sweep = true)
    (hset : p.2.stacktrace_id_set.isSome = true) (hw : writable s) :
    ∃ w1 st1 w2 st2 w3 st3,
      write_stacktrace_blob s p.1.writer p.2 = .ok (w1, st1) ∧
      write_thread_blob s w1 st1 = .ok (w2, st2) ∧
      write_type_set_blob s w2 st2 = .ok (w3, st3) ∧
      BlobWriter.sample_do a p = .ok ({ p.1 with writer := w3 }, st3) ∧
      ((s.is_virtual_thread = true ∨ has_thread_exited p.2 s.thread_id = .ok true) →
        write_blob s.thread w1 st1 = .ok (w2, st2)) ∧
      (s.is_virtual_thread = false → has_thread_exited p.2 s.thread_id = .ok false →
        (w2, st2) = (w1, st1)) ∧
      (s.has_type_set = true → write_blob s.type_set w2 st2 = .ok (w3, st3)) ∧
      (s.has_type_set = false → (w3, st3) = (w2, st2)) := by
  obtain ⟨hthread, htid⟩ := hw
  obtain ⟨⟨w1, st1⟩, h1⟩ := write_stacktrace_blob_total s p.1.writer p.2 hset
  have hun : st1.unloaded_thread_id_set = p.2.unloaded_thread_id_set :=
    (emits_samples (write_stacktrace_blob_spec s _ _ _ _ h1).1).2.2.2.2.2
  have hex : has_thread_exited st1 s.thread_id = has_thread_exited p.2 s.thread_id := by
    unfold has_thread_exited; rw [hun]
  obtain ⟨⟨wt, stt⟩, hwt⟩ := write_blob_valid s.thread w1 st1 hthread
  have h2 : ∃ w2 st2, write_thread_blob s w1 st1 = .ok (w2, st2) ∧
      ((s.is_virtual_thread = true ∨ has_thread_exited p.2 s.thread_id = .ok true) →
        write_blob s.thread w1 st1 = .ok (w2, st2)) ∧
      (s.is_virtual_thread = false → has_thread_exited p.2 s.thread_id = .ok false →
        (w2, st2) = (w1, st1)) := by
    unfold write_thread_blob
    simp only [hthread, Bool.not_true, Bool.false_eq_true, if_false, hex]
    by_cases hv : s.is_virtual_thread = true
    · rw [if_pos hv]
      exact ⟨wt, stt, hwt, fun _ => hwt, fun h => by simp [hv] at h⟩
    · rw [if_neg hv]
      have h0 : s.thread_id ≠ 0 := by
        rcases htid with h | h
        · exact absurd h hv
        · exact h
      cases hx : has_thread_exited p.2 s.thread_id with
      | error e =>
        unfold has_thread_exited at hx
        simp only [h0, if_false] at hx
        cases hu : p.2.unloaded_thread_id_set <;> simp [hu] at hx
      | ok b =>
        cases b with
        | true =>
          exact ⟨wt, stt, hwt, fun _ => hwt, fun _ h => by simp at h⟩
        | false =>
          refine ⟨w1, st1, rfl, ?_, fun _ _ => rfl⟩
          rintro (h | h)
          · exact absurd h hv
          · simp at h
  obtain ⟨w2, st2, h2, h2a, h2b⟩ := h2
  have h3 : ∃ w3 st3, write_type_set_blob s w2 st2 = .ok (w3, st3) ∧
      (s.has_type_set = true → write_blob s.type_set w2 st2 = .ok (w3, st3)) ∧
      (s.has_type_set = false → (w3, st3) = (w2, st2)) := by
    unfold write_type_set_blob
    by_cases ht : s.has_type_set = true
    · obtain ⟨⟨w3, st3⟩, h3⟩ := write_blob_valid s.type_set w2 st2 ht
      rw [if_pos ht]
      exact ⟨w3, st3, h3, fun _ => h3, fun h => by simp [ht] at h⟩
    · rw [if_neg ht]
      exact ⟨w2, st2, rfl, fun h => absurd h ht, fun _ => rfl⟩
  obtain ⟨w3, st3, h3, h3a, h3b⟩ := h3
  refine ⟨w1, st1, w2, st2, w3, st3, h1, h2, h3, ?_, h2a, h2b, h3a, h3b⟩
  simp only [BlobWriter.sample_do, hs, hsel, if_true, write_blobs, h1, h2, h3]

/-- C11 at the newest sample of the scenario after its platform thread has exited: the thread
blob is handed to the writer, and there is no type-set blob to hand over. -/
theorem thread_blob_handoff_witness :
    ∃ w1 st1 w2 st2 w3 st3,
      write_stacktrace_blob ObjectSample.scenario_head
        (⟨[], max_jlong⟩ : BlobWriter).writer State.scenario_exited = .ok (w1, st1) ∧
      write_thread_blob ObjectSample.scenario_head w1 st1 = .ok (w2, st2) ∧
      write_type_set_blob ObjectSample.scenario_head w2 st2 = .ok (w3, st3) ∧
      BlobWriter.sample_do 0 (⟨[], max_jlong⟩, State.scenario_exited) =
        .ok ({ (⟨[], max_jlong⟩ : BlobWriter) with writer := w3 }, st3) ∧
      ((ObjectSample.scenario_head.is_virtual_thread = true ∨
          has_thread_exited State.scenario_exited ObjectSample.scenario_head.thread_id
            = .ok true) →
        write_blob ObjectSample.scenario_head.thread w1 st1 = .ok (w2, st2)) ∧
      (ObjectSample.scenario_head.is_virtual_thread = false →
        has_thread_exited State.scenario_exited ObjectSample.scenario_head.thread_id
          = .ok false →
        (w2, st2) = (w1, st1)) ∧
      (ObjectSample.scenario_head.has_type_set = true →
        write_blob ObjectSample.scenario_head.type_set w2 st2 = .ok (w3, st3)) ∧
      (ObjectSample.scenario_head.has_type_set = false → (w3, st3) = (w2, st2)) :=
  thread_blob_handoff 0 (⟨[], max_jlong⟩, State.scenario_exited) ObjectSample.scenario_head
    rfl (by decide) rfl ⟨rfl, Or.inr (by decide)⟩

/-! ## Marking methods for retention -/

theorem first_visits_from_cons {α : Type} [DecidableEq α] (seen : List α) (k : α)
    (keys : List α) :
    first_visits_from seen (k :: keys) =
      first_visits_from (if k ∈ seen then seen else seen ++ [k]) keys := by
  simp [first_visits_from]

/-- What one call of `add_to_leakp_set` for a method does: a method id that is in the id set
is skipped; one that is not is added to the set, and marked unless its class is unloaded. -/
theorem add_to_leakp_set_method_spec (st : State) (set : JfrTraceIdSet) (ik : Nat)
    (m : traceid) (hset : st.id_set = some set) (hm : m ≠ 0) :
    ∃ st1, ObjectSampleCheckpoint.add_to_leakp_set st ik m = .ok st1 ∧
      st1.id_set = some ⟨if m ∈ set.ids then set.ids else set.ids ++ [m]⟩ ∧
      st1.leakp_methods = st.leakp_methods ++
        (if m ∈ set.ids ∨ is_klass_unloaded st (st.klass_id m) = true then []
         else [(ik, m)]) ∧
      st1.unloaded_klasses = st.unloaded_klasses ∧ st1.klass_id = st.klass_id := by
  unfold ObjectSampleCheckpoint.add_to_leakp_set is_processed
  simp only [hm, if_false, hset, JfrTraceIdSet.add, JfrTraceIdSet.contains]
  by_cases hin : m ∈ set.ids
  · simp [hin]
  · by_cases hun : is_klass_unloaded st (st.klass_id m) = true
    · have hun' : is_klass_unloaded { st with id_set := some ⟨set.ids ++ [m]⟩ }
          (st.klass_id m) = true := hun
      simp [hin, hun, hun']
    · have hun' : ¬ is_klass_unloaded { st with id_set := some ⟨set.ids ++ [m]⟩ }
          (st.klass_id m) = true := hun
      simp [hin, hun, hun', State.load_leakp_method]

/-- The marks of the frame loop of `write_stacktrace`: no method id is marked twice, and a
method id is marked exactly if it occurs in a frame, was not in the id set before, and its
class is not unloaded; every id of a frame is in the id set afterwards. -/
theorem write_frames_marks : ∀ (frames : List JfrStackFrame) (w : JfrCheckpointWriter)
    (st : State) (set : JfrTraceIdSet), st.id_set = some set →
    (∀ f ∈ frames, f.methodid ≠ 0) →
    ∃ w1 st1 marks, write_frames frames w st = .ok (w1, st1) ∧
      st1.leakp_methods = st.leakp_methods ++ marks ∧
      st1.id_set = some ⟨first_visits_from set.ids (frames.map (fun f => f.methodid))⟩ ∧
      st1.unloaded_klasses = st.unloaded_klasses ∧ st1.klass_id = st.klass_id ∧
      (marks.map Prod.snd).Nodup ∧
      (∀ m, m ∈ marks.map Prod.snd ↔ (m ∈ frames.map (fun f => f.methodid) ∧ m ∉ set.ids ∧
        is_klass_unloaded st (st.klass_id m) = false)) ∧
      (∀ x ∈ marks, ∃ f ∈ frames, f.klass = x.1 ∧ f.methodid = x.2) := by
  intro frames
  induction frames with
  | nil =>
    intro w st set hset _
    refine ⟨w, st, [], rfl, by simp, ?_, rfl, rfl, List.nodup_nil, by simp, by simp⟩
    rw [hset]; rfl
  | cons f rest ih =>
    intro w st set hset hm
    obtain ⟨st0, h0, hid0, hmarks0, hunl0, hkid0⟩ := add_to_leakp_set_method_spec st set f.klass
      f.methodid hset (hm f (List.mem_cons_self _ _))
    obtain ⟨w1, st1, marks, hrun, hmarks, hid1, hunl1, hkid1, hnodup, hmem, hfr⟩ :=
      ih (w ++ [Entry.field (Field.frame f)]) st0 _ hid0
        (fun g hg => hm g (List.mem_cons_of_mem _ hg))
    have hunl : ∀ m, is_klass_unloaded st0 (st0.klass_id m) =
        is_klass_unloaded st (st.klass_id m) := by
      intro m; unfold is_klass_unloaded; rw [hunl0, hkid0]
    simp only [hunl] at hmem
    obtain ⟨head, hhead_def⟩ : ∃ head : List (Nat × traceid), head =
        (if f.methodid ∈ set.ids ∨ is_klass_unloaded st (st.klass_id f.methodid) = true
         then [] else [(f.klass, f.methodid)]) := ⟨_, rfl⟩
    rw [← hhead_def] at hmarks0
    have hhead : ∀ m, m ∈ head.map Prod.snd ↔ (m = f.methodid ∧ f.methodid ∉ set.ids ∧
        is_klass_unloaded st (st.klass_id f.methodid) = false) := by
      intro m
      rw [hhead_def]
      by_cases hin : f.methodid ∈ set.ids
      · simp [hin]
      · by_cases hun : is_klass_unloaded st (st.klass_id f.methodid) = true
        · simp [hin, hun]
        · simp [hin, hun]
    have hhead_len : (head.map Prod.snd).Nodup := by
      rw [hhead_def]
      split_ifs
      · exact List.nodup_nil
      · exact List.nodup_singleton _
    have hhead_frame : ∀ x ∈ head, x = (f.klass, f.methodid) := by
      intro x hx
      rw [hhead_def] at hx
      split_ifs at hx
      · simp at hx
      · simpa using hx
    have hset0 : ∀ m, (m ∉ (if f.methodid ∈ set.ids then set.ids else set.ids ++ [f.methodid]))
        ↔ (m ∉ set.ids ∧ (f.methodid ∈ set.ids ∨ m ≠ f.methodid)) := by
      intro m
      by_cases hin : f.methodid ∈ set.ids
      · simp [hin]
      · simp [hin]
    simp only [hset0] at hmem
    refine ⟨w1, st1, head ++ marks, ?_, ?_, ?_, ?_, ?_, ?_, ?_, ?_⟩
    · simp only [write_frames, h0, hrun]
    · rw [hmarks, hmarks0, List.append_assoc]
    · rw [hid1, List.map_cons, first_visits_from_cons]
    · rw [hunl1, hunl0]
    · rw [hkid1, hkid0]
    · rw [List.map_append, List.nodup_append]
      refine ⟨hhead_len, hnodup, ?_⟩
      intro x hx1 hx2
      have a1 := (hhead x).mp hx1
      have a2 := (hmem x).mp hx2
      rcases a2.2.1.2 with h | h
      · exact a1.2.1 h
      · exact h a1.1
    · intro m
      rw [List.map_append, List.mem_append, hmem m, hhead m, List.map_cons, List.mem_cons]
      by_cases hmf : m = f.methodid
      · subst hmf; tauto
      · tauto
    · intro x hx
      rcases List.mem_append.mp hx with hx | hx
      · rw [hhead_frame x hx]
        exact ⟨f, List.mem_cons_self _ _, rfl, rfl⟩
      · obtain ⟨g, hg, h1, h2⟩ := hfr x hx
        exact ⟨g, List.mem_cons_of_mem _ hg, h1, h2⟩

theorem mem_first_visits_from {α : Type} [DecidableEq α] :
    ∀ (keys seen : List α) (k : α), k ∈ first_visits_from seen keys ↔ k ∈ seen ∨ k ∈ keys := by
  intro keys
  induction keys with
  | nil => intro seen k; simp [first_visits_from]
  | cons x rest ih =>
    intro seen k
    rw [first_visits_from_cons, ih]
    by_cases hx : x ∈ seen
    · simp only [hx, if_true, List.mem_cons]
      constructor
      · rintro (h | h)
        · exact Or.inl h
        · exact Or.inr (Or.inr h)
      · rintro (h | h | h)
        · exact Or.inl h
        · subst h; exact Or.inl hx
        · exact Or.inr h
    · simp only [hx, if_false, List.mem_append, List.mem_singleton, List.mem_cons]
      tauto

/-- C14: `write_stacktrace` of a trace whose frames carry nonzero method ids, in a pass with
an allocated id set, returns, and the methods it has marked for retention (`load_leakp`) are
these: a method id of the trace that was not yet in the id set of the pass and whose class is
not reported unloaded is marked exactly once, in however many frames it occurs, and always
with the class of a frame that carries it; a method id whose class is reported unloaded is not
marked, and neither is one that the id set already held; afterwards `is_processed` reports
every method id of the trace as processed. -/
theorem leakp_marks_once (t : JfrStackTrace) (w : JfrCheckpointWriter) (st : State)
    (set : JfrTraceIdSet) (hset : st.id_set = some set)
    (hm : ∀ f ∈ t.frames, f.methodid ≠ 0) :
    ∃ w1 st1 marks, ObjectSampleCheckpoint.write_stacktrace t w st = .ok (w1, st1) ∧
      st1.leakp_methods = st.leakp_methods ++ marks ∧
      (∀ m, m ∈ t.frames.map (fun f => f.methodid) → m ∉ set.ids →
        is_klass_unloaded st (st.klass_id m) = false → (marks.map Prod.snd).count m = 1) ∧
      (∀ m, is_klass_unloaded st (st.klass_id m) = true → (marks.map Prod.snd).count m = 0) ∧
      (∀ m, m ∈ set.ids → (marks.map Prod.snd).count m = 0) ∧
      (∀ x ∈ marks, ∃ f ∈ t.frames, f.klass = x.1 ∧ f.methodid = x.2) ∧
      (∀ m, m ∈ t.frames.map (fun f => f.methodid) →
        ∃ st2, is_processed st1 m = .ok (true, st2)) := by
  obtain ⟨w1, st1, marks, hrun, hmarks, hid, _, _, hnodup, hmem, hfr⟩ :=
    write_frames_marks t.frames
      (w ++ [Entry.field (Field.u8 t.id)] ++
        [Entry.field (Field.u1 (if t.reached_root then 0 else 1))] ++
        [Entry.field (Field.u4 (t.number_of_frames % 2 ^ 32))]) st set hset hm
  refine ⟨w1, st1, marks, ?_, hmarks, ?_, ?_, ?_, hfr, ?_⟩
  · unfold ObjectSampleCheckpoint.write_stacktrace
    simp only [JfrStackTrace.number_of_frames, List.take_length]
    exact hrun
  · intro m h1 h2 h3
    exact List.count_eq_one_of_mem hnodup ((hmem m).mpr ⟨h1, h2, h3⟩)
  · intro m hun
    apply List.count_eq_zero_of_not_mem
    intro hin
    have := ((hmem m).mp hin).2.2
    rw [hun] at this
    exact Bool.noConfusion this
  · intro m hin
    apply List.count_eq_zero_of_not_mem
    intro h
    exact ((hmem m).mp h).2.1 hin
  · intro m hin
    have h0 : m ≠ 0 := by
      obtain ⟨f, hf, rfl⟩ := List.mem_map.mp hin
      exact hm f hf
    have hin1 : m ∈ first_visits_from set.ids (t.frames.map (fun f => f.methodid)) :=
      (mem_first_visits_from _ _ m).mpr (Or.inr hin)
    unfold is_processed
    simp only [h0, if_false, hid, JfrTraceIdSet.add, JfrTraceIdSet.contains, hin1,
      decide_True, if_true, Bool.not_false]
    exact ⟨_, rfl⟩

/-- C14 at a trace with two frames of method 65537 of class 1 and one frame of a method of
the unloaded class 2, on a fresh id set: the one mark is (1, 65537). -/
theorem leakp_marks_once_witness :
    ∃ w1 st1 marks, ObjectSampleCheckpoint.write_stacktrace
        ⟨42, 3, true, [⟨1, 65537, 10, 0, 0⟩, ⟨2, 131073, 5, 0, 0⟩, ⟨1, 65537, 12, 0, 0⟩], true⟩
        [] State.unloaded_two = .ok (w1, st1) ∧
      st1.leakp_methods = State.unloaded_two.leakp_methods ++ marks ∧
      (∀ m, m ∈ ([⟨1, 65537, 10, 0, 0⟩, ⟨2, 131073, 5, 0, 0⟩, ⟨1, 65537, 12, 0, 0⟩] :
            List JfrStackFrame).map (fun f => f.methodid) →
        m ∉ (⟨[]⟩ : JfrTraceIdSet).ids →
        is_klass_unloaded State.unloaded_two (State.unloaded_two.klass_id m) = false →
        (marks.map Prod.snd).count m = 1) ∧
      (∀ m, is_klass_unloaded State.unloaded_two (State.unloaded_two.klass_id m) = true →
        (marks.map Prod.snd).count m = 0) ∧
      (∀ m, m ∈ (⟨[]⟩ : JfrTraceIdSet).ids → (marks.map Prod.snd).count m = 0) ∧
      (∀ x ∈ marks, ∃ f ∈ ([⟨1, 65537, 10, 0, 0⟩, ⟨2, 131073, 5, 0, 0⟩,
          ⟨1, 65537, 12, 0, 0⟩] : List JfrStackFrame), f.klass = x.1 ∧ f.methodid = x.2) ∧
      (∀ m, m ∈ ([⟨1, 65537, 10, 0, 0⟩, ⟨2, 131073, 5, 0, 0⟩, ⟨1, 65537, 12, 0, 0⟩] :
            List JfrStackFrame).map (fun f => f.methodid) →
        ∃ st2, is_processed st1 m = .ok (true, st2)) :=
  leakp_marks_once
    ⟨42, 3, true, [⟨1, 65537, 10, 0, 0⟩, ⟨2, 131073, 5, 0, 0⟩, ⟨1, 65537, 12, 0, 0⟩], true⟩
    [] State.unloaded_two ⟨[]⟩ rfl (by decide)

/-! ## Attached stack-trace handles -/

theorem sample_marker_state (a : Addr) (p p1 : SampleMarker × State)
    (h : SampleMarker.sample_do a p = .ok p1) : p1.2 = p.2 := by
  unfold SampleMarker.sample_do at h
  cases hs : p.2.samples[a]? with
  | none => simp [hs] at h
  | some s =>
    simp only [hs] at h
    by_cases hsel : s.is_alive_and_older_than p.1.last_sweep = true
    · simp only [hsel, if_true] at h
      cases ho : s.object with
      | none => simp [ho] at h
      | some o =>
        simp only [ho, Except.ok.injEq] at h
        subst h; rfl
    · simp only [hsel, Bool.false_eq_true, if_false, Except.ok.injEq] at h
      subst h; rfl

/-- A returning `save_mark_words` returns the state it was given. -/
theorem save_mark_words_state (fuel : Nat) (st : State) (marker : ObjectSampleMarker)
    (emit_all : Bool) (r : Nat × ObjectSampleMarker × State)
    (h : ObjectSampleCheckpoint.save_mark_words fuel st marker emit_all = .ok r) :
    r.2.2 = st := by
  unfold ObjectSampleCheckpoint.save_mark_words at h
  by_cases hl : st.last = none
  · simp only [hl, if_true, Except.ok.injEq] at h
    subst h; rfl
  · simp only [hl, if_false] at h
    cases hrun : iterate_samples SampleMarker.sample_do fuel true
        (⟨marker, if emit_all then max_jlong else st.last_sweep, 0⟩, st) with
    | error e => simp [hrun] at h
    | ok p =>
      simp only [hrun, Except.ok.injEq] at h
      subst h
      unfold iterate_samples do_samples at hrun
      simp only [hl, if_false, if_true] at hrun
      exact do_samples_loop_invariant SampleMarker.sample_do (fun q => q.2 = st)
        (fun a q q1 hq hdo => (sample_marker_state a q q1 hdo).trans hq)
        fuel _ _ _ p rfl hrun

/-- A resolver pass over the nodes of a list leaves alone every sample that is not among the
nodes or fails the stack-trace precondition, and every blob allocated before the pass. -/
theorem installer_run_keeps : ∀ (nodes : List Addr) (p p1 : StackTraceBlobInstaller × State),
    run_list StackTraceBlobInstaller.sample_do nodes p = .ok p1 →
    (∀ b s, p.2.samples[b]? = some s → (b ∉ nodes ∨ stack_trace_precondition s = false) →
      p1.2.samples[b]? = some s) ∧
    p.2.blob_count ≤ p1.2.blob_count ∧
    (∀ k, k < p.2.blob_count → p1.2.blobs k = p.2.blobs k) := by
  intro nodes
  induction nodes with
  | nil =>
    intro p p1 h
    simp only [run_list, Except.ok.injEq] at h
    subst h
    exact ⟨fun _ _ hs _ => hs, Nat.le_refl _, fun _ _ => rfl⟩
  | cons a rest ih =>
    intro p p1 h
    simp only [run_list] at h
    cases hstep : StackTraceBlobInstaller.sample_do a p with
    | error e => simp [hstep] at h
    | ok p0 =>
      simp only [hstep] at h
      obtain ⟨ih1, ih2, ih3⟩ := ih p0 p1 h
      obtain ⟨sa, hsa, hcase⟩ := installer_sample_do_ok a p p0 hstep
      have hstep_facts : (∀ b s, p.2.samples[b]? = some s →
            (b ≠ a ∨ stack_trace_precondition s = false) → p0.2.samples[b]? = some s) ∧
          p.2.blob_count ≤ p0.2.blob_count ∧
          (∀ k, k < p.2.blob_count → p0.2.blobs k = p.2.blobs k) := by
        rcases hcase with ⟨_, rfl⟩ | ⟨hpre, _, _, ⟨e, k, _, _, _, hsam, hbl, hcnt, _⟩ |
          ⟨t, _, _, _, _, hsam, hbl, hcnt, _⟩⟩
        · exact ⟨fun _ _ hs _ => hs, Nat.le_refl _, fun _ _ => rfl⟩
        · refine ⟨?_, by rw [hcnt], fun j _ => by rw [hbl]⟩
          intro b s hs hb
          have hba : a ≠ b := by
            rintro rfl
            rw [hsa] at hs
            cases hs
            rcases hb with hb | hb
            · exact hb rfl
            · rw [hpre] at hb; exact Bool.noConfusion hb
          rw [hsam, List.getElem?_set_ne hba]; exact hs
        · refine ⟨?_, by rw [hcnt]; exact Nat.le_succ _, ?_⟩
          · intro b s hs hb
            have hba : a ≠ b := by
              rintro rfl
              rw [hsa] at hs
              cases hs
              rcases hb with hb | hb
              · exact hb rfl
              · rw [hpre] at hb; exact Bool.noConfusion hb
            rw [hsam, List.getElem?_set_ne hba]; exact hs
          · intro j hj
            rw [hbl, Function.update_noteq (Nat.ne_of_lt hj)]
      obtain ⟨s1, s2, s3⟩ := hstep_facts
      refine ⟨?_, Nat.le_trans s2 ih2, ?_⟩
      · intro b s hs hb
        apply ih1 b s
        · apply s1 b s hs
          rcases hb with hb | hb
          · exact Or.inl (fun h => hb (h ▸ List.mem_cons_self _ _))
          · exact Or.inr hb
        · rcases hb with hb | hb
          · exact Or.inl (fun h => hb (List.mem_cons_of_mem _ h))
          · exact Or.inr hb
      · intro j hj
        rw [ih3 j (Nat.lt_of_lt_of_le hj s2), s3 j hj]

/-- A returning resolver pass is the installer applied to the nodes of the unresolved range. -/
theorem install_stack_traces_run (fuel : Nat) (st st1 : State)
    (h : install_stack_traces fuel st = .ok st1) :
    ∃ nodes p1, is_path st.samples st.last st.last_resolved nodes = true ∧
      run_list StackTraceBlobInstaller.sample_do nodes (StackTraceBlobInstaller.new st)
        = .ok p1 ∧ st1 = p1.2 := by
  unfold install_stack_traces at h
  split_ifs at h with h1 h2
  cases hrun : iterate_samples StackTraceBlobInstaller.sample_do fuel false
      (StackTraceBlobInstaller.new st) with
  | error e => simp [hrun] at h
  | ok p =>
    simp only [hrun, Except.ok.injEq] at h
    unfold iterate_samples do_samples at hrun
    have hlast : (StackTraceBlobInstaller.new st).2.last = st.last := rfl
    have hlr : (StackTraceBlobInstaller.new st).2.last_resolved = st.last_resolved := rfl
    simp only [hlast, hlr, h1, if_false, Bool.false_eq_true] at hrun
    obtain ⟨nodes, hp, hl⟩ := do_samples_loop_path _ installer_links _ _ _ _ _ hrun
    rw [do_samples_loop_eq _ installer_links nodes fuel _ _ _ hp hl] at hrun
    exact ⟨nodes, p, hp, hrun, h.symm⟩

/-- C12: a stack-trace blob handle attached to a sample is the sample's stack-trace handle
in every state that `on_type_set`, `write`, `save_mark_words` or `on_rotation` returns, and the
data of the blob stays as it was (for `on_rotation`: of a blob allocated before the call), so
that only its written flag may differ.  For `on_rotation` with unresolved entries the samples
its resolver is to resolve (those of the range from `last` up to `last resolved` that satisfy
the stack-trace precondition) hold no stack-trace blob, which is what `validate_stack_trace`
asserts of them. -/
theorem attached_handle_kept (st : State) (b : Addr) (s : ObjectSample) (k : Nat)
    (hs : st.samples[b]? = some s) (hk : s.stacktrace = some k) :
    (∀ fuel st2, ObjectSampleCheckpoint.on_type_set fuel st = .ok st2 →
      (∃ s2, st2.samples[b]? = some s2 ∧ s2.stacktrace = some k) ∧
      (st2.blobs k).data = (st.blobs k).data) ∧
    (∀ fuel es emit_all st2, ObjectSampleCheckpoint.write fuel st es emit_all = .ok st2 →
      (∃ s2, st2.samples[b]? = some s2 ∧ s2.stacktrace = some k) ∧
      (st2.blobs k).data = (st.blobs k).data) ∧
    (∀ fuel marker emit_all r,
      ObjectSampleCheckpoint.save_mark_words fuel st marker emit_all = .ok r →
      (∃ s2, r.2.2.samples[b]? = some s2 ∧ s2.stacktrace = some k) ∧
      r.2.2.blobs k = st.blobs k) ∧
    (∀ fuel st2, ObjectSampleCheckpoint.on_rotation fuel st = .ok st2 →
      (has_unresolved_entry st = true →
        ∀ U, is_path st.samples st.last st.last_resolved U = true →
          ∀ a ∈ U, ∀ sa, st.samples[a]? = some sa → stack_trace_precondition sa = true →
            sa.has_stacktrace = false) →
      (∃ s2, st2.samples[b]? = some s2 ∧ s2.stacktrace = some k) ∧
      (k < st.blob_count → (st2.blobs k).data = (st.blobs k).data)) := by
  refine ⟨?_, ?_, ?_, ?_⟩
  · intro fuel st2 h
    rcases on_type_set_ok fuel st st2 h with ⟨_, rfl⟩ | ⟨_, _, _, st1, hinst, rfl⟩
    · exact ⟨⟨s, hs, hk⟩, rfl⟩
    · obtain ⟨hfr, hsans⟩ := type_set_install_frame fuel _ _ st st1 hinst
      obtain ⟨s1, hs1, hident⟩ := sans_type_set_at _ _ hsans.symm b s hs
      refine ⟨⟨s1, hs1, ?_⟩, ?_⟩
      · have := congrArg ObjectSample.stacktrace hident
        simp only [ObjectSample.sans_type_set] at this
        rw [this]; exact hk
      · simp only [State.set_last_resolved]
        rw [hfr]
  · intro fuel es emit_all st2 h
    obtain ⟨_, _, stX, _, _, _, hem, _, _, _, _, _, hbl, hsam, _⟩ :=
      write_spec fuel st st2 es emit_all h
    refine ⟨⟨s, by rw [hsam]; exact hs, hk⟩, ?_⟩
    rw [hbl]
    exact hem.data k
  · intro fuel marker emit_all r h
    rw [save_mark_words_state fuel st marker emit_all r h]
    exact ⟨⟨s, hs, hk⟩, rfl⟩
  · intro fuel st2 h hfree
    have hout : has_unresolved_entry st = true →
        ∀ U, is_path st.samples st.last st.last_resolved U = true →
          b ∉ U ∨ stack_trace_precondition s = false := by
      intro hyes U hU
      by_cases hb : b ∈ U
      · right
        cases hpre : stack_trace_precondition s with
        | false => rfl
        | true =>
          have hno := hfree hyes U hU b hb s hs hpre
          simp [ObjectSample.has_stacktrace, JfrBlobHandle.valid, hk] at hno
      · exact Or.inl hb
    obtain ⟨_, st1, hreset, hfr, _, hcase⟩ := on_rotation_ok fuel st st2 h
    have hdata := (reset_loop_frame fuel _ st st1 hreset).2.1
    have hsame : st1.samples = st.samples := by rw [hfr]
    have hcount : st1.blob_count = st.blob_count := by rw [hfr]
    rcases hcase with ⟨_, rfl⟩ | ⟨hyes, st3, hinst, rfl⟩
    · exact ⟨⟨s, by rw [hsame]; exact hs, hk⟩, fun _ => hdata k⟩
    · obtain ⟨U, p1, hpath, hrun, rfl⟩ := install_stack_traces_run fuel st1 st3 hinst
      have hpath' : is_path st.samples st.last st.last_resolved U = true := by
        have h1 : st1.last = st.last := by rw [hfr]
        have h2 : st1.last_resolved = st.last_resolved := by rw [hfr]
        rw [← hsame, ← h1, ← h2]; exact hpath
      obtain ⟨hkeep, _, hblobs⟩ := installer_run_keeps U _ p1 hrun
      have hs1 : (StackTraceBlobInstaller.new st1).2.samples[b]? = some s := by
        have : (StackTraceBlobInstaller.new st1).2.samples = st.samples := hsame
        rw [this]; exact hs
      refine ⟨⟨s, hkeep b s hs1 (hout hyes U hpath'), hk⟩, ?_⟩
      intro hlt
      have hlt1 : k < (StackTraceBlobInstaller.new st1).2.blob_count := by
        have : (StackTraceBlobInstaller.new st1).2.blob_count = st.blob_count := hcount
        rw [this]; exact hlt
      have hb := hblobs k hlt1
      have hb' : (clear_leak_profiler p1.2).blobs k = st1.blobs k := hb
      rw [hb']
      exact hdata k

/-- C12 at sample 2 of the scenario, which holds stack-trace blob 0; the one sample of the
unresolved range holds no stack-trace blob: `on_rotation` returns and sample 2 still holds
blob 0, with its data. -/
theorem attached_handle_kept_witness :
    ∃ st2, ObjectSampleCheckpoint.on_rotation 4 State.scenario = .ok st2 ∧
      (∃ s2, st2.samples[2]? = some s2 ∧ s2.stacktrace = some 0) ∧
      (0 < State.scenario.blob_count → (st2.blobs 0).data = (State.scenario.blobs 0).data) :=
  ⟨_, rfl, (attached_handle_kept State.scenario 2
    { ObjectSample.live (some 3) 3 42 with stacktrace := some 0, thread := some 1 } 0
    rfl rfl).2.2.2 4 _ rfl (fun _ U hU a ha sa hsa _ => by
      have hU0 := is_path_unique State.scenario.samples U [0] _ _ hU rfl
      rw [hU0, List.mem_singleton] at ha
      rw [ha] at hsa
      cases hsa
      rfl)⟩

/-! ## The resolver leaves samples without the precondition alone -/

theorem precondition_false_iff (s : ObjectSample) :
    stack_trace_precondition s = false ↔ (s.stack_trace_id = 0 ∨ s.is_dead = true) := by
  unfold stack_trace_precondition ObjectSample.has_stack_trace_id
  by_cases h0 : s.stack_trace_id = 0
  · simp [h0]
  · cases hd : s.is_dead <;> simp [h0]

/-- The resolver applied to nodes whose samples all fail the precondition changes nothing. -/
theorem installer_run_skips : ∀ (nodes : List Addr) (p : StackTraceBlobInstaller × State),
    (∀ a ∈ nodes, ∃ s, p.2.samples[a]? = some s ∧ stack_trace_precondition s = false) →
    run_list StackTraceBlobInstaller.sample_do nodes p = .ok p := by
  intro nodes
  induction nodes with
  | nil => intro p _; rfl
  | cons a rest ih =>
    intro p h
    obtain ⟨s, hs, hpre⟩ := h a (List.mem_cons_self _ _)
    have hstep : StackTraceBlobInstaller.sample_do a p = .ok p := by
      simp only [StackTraceBlobInstaller.sample_do, hs, hpre, Bool.false_eq_true, if_false]
    simp only [run_list, hstep]
    exact ih p (fun b hb => h b (List.mem_cons_of_mem _ hb))

/-- C21: the resolver touches only samples that satisfy the stack-trace precondition.  On a
sample without a stack-trace id (id 0) or a dead one, `sample_do` returns with installer and
state as they were: the sample, the cache, the retained-metadata marks and the record of
repository lookups are unchanged; so is a whole run over such samples, and a step that
changes anything or fails was on a live sample with a nonzero id.  On such a sample the step
is `install` on that same sample, where `get` is called with a nonzero id and returns, and
`put` on the cache `get` left fails only if the key already has an entry, never for the id.
In every state of a pass from a fresh installer, every cache entry has a nonzero id. -/
theorem resolver_touches_precondition_only (p : StackTraceBlobInstaller × State) :
    (∀ a s, p.2.samples[a]? = some s → (s.stack_trace_id = 0 ∨ s.is_dead = true) →
      StackTraceBlobInstaller.sample_do a p = .ok p) ∧
    (∀ nodes : List Addr,
      (∀ a ∈ nodes, ∃ s, p.2.samples[a]? = some s ∧
        (s.stack_trace_id = 0 ∨ s.is_dead = true)) →
      run_list StackTraceBlobInstaller.sample_do nodes p = .ok p) ∧
    (∀ a s, p.2.samples[a]? = some s → StackTraceBlobInstaller.sample_do a p ≠ .ok p →
      s.stack_trace_id ≠ 0 ∧ s.is_dead = false) ∧
    (∀ a s, p.2.samples[a]? = some s → s.stack_trace_id ≠ 0 → s.is_dead = false →
      StackTraceBlobInstaller.sample_do a p =
        StackTraceBlobInstaller.install a (p.1, add_to_leakp_set p.2 s) ∧
      (add_to_leakp_set p.2 s).samples[a]? = some s ∧
      (∃ blob, p.1.cache.get s =
        .ok (blob, { p.1.cache with lookup_id := s.stack_trace_id })) ∧
      ∀ b,
        (BlobCache.has_entry { p.1.cache with lookup_id := s.stack_trace_id }
            s.stack_trace_hash s.stack_trace_id = false →
          BlobCache.put { p.1.cache with lookup_id := s.stack_trace_id } s b =
            .ok ⟨⟨p.1.cache.table.size,
              ⟨s.stack_trace_hash, s.stack_trace_id, b⟩ :: p.1.cache.table.entries⟩,
              s.stack_trace_id⟩) ∧
        (∀ e, BlobCache.put { p.1.cache with lookup_id := s.stack_trace_id } s b = .error e →
          BlobCache.has_entry { p.1.cache with lookup_id := s.stack_trace_id }
            s.stack_trace_hash s.stack_trace_id = true)) ∧
    (∀ st done,
      run_list StackTraceBlobInstaller.sample_do done (StackTraceBlobInstaller.new st) = .ok p →
      ∀ e ∈ p.1.cache.table.entries, e.id ≠ 0) := by
  have hskip : ∀ a s, p.2.samples[a]? = some s → (s.stack_trace_id = 0 ∨ s.is_dead = true) →
      StackTraceBlobInstaller.sample_do a p = .ok p := by
    intro a s hs hcond
    have hpre := (precondition_false_iff s).mpr hcond
    simp only [StackTraceBlobInstaller.sample_do, hs, hpre, Bool.false_eq_true, if_false]
  refine ⟨hskip, ?_, ?_, ?_, ?_⟩
  · intro nodes h
    apply installer_run_skips
    intro a ha
    obtain ⟨s, hs, hcond⟩ := h a ha
    exact ⟨s, hs, (precondition_false_iff s).mpr hcond⟩
  · intro a s hs hne
    by_cases h0 : s.stack_trace_id = 0
    · exact absurd (hskip a s hs (Or.inl h0)) hne
    · refine ⟨h0, ?_⟩
      cases hd : s.is_dead with
      | false => rfl
      | true => exact absurd (hskip a s hs (Or.inr hd)) hne
  · intro a s hs h0 hd
    have hpre : stack_trace_precondition s = true := by
      simp [stack_trace_precondition, ObjectSample.has_stack_trace_id, h0, hd]
    have hput : ∀ b,
        BlobCache.has_entry { p.1.cache with lookup_id := s.stack_trace_id }
            s.stack_trace_hash s.stack_trace_id = false →
          BlobCache.put { p.1.cache with lookup_id := s.stack_trace_id } s b =
            .ok ⟨⟨p.1.cache.table.size,
              ⟨s.stack_trace_hash, s.stack_trace_id, b⟩ :: p.1.cache.table.entries⟩,
              s.stack_trace_id⟩ := by
      intro b hno
      have hf := BlobCache.find_none_of_not_has_entry _ _ _ hno
      exact BlobCache.put_eq _ s b h0 hf hf
    refine ⟨?_, ?_, ?_, ?_⟩
    · simp only [StackTraceBlobInstaller.sample_do, hs, hpre, if_true]
    · rw [add_to_leakp_set_frame]; exact hs
    · exact ⟨_, BlobCache.get_eq p.1.cache s h0⟩
    · intro b
      refine ⟨hput b, ?_⟩
      intro e he
      cases hent : BlobCache.has_entry { p.1.cache with lookup_id := s.stack_trace_id }
          s.stack_trace_hash s.stack_trace_id with
      | true => rfl
      | false =>
        rw [hput b hent] at he
        exact Except.noConfusion he
  · intro st done hrun e he
    have inv := installer_inv_run (prepare_for_resolution st) done [] _ p
      (installer_inv_new st) hrun
    have hkey : e.key ∈ p.1.cache.table.entries.map BlobEntry.key :=
      List.mem_map.mpr ⟨e, he, rfl⟩
    rw [inv.keys, List.mem_reverse, mem_first_visits] at hkey
    unfold precondition_keys at hkey
    obtain ⟨a, _, hka⟩ := List.mem_filterMap.mp hkey
    unfold precondition_key at hka
    cases hs : (prepare_for_resolution st).samples[a]? with
    | none => simp [hs] at hka
    | some s =>
      simp only [hs] at hka
      by_cases hpre : stack_trace_precondition s = true
      · simp only [hpre, if_true, Option.some.injEq] at hka
        have hid : s.stack_trace_id = e.id := by
          have := congrArg Prod.snd hka
          simpa [ObjectSample.key, BlobEntry.key] using this
        rw [← hid]
        exact precondition_id_ne_zero s hpre
      · simp [hpre] at hka

/-- C21 on the mixed range: the pass over the sample without an id and the dead sample
leaves the fresh installer and the state as they were, and the whole pass returns with the one
cache entry, of nonzero id, for the live sample. -/
theorem resolver_touches_precondition_only_witness :
    run_list StackTraceBlobInstaller.sample_do [0, 1]
        (StackTraceBlobInstaller.new State.mixed_range)
      = .ok (StackTraceBlobInstaller.new State.mixed_range) ∧
    ∀ e ∈ (result_or (run_list StackTraceBlobInstaller.sample_do [0, 1, 2]
        (StackTraceBlobInstaller.new State.mixed_range))
        (StackTraceBlobInstaller.new State.initial)).1.cache.table.entries, e.id ≠ 0 :=
  ⟨(resolver_touches_precondition_only (StackTraceBlobInstaller.new State.mixed_range)).2.1
      [0, 1] (by
        intro a ha
        simp only [List.mem_cons, List.mem_singleton, List.not_mem_nil, or_false] at ha
        rcases ha with rfl | rfl
        · exact ⟨_, rfl, Or.inl rfl⟩
        · exact ⟨_, rfl, Or.inr rfl⟩),
   (resolver_touches_precondition_only
      (result_or (run_list StackTraceBlobInstaller.sample_do [0, 1, 2]
        (StackTraceBlobInstaller.new State.mixed_range))
        (StackTraceBlobInstaller.new State.initial))).2.2.2.2 State.mixed_range [0, 1, 2] rfl⟩

end Jfr
